import Mathlib

/-!
# Fisheye State Routing (Fsr.cc / Fsr.h): wire codec and packet processing

A shallow embedding of the control-plane core of `Fsr.cc`.

* Addresses (`Ipv4Address`, compared through their 32-bit integer) and all
  `uint32_t`, `uint16_t`, `uint8_t` values are natural numbers; a store into a
  fixed-width variable is written with an explicit `% 2 ^ w`.
* `std::vector<uint8_t>` is `List Byte` with `Byte = Fin 256`.
* `std::map` and `std::set` are association lists and lists kept in ascending
  key order, so that iteration visits keys in the order the C++ containers do.
* `simTime()` is a natural number of clock units (the code only copies and adds
  time values).
-/

namespace Fsr

/-! ## Packets (class `FsrPacket`, class `LspEntry`) -/

/-- One element of a `std::vector<uint8_t>`. -/
abbrev Byte := Fin 256

/-- Class `LspEntry`: node address, sequence number and neighbor array. -/
structure LspEntry where
  nodeAddress : Nat
  sequenceNumber : Nat
  neighbors : List Nat
deriving DecidableEq, Repr

/-- Class `FsrPacket`: the fields read and written by `Fsr.cc`. -/
structure FsrPacket where
  packetType : Nat
  sourceAddress : Nat
  sequenceNumber : Nat
  timestamp : Nat
  hopCount : Nat
  lspEntries : List LspEntry
deriving DecidableEq, Repr

/-- An entry whose fields fit the widths the wire format gives them. -/
def LspEntry.valid (e : LspEntry) : Prop :=
  e.nodeAddress < 2 ^ 32 ∧ e.sequenceNumber < 2 ^ 32 ∧
  e.neighbors.length < 2 ^ 16 ∧ ∀ n ∈ e.neighbors, n < 2 ^ 32

/-- A syntactically valid packet: every field fits the width the wire format
gives it (type and hop count one byte, addresses and sequence numbers four
bytes, entry and neighbor counts two bytes). -/
def FsrPacket.valid (p : FsrPacket) : Prop :=
  p.packetType < 2 ^ 8 ∧ p.sourceAddress < 2 ^ 32 ∧ p.sequenceNumber < 2 ^ 32 ∧
  p.hopCount < 2 ^ 8 ∧ p.lspEntries.length < 2 ^ 16 ∧ ∀ e ∈ p.lspEntries, e.valid

/-! ## `Fsr::serializeFsrPacket` -/

/-- The cast `(uint8_t)x`. -/
def toByte (n : Nat) : Byte := ⟨n % 256, Nat.mod_lt _ (by decide)⟩

/-- The four `push_back` calls that emit a `uint32_t`, high byte first. -/
def push32 (v : Nat) : List Byte :=
  [toByte ((v >>> 24) &&& 0xFF), toByte ((v >>> 16) &&& 0xFF),
   toByte ((v >>> 8) &&& 0xFF), toByte (v &&& 0xFF)]

/-- The two `push_back` calls that emit a `uint16_t`, high byte first. -/
def push16 (v : Nat) : List Byte :=
  [toByte ((v >>> 8) &&& 0xFF), toByte (v &&& 0xFF)]

/-- Inner loop of `serializeFsrPacket`: each neighbor address, 4 bytes. -/
def serializeNeighbors : List Nat → List Byte
  | [] => []
  | n :: rest => push32 (n % 2 ^ 32) ++ serializeNeighbors rest

/-- Body of the outer loop of `serializeFsrPacket` for one entry; the loop over
`j < neighborCount` visits the first `neighborCount` neighbors, where
`neighborCount` is the array size stored into a `uint16_t`. -/
def serializeEntry (e : LspEntry) : List Byte :=
  let nodeAddr := e.nodeAddress % 2 ^ 32
  let neighborCount := e.neighbors.length % 2 ^ 16
  push32 nodeAddr ++ push16 neighborCount ++
    serializeNeighbors (e.neighbors.take neighborCount)

/-- Outer loop of `serializeFsrPacket`. -/
def serializeEntries : List LspEntry → List Byte
  | [] => []
  | e :: rest => serializeEntry e ++ serializeEntries rest

/-- The function `Fsr::serializeFsrPacket`. The timestamp is not written. -/
def serializeFsrPacket (p : FsrPacket) : List Byte :=
  let srcAddr := p.sourceAddress % 2 ^ 32
  let seq := p.sequenceNumber % 2 ^ 32
  let entryCount := p.lspEntries.length % 2 ^ 16
  [toByte p.packetType] ++ push32 srcAddr ++ push32 seq ++ [toByte p.hopCount] ++
    push16 entryCount ++ serializeEntries (p.lspEntries.take entryCount)

/-! ## `Fsr::deserializeFsrPacket` -/

/-- How a run of `deserializeFsrPacket` can end without a packet: it returns
`nullptr`, or an index expression `bytes[i]` is evaluated with `i` not below
`bytes.size()`. -/
inductive DecodeFault where
  | nullPacket
  | outOfRange
deriving DecidableEq, Repr

/-- The expression `bytes[offset]`. -/
def readByte (bytes : List Byte) (offset : Nat) : Except DecodeFault Nat :=
  match bytes[offset]? with
  | some b => .ok b.val
  | none => .error .outOfRange

/-- Four reads `x |= ((uint32_t)bytes[offset++]) << s` for `s = 24, 16, 8, 0`
into `x = 0`. A byte is below 256, so no shift leaves 32 bits. -/
def read32 (bytes : List Byte) (offset : Nat) : Except DecodeFault Nat := do
  let b0 ← readByte bytes offset
  let b1 ← readByte bytes (offset + 1)
  let b2 ← readByte bytes (offset + 2)
  let b3 ← readByte bytes (offset + 3)
  pure ((((0 ||| (b0 <<< 24)) ||| (b1 <<< 16)) ||| (b2 <<< 8)) ||| b3)

/-- Two reads `x |= ((uint16_t)bytes[offset++]) << s` for `s = 8, 0`. -/
def read16 (bytes : List Byte) (offset : Nat) : Except DecodeFault Nat := do
  let b0 ← readByte bytes offset
  let b1 ← readByte bytes (offset + 1)
  pure ((0 ||| (b0 <<< 8)) ||| b1)

/-- Inner loop of `deserializeFsrPacket`; the first argument is the number of
iterations still to run. Returns the neighbors read and the new offset. -/
def readNeighbors (bytes : List Byte) : Nat → Nat → Except DecodeFault (List Nat × Nat)
  | 0, offset => .ok ([], offset)
  | j + 1, offset =>
    if offset + 4 > bytes.length then .error .nullPacket
    else do
      let neighborAddr ← read32 bytes offset
      let (rest, off) ← readNeighbors bytes j (offset + 4)
      pure (neighborAddr :: rest, off)

/-- Outer loop of `deserializeFsrPacket`; the second argument is the number of
iterations still to run, `seq` the packet-level sequence number that
`entry.setSequenceNumber(seq)` stores in every entry. -/
def readEntries (bytes : List Byte) (seq : Nat) :
    Nat → Nat → Except DecodeFault (List LspEntry × Nat)
  | 0, offset => .ok ([], offset)
  | i + 1, offset =>
    if offset + 6 > bytes.length then .error .nullPacket
    else do
      let nodeAddr ← read32 bytes offset
      let neighborCount ← read16 bytes (offset + 4)
      let (neighbors, off) ← readNeighbors bytes neighborCount (offset + 6)
      let (rest, off2) ← readEntries bytes seq i off
      pure (⟨nodeAddr, seq, neighbors⟩ :: rest, off2)

/-- Body of `deserializeFsrPacket`, returning also the final value of the local
variable `offset`. `now` is `simTime()`. -/
def deserializeWithOffset (bytes : List Byte) (now : Nat) :
    Except DecodeFault (FsrPacket × Nat) :=
  if bytes.length < 11 then .error .nullPacket
  else do
    let packetType ← readByte bytes 0
    let srcAddr ← read32 bytes 1
    let seq ← read32 bytes 5
    let hopCount ← readByte bytes 9
    if 10 + 2 > bytes.length then .error .nullPacket
    else do
      let entryCount ← read16 bytes 10
      let (entries, off) ← readEntries bytes seq entryCount 12
      pure (⟨packetType, srcAddr, seq, now, hopCount, entries⟩, off)

/-- The function `Fsr::deserializeFsrPacket`. -/
def deserializeFsrPacket (bytes : List Byte) (now : Nat) : Except DecodeFault FsrPacket :=
  match deserializeWithOffset bytes now with
  | .ok (p, _) => .ok p
  | .error f => .error f

/-! ## Reference descriptions of the wire format -/

/-- What the wire carries of an entry: the fields cut to their widths, the
neighbors the encoder emits, and the packet-level sequence number. -/
def wireEntry (seq : Nat) (e : LspEntry) : LspEntry :=
  ⟨e.nodeAddress % 2 ^ 32, seq,
    (e.neighbors.take (e.neighbors.length % 2 ^ 16)).map (· % 2 ^ 32)⟩

/-- What the wire carries of a packet, stamped with the arrival time. -/
def wireImage (p : FsrPacket) (now : Nat) : FsrPacket :=
  ⟨p.packetType % 256, p.sourceAddress % 2 ^ 32, p.sequenceNumber % 2 ^ 32, now,
    p.hopCount % 256,
    (p.lspEntries.take (p.lspEntries.length % 2 ^ 16)).map
      (wireEntry (p.sequenceNumber % 2 ^ 32))⟩

/-- Big-endian encoding of `v` on `w` bytes: most significant byte first. -/
def bigEndian : Nat → Nat → List Byte
  | 0, _ => []
  | w + 1, v => toByte (v / 256 ^ w) :: bigEndian w v

/-- The wire layout of one entry: node address, neighbor count, neighbors. -/
def entryLayout (e : LspEntry) : List Byte :=
  bigEndian 4 e.nodeAddress ++ bigEndian 2 e.neighbors.length ++
    (e.neighbors.map (bigEndian 4)).flatten

/-- The wire layout of a packet: header fields, entry count, entries. -/
def packetLayout (p : FsrPacket) : List Byte :=
  bigEndian 1 p.packetType ++ bigEndian 4 p.sourceAddress ++ bigEndian 4 p.sequenceNumber ++
    bigEndian 1 p.hopCount ++ bigEndian 2 p.lspEntries.length ++
    (p.lspEntries.map entryLayout).flatten

/-- An entry that lists 65536 neighbors. -/
def manyNeighborsEntry : LspEntry := ⟨1, 1, List.replicate 65536 2⟩

/-- A packet whose single entry lists 65536 neighbors. -/
def manyNeighborsPacket : FsrPacket := ⟨2, 1, 1, 0, 10, [manyNeighborsEntry]⟩

/-- A valid packet whose entry carries a sequence number of its own. -/
def ownSeqPacket : FsrPacket :=
  ⟨2, 1, 5, 0, 10, [⟨1, 4, [2]⟩]⟩

/-- A valid packet as `sendTopologyUpdate` builds them. -/
def samplePacket : FsrPacket :=
  ⟨2, 1, 5, 0, 10, [⟨1, 5, [2, 3]⟩]⟩

/-! ## Containers

`std::set<Ipv4Address>` is a list in ascending order without repetition and
`std::map<Ipv4Address, T>` an association list in ascending key order; both are
walked front to back, as the C++ iterators do. -/

/-- The call `s.insert(a)` on a `std::set`. -/
def setInsert (a : Nat) : List Nat → List Nat
  | [] => [a]
  | b :: rest =>
    if a < b then a :: b :: rest
    else if a = b then b :: rest
    else b :: setInsert a rest

/-- The call `m.find(k)` on a `std::map`; `none` stands for `m.end()`. -/
def mapFind {β : Type} : List (Nat × β) → Nat → Option β
  | [], _ => none
  | (k', v) :: rest, k => if k' = k then some v else mapFind rest k

/-- The assignment `m[k] = v` on a `std::map`. -/
def mapSet {β : Type} (k : Nat) (v : β) : List (Nat × β) → List (Nat × β)
  | [] => [(k, v)]
  | (k', v') :: rest =>
    if k < k' then (k, v) :: (k', v') :: rest
    else if k = k' then (k, v) :: rest
    else (k', v') :: mapSet k v rest

/-- The expression `m[k]` read as a value: an absent key is first inserted with
the value-initialised `dflt`. Returns the value and the map afterwards. -/
def mapIndex {β : Type} (m : List (Nat × β)) (k : Nat) (dflt : β) : β × List (Nat × β) :=
  match mapFind m k with
  | some v => (v, m)
  | none => (dflt, mapSet k dflt m)

/-! ## Protocol state (class `Fsr`) -/

/-- The constant `Ipv4Address::ALLONES_ADDRESS`, 255.255.255.255. -/
def ALLONES_ADDRESS : Nat := 4294967295

/-- The constant `UINT32_MAX`. -/
def UINT32_MAX : Nat := 4294967295

/-- The enumerators `HELLO` and `LSP` of the generated packet header
`FsrPacket_m.h`; their values are not fixed here. Being labels of one `switch`
they are distinct. -/
structure PacketKinds where
  HELLO : Nat
  LSP : Nat
deriving DecidableEq, Repr

/-- Struct `tt_entry_t`: link state (neighbor set), sequence number, age. -/
structure tt_entry_t where
  ls : List Nat
  seq : Nat
  age : Nat
deriving DecidableEq, Repr

/-- The values of `IRoute::SourceType`. -/
inductive SourceType where
  | MANUAL | IFACENETMASK | ROUTER_ADVERTISEMENT | OWN_ADV_PREFIX | ICMP_REDIRECT
  | RIP | OSPF | BGP | ZEBRA | MANET | MANET2 | DYMO | EIGRP | LISP | BABEL | ODR
  | UNKNOWN | ISIS
deriving DecidableEq, Repr

/-- The fields of an `Ipv4Route` that `createRoute` sets; `interface` is the id
of the `NetworkInterface` the route points to. -/
structure Ipv4Route where
  destination : Nat
  netmask : Nat
  nextHop : Nat
  interface : Nat
  sourceType : SourceType
  metric : Nat
deriving DecidableEq, Repr

/-- What `createRoute` asks of a `NetworkInterface`. -/
structure NetworkInterface where
  interfaceId : Nat
  wireless : Bool
  loopback : Bool
deriving DecidableEq, Repr

/-- One call `socket.sendTo(pkt, destAddr, fsrPort)` made by
`sendFsrPacketHelper`: the `FsrPacket` it was given, the bytes put into the
datagram, and the destination. -/
structure SentPacket where
  chunk : FsrPacket
  data : List Byte
  destAddr : Nat
  destPort : Nat
deriving DecidableEq, Repr

/-- The members of class `Fsr` together with the parts of the simulation kernel
they act on: the clock `simTime`, the scheduled self-messages (message id and
arrival time), the id given to the next `new cMessage`, and the datagrams
handed to the socket. `routingTable` and `interfaceTable` are `none` while the
pointers are null; the routing table lists its routes in insertion order. -/
structure FsrState where
  selfAddress : Nat
  routingTable : Option (List Ipv4Route)
  interfaceTable : Option (List NetworkInterface)
  helloBroadcastInterval : Nat
  lifeTime : Int
  fsrPort : Nat
  controlBytesSent : Nat
  numLSPsSent : Nat
  numLSPsReceived : Nat
  numHellosSent : Nat
  numPacketsReceived : Nat
  neighborTimeouts : List (Nat × Nat)
  topologyTable : List (Nat × tt_entry_t)
  neighbors : List Nat
  sequenceNumber : Nat
  simTime : Nat
  scheduled : List (Nat × Nat)
  nextMessageId : Nat
  sent : List SentPacket
deriving DecidableEq, Repr

/-! ## Sending -/

/-- The function `Fsr::sendFsrPacketHelper`: serialise, wrap into a datagram,
`socket.sendTo(pkt, destAddr, fsrPort)`, count the bytes. -/
def sendFsrPacketHelper (st : FsrState) (fsrPacket : FsrPacket) (destAddr : Nat) : FsrState :=
  let data := serializeFsrPacket fsrPacket
  { st with
    sent := st.sent ++ [⟨fsrPacket, data, destAddr, st.fsrPort⟩]
    controlBytesSent := (st.controlBytesSent + data.length) % 2 ^ 32 }

/-! ## Routes -/

/-- Loop of `Fsr::clearRoutes` from index `i - 1` down to 0: a route whose
source type is `MANET` is deleted from the table. -/
def clearRoutesFrom : Nat → List Ipv4Route → List Ipv4Route
  | 0, routes => routes
  | i + 1, routes =>
    match routes[i]? with
    | some route =>
      if route.sourceType = SourceType.MANET then clearRoutesFrom i (routes.eraseIdx i)
      else clearRoutesFrom i routes
    | none => clearRoutesFrom i routes

/-- The function `Fsr::clearRoutes`. -/
def clearRoutes (st : FsrState) : FsrState :=
  match st.routingTable with
  | none => st
  | some routes => { st with routingTable := some (clearRoutesFrom routes.length routes) }

/-- The function `Fsr::createRoute`: the first wireless, non-loopback interface
carries the route; without tables or without such an interface nothing is
added. -/
def createRoute (st : FsrState) (dst nexthop hopCount : Nat) : FsrState :=
  match st.routingTable, st.interfaceTable with
  | some routes, some ifaces =>
    match ifaces.find? (fun iface => iface.wireless && !iface.loopback) with
    | none => st
    | some ie =>
      { st with routingTable := some (routes ++
          [⟨dst, ALLONES_ADDRESS, nexthop, ie.interfaceId, SourceType.MANET, hopCount⟩]) }
  | _, _ => st

/-- The function `Fsr::updateRoutes`: one `createRoute(first, second, 1)` for
every pair of `prev` whose key is neither self nor its own value. -/
def updateRoutes (st : FsrState) : List (Nat × Nat) → FsrState
  | [] => st
  | entry :: rest =>
    if entry.1 ≠ st.selfAddress ∧ entry.1 ≠ entry.2 then
      updateRoutes (createRoute st entry.1 entry.2 1) rest
    else updateRoutes st rest

/-! ## `Fsr::calculateShortestPath` -/

/-- The locals `dist`, `prev`, `visited` of `calculateShortestPath`. -/
structure Dijkstra where
  dist : List (Nat × Nat)
  prev : List (Nat × Nat)
  visited : List Nat
deriving DecidableEq, Repr

/-- Loop "Initialize distances": every key of the topology table other than
self gets distance `UINT32_MAX`. -/
def initDistances (selfAddress : Nat) : List (Nat × tt_entry_t) → List (Nat × Nat) →
    List (Nat × Nat)
  | [], dist => dist
  | entry :: rest, dist =>
    if entry.1 ≠ selfAddress then initDistances selfAddress rest (mapSet entry.1 UINT32_MAX dist)
    else initDistances selfAddress rest dist

/-- Loop "Add direct neighbors": distance 1 and itself as `prev`. -/
def addDirectNeighbors : List Nat → Dijkstra → Dijkstra
  | [], d => d
  | neighbor :: rest, d =>
    addDirectNeighbors rest
      { d with dist := mapSet neighbor 1 d.dist, prev := mapSet neighbor neighbor d.prev }

/-- Loop "Find minimum distance unvisited node" over `dist`; the accumulator is
`(current, minDist, found)`. -/
def findMin (visited : List Nat) : List (Nat × Nat) → Nat × Nat × Bool → Nat × Nat × Bool
  | [], acc => acc
  | d :: rest, (current, minDist, found) =>
    if ¬ visited.contains d.1 ∧ d.2 < minDist then findMin visited rest (d.1, d.2, true)
    else findMin visited rest (current, minDist, found)

/-- Body of the loop over `it->second.ls` for one `neighbor`. -/
def relaxNeighbor (selfAddress current : Nat) (d : Dijkstra) (neighbor : Nat) : Dijkstra :=
  if ¬ d.visited.contains neighbor then
    let (distCurrent, dist1) := mapIndex d.dist current 0
    let newDist := (distCurrent + 1) % 2 ^ 32
    let (distNeighbor, dist2) := mapIndex dist1 neighbor 0
    if newDist < distNeighbor then
      let dist3 := mapSet neighbor newDist dist2
      if current = selfAddress then
        { d with dist := dist3, prev := mapSet neighbor neighbor d.prev }
      else
        let (prevCurrent, prev1) := mapIndex d.prev current 0
        { d with dist := dist3, prev := mapSet neighbor prevCurrent prev1 }
    else { d with dist := dist2 }
  else d

/-- One pass of "Dijkstra's main loop" after `current` was chosen: mark it
visited, then relax along its topology-table entry if it has one. -/
def visit (selfAddress : Nat) (topologyTable : List (Nat × tt_entry_t)) (d : Dijkstra)
    (current : Nat) : Dijkstra :=
  let d1 := { d with visited := setInsert current d.visited }
  match mapFind topologyTable current with
  | some entry => entry.ls.foldl (relaxNeighbor selfAddress current) d1
  | none => d1

/-- The loop `while (visited.size() < topologyTable.size() + 1)`. Every pass
that does not `break` adds one element to `visited`, so `fuel` passes with
`fuel = topologyTable.size() + 1` exhaust the loop. -/
def dijkstraLoop (selfAddress : Nat) (topologyTable : List (Nat × tt_entry_t)) :
    Nat → Dijkstra → Dijkstra
  | 0, d => d
  | fuel + 1, d =>
    if d.visited.length < topologyTable.length + 1 then
      match findMin d.visited d.dist (0, UINT32_MAX, false) with
      | (current, minDist, found) =>
        if !found || minDist = UINT32_MAX then d
        else dijkstraLoop selfAddress topologyTable fuel (visit selfAddress topologyTable d current)
    else d

/-- The locals of `calculateShortestPath` when `updateRoutes(prev)` is called. -/
def shortestPaths (st : FsrState) : Dijkstra :=
  let dist0 := initDistances st.selfAddress st.topologyTable (mapSet st.selfAddress 0 [])
  let d0 := addDirectNeighbors st.neighbors ⟨dist0, [], []⟩
  dijkstraLoop st.selfAddress st.topologyTable (st.topologyTable.length + 1) d0

/-- The function `Fsr::calculateShortestPath`. -/
def calculateShortestPath (st : FsrState) : FsrState :=
  match st.routingTable with
  | none => st
  | some _ => updateRoutes (clearRoutes st) (shortestPaths st).prev

/-! ## Inbound packets -/

/-- The function `Fsr::addNeighbor`: a new neighbor gets a fresh timeout
message, a known one has its message rescheduled; either way the message is due
at `simTime() + 3 * helloBroadcastInterval`. -/
def addNeighbor (st : FsrState) (neighbor : Nat) : FsrState :=
  if ¬ st.neighbors.contains neighbor then
    let scheduled1 :=
      match mapFind st.neighborTimeouts neighbor with
      | some old => st.scheduled.filter (fun ev => ev.1 ≠ old)
      | none => st.scheduled
    let timeoutMsg := st.nextMessageId
    { st with
      neighbors := setInsert neighbor st.neighbors
      nextMessageId := st.nextMessageId + 1
      neighborTimeouts := mapSet neighbor timeoutMsg st.neighborTimeouts
      scheduled := scheduled1 ++ [(timeoutMsg, st.simTime + 3 * st.helloBroadcastInterval)] }
  else
    match mapFind st.neighborTimeouts neighbor with
    | some msg =>
      { st with
        scheduled := st.scheduled.filter (fun ev => ev.1 ≠ msg) ++
          [(msg, st.simTime + 3 * st.helloBroadcastInterval)] }
    | none => st

/-- The function `Fsr::processHello`. -/
def processHello (st : FsrState) (_packet : FsrPacket) (sourceAddr : Nat) : FsrState :=
  addNeighbor st sourceAddr

/-- Loop "Extract LSP entries" of `processLSP`: the node of every entry and all
its neighbors are inserted into the link-state set. -/
def extractLspEntries : List LspEntry → List Nat → List Nat
  | [], ls => ls
  | lspEntry :: rest, ls =>
    extractLspEntries rest (lspEntry.neighbors.foldl (fun s n => setInsert n s)
      (setInsert lspEntry.nodeAddress ls))

/-- The test of `processLSP` that ends it with "Ignoring old/duplicate LSP". -/
def isStale (st : FsrState) (packet : FsrPacket) : Bool :=
  match mapFind st.topologyTable packet.sourceAddress with
  | some stored => decide (packet.sequenceNumber ≤ stored.seq)
  | none => false

/-- The function `Fsr::processLSP`. -/
def processLSP (st : FsrState) (packet : FsrPacket) (_sourceAddr : Nat) : FsrState :=
  let st1 := { st with numLSPsReceived := (st.numLSPsReceived + 1) % 2 ^ 32 }
  let originator := packet.sourceAddress
  let seq := packet.sequenceNumber
  if isStale st1 packet then st1
  else
    let entry : tt_entry_t := ⟨extractLspEntries packet.lspEntries [], seq, 0⟩
    let st2 := { st1 with topologyTable := mapSet originator entry st1.topologyTable }
    let st3 := calculateShortestPath st2
    if packet.hopCount > 1 then
      let relay : FsrPacket :=
        ⟨packet.packetType, packet.sourceAddress, packet.sequenceNumber, packet.timestamp,
          packet.hopCount - 1, packet.lspEntries⟩
      sendFsrPacketHelper st3 relay ALLONES_ADDRESS
    else st3

/-- The function `Fsr::processFsrPacket`. -/
def processFsrPacket (kinds : PacketKinds) (st : FsrState) (packet : FsrPacket)
    (sourceAddr : Nat) : FsrState :=
  if sourceAddr = st.selfAddress then st
  else if packet.packetType = kinds.HELLO then processHello st packet sourceAddr
  else if packet.packetType = kinds.LSP then processLSP st packet sourceAddr
  else st

/-! ## Invariants, accessors and sample data used in the statements -/

/-- The keys of a map are strictly ascending. -/
def keysSorted {β : Type} (m : List (Nat × β)) : Prop :=
  (m.map Prod.fst).Pairwise (· < ·)

/-- What "Add direct neighbors" establishes for the addresses in `ns`: distance
1 and the address itself as `prev`, in maps with ascending keys. -/
def Seeded (ns : List Nat) (d : Dijkstra) : Prop :=
  keysSorted d.dist ∧ keysSorted d.prev ∧
    ∀ n ∈ ns, mapFind d.dist n = some 1 ∧ mapFind d.prev n = some n

/-- The state between two relaxations while `current` is being visited. -/
def Relaxing (ns : List Nat) (current : Nat) (d : Dijkstra) : Prop :=
  Seeded ns d ∧ current ∈ d.visited ∧
    ∃ c, c < UINT32_MAX ∧ mapFind d.dist current = some c

/-- The routes in the routing table; none while the table pointer is null. -/
def routesOf (st : FsrState) : List Ipv4Route :=
  match st.routingTable with
  | some routes => routes
  | none => []

/-- The state `processLSP` works on once an update is accepted: the receive
counter advanced and the originator's entry replaced. -/
def acceptedState (st : FsrState) (packet : FsrPacket) : FsrState :=
  { st with
    numLSPsReceived := (st.numLSPsReceived + 1) % 2 ^ 32
    topologyTable := mapSet packet.sourceAddress
      ⟨extractLspEntries packet.lspEntries [], packet.sequenceNumber, 0⟩ st.topologyTable }

/-- The packet `processLSP` builds for relaying: every field copied, the hop
count lowered by one. -/
def relayOf (packet : FsrPacket) : FsrPacket :=
  { packet with hopCount := packet.hopCount - 1 }

/-- The number of relays along a forwarding path: the datagram is decoded and
processed by the first node (given with the address it hears the sender
under); if that node sends a datagram in turn, it travels on to the next
node. -/
def relayCount (kinds : PacketKinds) : List (FsrState × Nat) → List Byte → Nat
  | [], _ => 0
  | (st, sourceAddr) :: rest, data =>
    match deserializeFsrPacket data st.simTime with
    | .ok packet =>
      match (processFsrPacket kinds st packet sourceAddr).sent.drop st.sent.length with
      | [] => 0
      | relayed :: _ => 1 + relayCount kinds rest relayed.data
    | .error _ => 0

/-- Node A = 1 of the line A - B - C (B = 2, C = 3): B is its live neighbor,
the database holds `{A:[B], B:[A,C], C:[B]}`, the routing table is bound and
empty, and there is one wireless interface. -/
def lineAtA : FsrState where
  selfAddress := 1
  routingTable := some []
  interfaceTable := some [⟨100, true, false⟩]
  helloBroadcastInterval := 10
  lifeTime := 5
  fsrPort := 6543
  controlBytesSent := 0
  numLSPsSent := 0
  numLSPsReceived := 0
  numHellosSent := 0
  numPacketsReceived := 0
  neighborTimeouts := [(2, 0)]
  topologyTable := [(1, ⟨[2], 0, 0⟩), (2, ⟨[1, 3], 1, 0⟩), (3, ⟨[2], 1, 0⟩)]
  neighbors := [2]
  sequenceNumber := 0
  simTime := 0
  scheduled := [(0, 30)]
  nextMessageId := 1
  sent := []

/-- An update from C = 3 with a newer sequence number and three hops left. -/
def freshFromC : FsrPacket := ⟨2, 3, 5, 0, 3, [⟨3, 5, [2, 4]⟩]⟩

/-- An update from C = 3 repeating the stored sequence number. -/
def staleFromC : FsrPacket := ⟨2, 3, 1, 0, 3, [⟨3, 1, [2, 4]⟩]⟩

/-- An update sent by 5 whose only entry describes another node, 7. -/
def strayEntryPacket : FsrPacket := ⟨2, 5, 9, 0, 1, [⟨7, 9, [8]⟩]⟩

/-- The freshness test in the words of the specification: the table holds an
entry for the packet's originator whose sequence number is at least the
packet's. -/
def StaleFor (st : FsrState) (packet : FsrPacket) : Prop :=
  ∃ stored, mapFind st.topologyTable packet.sourceAddress = some stored ∧
    packet.sequenceNumber ≤ stored.seq

/-! ## Timers, aging and packet generation -/

/-- The call `s.erase(a)` on a `std::set`. -/
def setErase (a : Nat) (s : List Nat) : List Nat :=
  s.filter (fun b => b ≠ a)

/-- The call `m.erase(it)` for the iterator that `m.find(k)` returned. -/
def mapErase {β : Type} (k : Nat) : List (Nat × β) → List (Nat × β)
  | [] => []
  | (k', v) :: rest => if k' = k then rest else (k', v) :: mapErase k rest

/-- The conversion of an `int` to `unsigned`, as in the comparison of the
`uint32_t` age with the `int` member `lifeTime`. -/
def toUnsigned (i : Int) : Nat := (i % 2 ^ 32).toNat

/-- The method `Ipv4Address::isUnspecified`: the address is 0.0.0.0. -/
def isUnspecified (addr : Nat) : Bool := addr == 0

/-- The function `Fsr::initNode`: the own entry is value-initialised if absent
and then given sequence number 0, age 0 and an empty link-state set. -/
def initNode (st : FsrState) : FsrState :=
  { st with topologyTable := mapSet st.selfAddress ⟨[], 0, 0⟩ st.topologyTable }

/-- Loop of `Fsr::decrementAge`: the age of every entry goes up by one, and an
entry whose age then exceeds `lifeTime` is erased. -/
def ageEntries (lifeTime : Int) : List (Nat × tt_entry_t) → List (Nat × tt_entry_t)
  | [] => []
  | (k, entry) :: rest =>
    let age := (entry.age + 1) % 2 ^ 32
    if age > toUnsigned lifeTime then ageEntries lifeTime rest
    else (k, { entry with age := age }) :: ageEntries lifeTime rest

/-- The function `Fsr::decrementAge`. -/
def decrementAge (st : FsrState) : FsrState :=
  { st with topologyTable := ageEntries st.lifeTime st.topologyTable }

/-- The function `Fsr::removeNeighbor`: the neighbor leaves the set, its
timeout message is cancelled and deleted and its map entry erased, and the
routes are recomputed. -/
def removeNeighbor (st : FsrState) (neighbor : Nat) : FsrState :=
  let st1 := { st with neighbors := setErase neighbor st.neighbors }
  let st2 :=
    match mapFind st1.neighborTimeouts neighbor with
    | some msg =>
      { st1 with
        scheduled := st1.scheduled.filter (fun ev => ev.1 ≠ msg)
        neighborTimeouts := mapErase neighbor st1.neighborTimeouts }
    | none => st1
  calculateShortestPath st2

/-- The last branch of `Fsr::handleMessageWhenUp`, taken for a self-message
`msg` that is none of the fixed timers: the first pair of `neighborTimeouts`
holding `msg` is looked up and `removeNeighbor(it->first)` is called; then
`neighborTimeouts.erase(it)` and `delete msg` follow. These two act on the map
node `it` points to and on the message, so they are defined only while
`removeNeighbor` has left that node in the map; `none` stands for the
undefined outcome. Without a matching pair nothing happens. -/
def neighborTimeoutFired (st : FsrState) (msg : Nat) : Option FsrState :=
  match st.neighborTimeouts.find? (fun e => e.2 = msg) with
  | none => some st
  | some it =>
    let st1 := removeNeighbor st it.1
    match mapFind st1.neighborTimeouts it.1 with
    | some _ => some { st1 with neighborTimeouts := mapErase it.1 st1.neighborTimeouts }
    | none => none

/-- The function `Fsr::sendHelloPacket`. -/
def sendHelloPacket (kinds : PacketKinds) (st : FsrState) : FsrState :=
  if isUnspecified st.selfAddress then st
  else
    let st1 := { st with sequenceNumber := (st.sequenceNumber + 1) % 2 ^ 32 }
    let fsrchunk : FsrPacket :=
      ⟨kinds.HELLO, st1.selfAddress, st1.sequenceNumber, st1.simTime, 1, []⟩
    let st2 := sendFsrPacketHelper st1 fsrchunk ALLONES_ADDRESS
    { st2 with numHellosSent := (st2.numHellosSent + 1) % 2 ^ 32 }

/-- The function `Fsr::sendTopologyUpdate`: one entry for this node listing the
neighbor set in iteration order, hop count 10. -/
def sendTopologyUpdate (kinds : PacketKinds) (st : FsrState) : FsrState :=
  if isUnspecified st.selfAddress || st.neighbors.isEmpty then st
  else
    let st1 := { st with sequenceNumber := (st.sequenceNumber + 1) % 2 ^ 32 }
    let entry : LspEntry := ⟨st1.selfAddress, st1.sequenceNumber, st1.neighbors⟩
    let fsrchunk : FsrPacket :=
      ⟨kinds.LSP, st1.selfAddress, st1.sequenceNumber, st1.simTime, 10, [entry]⟩
    let st2 := sendFsrPacketHelper st1 fsrchunk ALLONES_ADDRESS
    { st2 with numLSPsSent := (st2.numLSPsSent + 1) % 2 ^ 32 }

/-! ## Runs -/

/-- What can happen to a running node: a decoded packet arrives from a sender,
the Hello timer or the LSP timer fires, a neighbor expires (the call
`removeNeighbor` of its timeout), the aging timer fires, or time passes. -/
inductive Event where
  | inbound (packet : FsrPacket) (sourceAddr : Nat)
  | helloTimer
  | lspTimer
  | neighborExpiry (neighbor : Nat)
  | ageTimer
  | elapse (duration : Nat)
deriving DecidableEq, Repr

/-- The effect of one event on the protocol state. -/
def step (kinds : PacketKinds) (st : FsrState) : Event → FsrState
  | .inbound packet sourceAddr => processFsrPacket kinds st packet sourceAddr
  | .helloTimer => sendHelloPacket kinds st
  | .lspTimer => sendTopologyUpdate kinds st
  | .neighborExpiry neighbor => removeNeighbor st neighbor
  | .ageTimer => decrementAge st
  | .elapse duration => { st with simTime := st.simTime + duration }

/-- The state after a sequence of events. -/
def run (kinds : PacketKinds) (st : FsrState) : List Event → FsrState
  | [] => st
  | ev :: rest => run kinds (step kinds st ev) rest

/-- The number of aging ticks in a sequence of events. -/
def ticks : List Event → Nat
  | [] => 0
  | .ageTimer :: rest => ticks rest + 1
  | _ :: rest => ticks rest

/-- The test under which `processFsrPacket` lets `processLSP` accept a packet:
the sender is not this node, the type selects the LSP case, and the freshness
test of `processLSP` does not reject it. -/
def acceptsLsp (kinds : PacketKinds) (st : FsrState) (packet : FsrPacket)
    (sourceAddr : Nat) : Bool :=
  decide (sourceAddr ≠ st.selfAddress) && decide (packet.packetType ≠ kinds.HELLO) &&
    decide (packet.packetType = kinds.LSP) && !isStale st packet

/-- The sequence numbers of the updates with source address `originator` that
are accepted in the course of a run, in order of acceptance. -/
def acceptedSeqs (kinds : PacketKinds) (originator : Nat) :
    FsrState → List Event → List Nat
  | _, [] => []
  | st, ev :: rest =>
    match ev with
    | .inbound packet sourceAddr =>
      if packet.sourceAddress = originator ∧ acceptsLsp kinds st packet sourceAddr = true then
        packet.sequenceNumber :: acceptedSeqs kinds originator (step kinds st ev) rest
      else acceptedSeqs kinds originator (step kinds st ev) rest
    | _ => acceptedSeqs kinds originator (step kinds st ev) rest

/-- No aging tick of the run removes the entry of `originator`: whenever the
entry is there before a tick it is there after it. -/
def NoExpiry (kinds : PacketKinds) (originator : Nat) : FsrState → List Event → Prop
  | _, [] => True
  | st, ev :: rest =>
    (ev = Event.ageTimer →
      (mapFind st.topologyTable originator).isSome →
      (mapFind (decrementAge st).topologyTable originator).isSome) ∧
    NoExpiry kinds originator (step kinds st ev) rest

/-! ## Invariants and descriptions used in the later statements -/

/-- An address the node knows of: a key of the topology table or a live
neighbor. -/
def Known (tt : List (Nat × tt_entry_t)) (ns : List Nat) (k : Nat) : Prop :=
  k ∈ tt.map Prod.fst ∨ k ∈ ns

/-- Invariant of the shortest-path loops: `dist` has ascending keys, its values
are 32-bit, a nonzero distance belongs to a known address, and every key of
`prev` is a known address with a distance below `UINT32_MAX`. -/
def Finite (tt : List (Nat × tt_entry_t)) (ns : List Nat) (d : Dijkstra) : Prop :=
  keysSorted d.dist ∧
    (∀ k v, mapFind d.dist k = some v → v ≤ UINT32_MAX ∧ (v ≠ 0 → Known tt ns k)) ∧
    (∀ e ∈ d.prev, Known tt ns e.1 ∧ ∃ c, c < UINT32_MAX ∧ mapFind d.dist e.1 = some c)

/-- The interface `createRoute` picks: the first wireless, non-loopback one. -/
def outputInterface (st : FsrState) : Option NetworkInterface :=
  match st.interfaceTable with
  | some ifaces => ifaces.find? (fun iface => iface.wireless && !iface.loopback)
  | none => none

/-- The routes of one run of `calculateShortestPath`: for every pair of the
final `prev` whose key is neither self nor its own value, a `MANET` host route
of metric 1 over the output interface; none without such an interface. -/
def computedRoutes (st : FsrState) : List Ipv4Route :=
  match outputInterface st with
  | some ie =>
    ((shortestPaths st).prev.filter
        (fun e => decide (e.1 ≠ st.selfAddress ∧ e.1 ≠ e.2))).map
      (fun e => ⟨e.1, ALLONES_ADDRESS, e.2, ie.interfaceId, SourceType.MANET, 1⟩)
  | none => []

/-- A state with lifetime 0, nothing in the topology table and no neighbor. -/
def emptyAtA : FsrState :=
  { lineAtA with
    lifeTime := 0
    topologyTable := []
    neighbors := []
    neighborTimeouts := []
    scheduled := [] }

/-- One refresh cycle: an update is processed, then the aging timer fires. -/
def refreshCycle (sourceAddr : Nat) (st : FsrState) (packet : FsrPacket) : FsrState :=
  decrementAge (processLSP st packet sourceAddr)

/-- An update from C = 3 with sequence number 10 and one hop left. -/
def seqTenFromC : FsrPacket := ⟨2, 3, 10, 0, 1, [⟨3, 10, [2]⟩]⟩

/-- The enumerator values used in the examples: `HELLO = 1`, `LSP = 2`. -/
def sampleKinds : PacketKinds := ⟨1, 2⟩

/-- Whether a run is free of expiry can be computed. -/
instance decidableNoExpiry (kinds : PacketKinds) (originator : Nat) :
    ∀ (st : FsrState) (events : List Event), Decidable (NoExpiry kinds originator st events)
  | _, [] => isTrue trivial
  | st, ev :: rest =>
    have := decidableNoExpiry kinds originator (step kinds st ev) rest
    inferInstanceAs (Decidable
      ((ev = Event.ageTimer →
          (mapFind st.topologyTable originator).isSome →
          (mapFind (decrementAge st).topologyTable originator).isSome) ∧
        NoExpiry kinds originator (step kinds st ev) rest))

/-- Node A of the line A - B - C with two routes already in its table: a
protocol route of an earlier run to an address 9 and a manual route. -/
def routedAtA : FsrState :=
  { lineAtA with
    routingTable := some
      [⟨9, ALLONES_ADDRESS, 2, 100, SourceType.MANET, 1⟩,
       ⟨8, 4294967040, 7, 100, SourceType.MANUAL, 0⟩] }

/-- A copy of this node's own update as a neighbor relays it: the source
address field is A = 1, the sequence number 2, nine hops left. -/
def ownEcho (kinds : PacketKinds) : FsrPacket :=
  ⟨kinds.LSP, 1, 2, 0, 9, [⟨1, 2, [2]⟩]⟩

/-- Node A with address 0.0.0.0 for itself and B as a live neighbor. -/
def unspecifiedSelf : FsrState :=
  { lineAtA with selfAddress := 0 }

/-- The packet `sendHelloPacket` builds. -/
def helloPacket (kinds : PacketKinds) (st : FsrState) : FsrPacket :=
  ⟨kinds.HELLO, st.selfAddress, (st.sequenceNumber + 1) % 2 ^ 32, st.simTime, 1, []⟩

/-- The packet `sendTopologyUpdate` builds. -/
def lspPacket (kinds : PacketKinds) (st : FsrState) : FsrPacket :=
  ⟨kinds.LSP, st.selfAddress, (st.sequenceNumber + 1) % 2 ^ 32, st.simTime, 10,
    [⟨st.selfAddress, (st.sequenceNumber + 1) % 2 ^ 32, st.neighbors⟩]⟩

/-! ## Sample data for the codec bounds and the hop count -/

/-- A Hello as `sendHelloPacket` builds it: no entries. -/
def bareHello : FsrPacket := ⟨1, 1, 1, 0, 1, []⟩

/-- Node A of the line with every configured parameter changed. -/
def reconfiguredAtA : FsrState :=
  { lineAtA with helloBroadcastInterval := 3, lifeTime := 9, fsrPort := 7000 }

/-! ## Stopping, and the calls that change the neighbor set -/

/-- The function `Fsr::handleStopOperation`: every neighbor timeout message is
cancelled and deleted and the map cleared, then `clearRoutes()`, then the
topology table and the neighbor set are cleared. The five fixed timers it
cancels first are not part of the state. -/
def handleStopOperation (st : FsrState) : FsrState :=
  let st1 := { st with
    scheduled := st.neighborTimeouts.foldl
      (fun sched entry => sched.filter (fun ev => ev.1 ≠ entry.2)) st.scheduled
    neighborTimeouts := [] }
  let st2 := clearRoutes st1
  { st2 with topologyTable := [], neighbors := [] }

/-- A call that changes the neighbor set: `addNeighbor` (a Hello was heard),
`removeNeighbor` (a neighbor timeout), `handleStopOperation`. -/
inductive NeighborCall where
  | add (neighbor : Nat)
  | remove (neighbor : Nat)
  | stop
deriving DecidableEq, Repr

/-- The effect of one such call. -/
def applyCall (st : FsrState) : NeighborCall → FsrState
  | .add neighbor => addNeighbor st neighbor
  | .remove neighbor => removeNeighbor st neighbor
  | .stop => handleStopOperation st

/-- The state after a sequence of such calls. -/
def applyCalls (st : FsrState) : List NeighborCall → FsrState
  | [] => st
  | call :: rest => applyCalls (applyCall st call) rest

/-- The neighbor set and the timeout map agree: the keys of the map ascend,
they are the members of the set, every message of the map was created before
the next message id and is scheduled, and no two keys share a message. -/
def TimersMatch (st : FsrState) : Prop :=
  keysSorted st.neighborTimeouts ∧
    (∀ a, a ∈ st.neighbors ↔ a ∈ st.neighborTimeouts.map Prod.fst) ∧
    (∀ e ∈ st.neighborTimeouts, e.2 < st.nextMessageId ∧ ∃ t, (e.2, t) ∈ st.scheduled) ∧
    (∀ e ∈ st.neighborTimeouts, ∀ f ∈ st.neighborTimeouts, e.2 = f.2 → e.1 = f.1)

/-- Node A before any Hello was heard: only its own entry is in the table. -/
def startAtA : FsrState := initNode emptyAtA

/-! ## The graph the shortest-path computation works on -/

/-- The addresses the topology-table entry of `u` lists; none without entry. -/
def linksOf (tt : List (Nat × tt_entry_t)) (u : Nat) : List Nat :=
  match mapFind tt u with
  | some entry => entry.ls
  | none => []

/-- A link `u -> v` of the graph: `u` is self and `v` a live neighbor (the
seeded links), or the topology-table entry of `u` lists `v`. -/
def Link (selfAddress : Nat) (tt : List (Nat × tt_entry_t)) (ns : List Nat) (u v : Nat) :
    Prop :=
  (u = selfAddress ∧ v ∈ ns) ∨ v ∈ linksOf tt u

instance decidableLink (selfAddress : Nat) (tt : List (Nat × tt_entry_t)) (ns : List Nat)
    (u v : Nat) : Decidable (Link selfAddress tt ns u v) :=
  inferInstanceAs (Decidable ((u = selfAddress ∧ v ∈ ns) ∨ v ∈ linksOf tt u))

/-- `Walk selfAddress tt ns k v`: there is a walk of `k` links from self to
`v`. -/
inductive Walk (selfAddress : Nat) (tt : List (Nat × tt_entry_t)) (ns : List Nat) :
    Nat → Nat → Prop where
  | start : Walk selfAddress tt ns 0 selfAddress
  | next {k u v : Nat} : Walk selfAddress tt ns k u → Link selfAddress tt ns u v →
      Walk selfAddress tt ns (k + 1) v

/-- `Hops selfAddress tt ns n k v`: there is a walk of `k` links
`self -> n -> ... -> v`, whose first link leads to `n`. -/
inductive Hops (selfAddress : Nat) (tt : List (Nat × tt_entry_t)) (ns : List Nat) (n : Nat) :
    Nat → Nat → Prop where
  | first : Link selfAddress tt ns selfAddress n → Hops selfAddress tt ns n 1 n
  | next {k u v : Nat} : Hops selfAddress tt ns n k u → Link selfAddress tt ns u v →
      Hops selfAddress tt ns n (k + 1) v

/-- The link `u -> v` has been relaxed: both ends have a distance and that of
`v` is at most one more than that of `u`. -/
def Relaxed (d : Dijkstra) (u v : Nat) : Prop :=
  ∃ c c', mapFind d.dist u = some c ∧ mapFind d.dist v = some c' ∧ c' ≤ c + 1

/-- What holds of `dist` and `prev` throughout "Dijkstra's main loop", `level`
being the distance of the address whose links were followed last. -/
structure Core (selfAddress : Nat) (tt : List (Nat × tt_entry_t)) (ns : List Nat)
    (level : Nat) (d : Dijkstra) : Prop where
  sorted : keysSorted d.dist
  selfZero : mapFind d.dist selfAddress = some 0
  bounded : ∀ x c, mapFind d.dist x = some c → c ≤ UINT32_MAX
  sound : ∀ x n, mapFind d.prev x = some n →
    ∃ k, mapFind d.dist x = some k ∧ 1 ≤ k ∧ k < UINT32_MAX ∧ Hops selfAddress tt ns n k x
  hasPrev : ∀ x k, mapFind d.dist x = some k → 1 ≤ k → k < UINT32_MAX →
    ∃ n, mapFind d.prev x = some n
  inserted : ∀ x, mapFind d.dist x = some 0 → x ≠ selfAddress → mapFind tt x = none
  keys : ∀ x entry, mapFind tt x = some entry → ∃ c, mapFind d.dist x = some c
  visitedLe : ∀ x ∈ d.visited, ∃ c, mapFind d.dist x = some c ∧ c ≤ level
  unvisitedGe : ∀ x c, mapFind d.dist x = some c → x ∉ d.visited → c = 0 ∨ level ≤ c
  finiteLe : ∀ x c, mapFind d.dist x = some c → c < UINT32_MAX → c ≤ level + 1
  seeded : ∀ v ∈ ns, ∃ c', mapFind d.dist v = some c' ∧ c' ≤ 1

/-- The invariant of "Dijkstra's main loop" between two passes: on top of
`Core`, every link out of a visited address has been relaxed, and nothing was
visited through a link before self. -/
structure Bfs (selfAddress : Nat) (tt : List (Nat × tt_entry_t)) (ns : List Nat)
    (level : Nat) (d : Dijkstra) : Prop where
  core : Core selfAddress tt ns level d
  relaxed : ∀ u ∈ d.visited, ∀ v, Link selfAddress tt ns u v → Relaxed d u v
  selfFirst : selfAddress ∉ d.visited → level = 0
  levelFinite : level < UINT32_MAX

/-- Node A = 1 with the live neighbors 2, 3, 4 and 5, of which only 5 has an
entry in the database `{1:[], 5:[1,6], 6:[5]}`. -/
def crowdedAtA : FsrState :=
  { lineAtA with
    neighbors := [2, 3, 4, 5]
    neighborTimeouts := [(2, 0), (3, 1), (4, 2), (5, 3)]
    scheduled := [(0, 30), (1, 30), (2, 30), (3, 30)]
    nextMessageId := 4
    topologyTable := [(1, ⟨[], 0, 0⟩), (5, ⟨[1, 6], 1, 0⟩), (6, ⟨[5], 1, 0⟩)] }

/-- The datagram node A of the line hands to the socket in `sendTopologyUpdate`. -/
def lineUpdate : SentPacket :=
  ⟨⟨2, 1, 1, 0, 10, [⟨1, 1, [2]⟩]⟩, serializeFsrPacket ⟨2, 1, 1, 0, 10, [⟨1, 1, [2]⟩]⟩,
    ALLONES_ADDRESS, 6543⟩

/-! ## The undirected reading of the listed adjacencies -/

/-- Two addresses are adjacent when there is a link between them in either
direction: one lists the other, or one is self and the other a live
neighbor. -/
def Adjacent (selfAddress : Nat) (tt : List (Nat × tt_entry_t)) (ns : List Nat) (u v : Nat) :
    Prop :=
  Link selfAddress tt ns u v ∨ Link selfAddress tt ns v u

instance decidableAdjacent (selfAddress : Nat) (tt : List (Nat × tt_entry_t)) (ns : List Nat)
    (u v : Nat) : Decidable (Adjacent selfAddress tt ns u v) :=
  inferInstanceAs (Decidable (Link selfAddress tt ns u v ∨ Link selfAddress tt ns v u))

/-- `Path selfAddress tt ns k v`: there is a path of `k` adjacencies from self
to `v`, each used in either direction. -/
inductive Path (selfAddress : Nat) (tt : List (Nat × tt_entry_t)) (ns : List Nat) :
    Nat → Nat → Prop where
  | start : Path selfAddress tt ns 0 selfAddress
  | next {k u v : Nat} : Path selfAddress tt ns k u → Adjacent selfAddress tt ns u v →
      Path selfAddress tt ns (k + 1) v

/-- Node A = 1 with the live neighbors 2 and 3 and the database
`{1:[2,3], 2:[1,5], 3:[1], 5:[2,6], 6:[5,9], 9:[3]}`: 9 lists 3, 3 does not
list 9, and 9 is listed by 6 at the end of the chain 2, 5, 6. -/
def detourAtA : FsrState :=
  { lineAtA with
    neighbors := [2, 3]
    neighborTimeouts := [(2, 0), (3, 1)]
    scheduled := [(0, 30), (1, 30)]
    nextMessageId := 2
    topologyTable := [(1, ⟨[2, 3], 0, 0⟩), (2, ⟨[1, 5], 1, 0⟩), (3, ⟨[1], 1, 0⟩),
      (5, ⟨[2, 6], 1, 0⟩), (6, ⟨[5, 9], 1, 0⟩), (9, ⟨[3], 1, 0⟩)] }

/-! # Theorems -/

/-! ## Codec lemmas -/

theorem or_eq_add_of_dvd (k a b : Nat) (ha : 2 ^ k ∣ a) (hb : b < 2 ^ k) : a ||| b = a + b := by
  obtain ⟨c, rfl⟩ := ha
  exact (Nat.mul_add_lt_is_or hb c).symm

theorem and_255 (x : Nat) : x &&& 0xFF = x % 256 :=
  Nat.and_pow_two_sub_one_eq_mod x 8

theorem decode32_eq (b0 b1 b2 b3 : Nat) (h1 : b1 < 256) (h2 : b2 < 256) (h3 : b3 < 256) :
    ((((0 ||| (b0 <<< 24)) ||| (b1 <<< 16)) ||| (b2 <<< 8)) ||| b3)
      = b0 * 16777216 + b1 * 65536 + b2 * 256 + b3 := by
  simp only [Nat.shiftLeft_eq, Nat.zero_or]
  have e1 : b0 * 2 ^ 24 ||| b1 * 2 ^ 16 = b0 * 2 ^ 24 + b1 * 2 ^ 16 :=
    or_eq_add_of_dvd 24 _ _ ⟨b0, by ring⟩ (by omega)
  have e2 : (b0 * 2 ^ 24 + b1 * 2 ^ 16) ||| b2 * 2 ^ 8
      = b0 * 2 ^ 24 + b1 * 2 ^ 16 + b2 * 2 ^ 8 :=
    or_eq_add_of_dvd 16 _ _ ⟨b0 * 256 + b1, by ring⟩ (by omega)
  have e3 : (b0 * 2 ^ 24 + b1 * 2 ^ 16 + b2 * 2 ^ 8) ||| b3
      = b0 * 2 ^ 24 + b1 * 2 ^ 16 + b2 * 2 ^ 8 + b3 :=
    or_eq_add_of_dvd 8 _ _ ⟨b0 * 65536 + b1 * 256 + b2, by ring⟩ (by omega)
  rw [e1, e2, e3]
  norm_num

theorem decode16_eq (b0 b1 : Nat) (h1 : b1 < 256) :
    ((0 ||| (b0 <<< 8)) ||| b1) = b0 * 256 + b1 := by
  simp only [Nat.shiftLeft_eq, Nat.zero_or]
  exact or_eq_add_of_dvd 8 _ _ ⟨b0, by ring⟩ (by omega)

theorem readByte_of_drop {bytes rest : List Byte} {offset : Nat} {b : Byte}
    (h : bytes.drop offset = b :: rest) : readByte bytes offset = .ok b.val := by
  have : bytes[offset]? = some b := by
    rw [← List.head?_drop, h]; rfl
  simp [readByte, this]

theorem drop_succ_of_drop {α : Type} {l rest : List α} {n : Nat} {a : α}
    (h : l.drop n = a :: rest) : l.drop (n + 1) = rest := by
  rw [← List.drop_drop, h]; rfl

theorem drop_add_of_drop {α : Type} {l : List α} {n : Nat} (xs rest : List α)
    (h : l.drop n = xs ++ rest) : l.drop (n + xs.length) = rest := by
  rw [← List.drop_drop, h]; simp

theorem length_of_drop {α : Type} {l : List α} {n : Nat} (xs rest : List α)
    (h : l.drop n = xs ++ rest) (hx : 0 < xs.length) : n + xs.length + rest.length = l.length := by
  have := congrArg List.length h
  simp at this
  omega

theorem read32_of_drop {bytes rest : List Byte} {offset v : Nat} (hv : v < 2 ^ 32)
    (h : bytes.drop offset = push32 v ++ rest) : read32 bytes offset = .ok v := by
  simp only [push32, List.cons_append, List.nil_append] at h
  have h1 := drop_succ_of_drop h
  have h2 := drop_succ_of_drop h1
  have h3 := drop_succ_of_drop h2
  simp only [read32, readByte_of_drop h, readByte_of_drop h1, readByte_of_drop h2,
    readByte_of_drop h3, bind, Except.bind, pure, Except.pure]
  rw [decode32_eq _ _ _ _ (Fin.isLt _) (Fin.isLt _) (Fin.isLt _)]
  simp only [toByte, and_255, Nat.shiftRight_eq_div_pow]
  congr 1
  omega

theorem read16_of_drop {bytes rest : List Byte} {offset v : Nat} (hv : v < 2 ^ 16)
    (h : bytes.drop offset = push16 v ++ rest) : read16 bytes offset = .ok v := by
  simp only [push16, List.cons_append, List.nil_append] at h
  have h1 := drop_succ_of_drop h
  simp only [read16, readByte_of_drop h, readByte_of_drop h1, bind, Except.bind, pure,
    Except.pure]
  rw [decode16_eq _ _ (Fin.isLt _)]
  simp only [toByte, and_255, Nat.shiftRight_eq_div_pow]
  congr 1
  omega

theorem length_push32 (v : Nat) : (push32 v).length = 4 := rfl

theorem length_push16 (v : Nat) : (push16 v).length = 2 := rfl

theorem readNeighbors_of_drop (bytes : List Byte) :
    ∀ (ns : List Nat) (offset : Nat) (rest : List Byte),
      bytes.drop offset = serializeNeighbors ns ++ rest →
      readNeighbors bytes ns.length offset
        = .ok (ns.map (· % 2 ^ 32), offset + (serializeNeighbors ns).length) := by
  intro ns
  induction ns with
  | nil => intro offset rest _; simp [readNeighbors, serializeNeighbors]
  | cons n ns ih =>
    intro offset rest h
    simp only [serializeNeighbors, List.append_assoc] at h
    have hlen := length_of_drop _ _ h (by simp [length_push32])
    have hnext := drop_add_of_drop _ _ h
    rw [length_push32] at hlen hnext
    have hread := read32_of_drop (Nat.mod_lt n (by norm_num)) h
    have hrec := ih (offset + 4) rest hnext
    simp only [List.length_cons, readNeighbors, hread, hrec, bind, Except.bind, pure,
      Except.pure, List.map_cons, serializeNeighbors, List.length_append, length_push32]
    rw [if_neg (by omega)]
    simp only [Except.ok.injEq, Prod.mk.injEq, true_and]
    omega

theorem length_take_mod {α : Type} (l : List α) (m : Nat) :
    (l.take (l.length % m)).length = l.length % m := by
  rw [List.length_take]
  exact Nat.min_eq_left (Nat.mod_le _ _)

theorem readEntries_of_drop (bytes : List Byte) (seq : Nat) :
    ∀ (es : List LspEntry) (offset : Nat) (rest : List Byte),
      bytes.drop offset = serializeEntries es ++ rest →
      readEntries bytes seq es.length offset
        = .ok (es.map (wireEntry seq), offset + (serializeEntries es).length) := by
  intro es
  induction es with
  | nil => intro offset rest _; simp [readEntries, serializeEntries]
  | cons e es ih =>
    intro offset rest h
    simp only [serializeEntries, serializeEntry, List.append_assoc] at h
    have hlen := length_of_drop _ _ h (by simp [length_push32])
    have h4 := drop_add_of_drop _ _ h
    rw [length_push32] at hlen h4
    have h6 := drop_add_of_drop _ _ h4
    rw [length_push16] at h6
    have hnode := read32_of_drop (Nat.mod_lt e.nodeAddress (by norm_num)) h
    have hcnt := read16_of_drop (Nat.mod_lt e.neighbors.length (by norm_num)) h4
    have hnb := readNeighbors_of_drop bytes _ _ _ h6
    rw [length_take_mod _ _] at hnb
    have hnext := drop_add_of_drop _ _ h6
    have hrec := ih _ rest hnext
    simp only [List.length_append, length_push16] at hlen
    simp only [List.length_cons, readEntries, hnode, hcnt, hnb, hrec, bind, Except.bind, pure,
      Except.pure, List.map_cons, serializeEntries, serializeEntry, List.length_append,
      length_push32, length_push16, wireEntry]
    rw [if_neg (by omega)]
    simp only [Except.ok.injEq, Prod.mk.injEq, true_and]
    omega

theorem deserializeWithOffset_serialize (p : FsrPacket) (now : Nat) :
    deserializeWithOffset (serializeFsrPacket p) now
      = .ok (wireImage p now, (serializeFsrPacket p).length) := by
  have hb : ∃ bytes, bytes = serializeFsrPacket p := ⟨_, rfl⟩
  obtain ⟨bytes, hb⟩ := hb
  rw [← hb]
  have h0 : bytes.drop 0 = toByte p.packetType :: (push32 (p.sourceAddress % 2 ^ 32) ++
      (push32 (p.sequenceNumber % 2 ^ 32) ++ (toByte p.hopCount ::
      (push16 (p.lspEntries.length % 2 ^ 16) ++
      (serializeEntries (p.lspEntries.take (p.lspEntries.length % 2 ^ 16)) ++ []))))) := by
    simp [hb, serializeFsrPacket]
  have hlen := congrArg List.length h0
  simp only [List.drop_zero, List.length_append, List.length_cons, length_push32,
    length_push16, List.length_nil] at hlen
  have h1 := drop_succ_of_drop h0
  have h5 := drop_add_of_drop _ _ h1
  have h9 := drop_add_of_drop _ _ h5
  have h10 := drop_succ_of_drop h9
  have h12 := drop_add_of_drop _ _ h10
  simp only [length_push32, length_push16, Nat.zero_add, Nat.reduceAdd] at h1 h5 h9 h10 h12
  have r0 := readByte_of_drop h0
  have r1 := read32_of_drop (Nat.mod_lt p.sourceAddress (by norm_num)) h1
  have r5 := read32_of_drop (Nat.mod_lt p.sequenceNumber (by norm_num)) h5
  have r9 := readByte_of_drop h9
  have r10 := read16_of_drop (Nat.mod_lt p.lspEntries.length (by norm_num)) h10
  have r12 := readEntries_of_drop bytes (p.sequenceNumber % 2 ^ 32) _ _ _ h12
  rw [length_take_mod _ _] at r12
  simp only [deserializeWithOffset, r0, r1, r5, r9, r10, r12, bind, Except.bind, pure,
    Except.pure, wireImage, toByte]
  rw [if_neg (by omega), if_neg (by omega)]
  simp only [Except.ok.injEq, Prod.mk.injEq, true_and]
  omega

/-! ### Reads stay inside the buffer -/

theorem readByte_ok {bytes : List Byte} {offset : Nat} (h : offset < bytes.length) :
    ∃ v, readByte bytes offset = .ok v := by
  simp [readByte, List.getElem?_eq_getElem h]

theorem read32_ok {bytes : List Byte} {offset : Nat} (h : offset + 4 ≤ bytes.length) :
    ∃ v, read32 bytes offset = .ok v := by
  obtain ⟨v0, h0⟩ := readByte_ok (show offset < bytes.length by omega)
  obtain ⟨v1, h1⟩ := readByte_ok (show offset + 1 < bytes.length by omega)
  obtain ⟨v2, h2⟩ := readByte_ok (show offset + 2 < bytes.length by omega)
  obtain ⟨v3, h3⟩ := readByte_ok (show offset + 3 < bytes.length by omega)
  simp only [read32, h0, h1, h2, h3, bind, Except.bind, pure, Except.pure]
  exact ⟨_, rfl⟩

theorem read16_ok {bytes : List Byte} {offset : Nat} (h : offset + 2 ≤ bytes.length) :
    ∃ v, read16 bytes offset = .ok v := by
  obtain ⟨v0, h0⟩ := readByte_ok (show offset < bytes.length by omega)
  obtain ⟨v1, h1⟩ := readByte_ok (show offset + 1 < bytes.length by omega)
  simp only [read16, h0, h1, bind, Except.bind, pure, Except.pure]
  exact ⟨_, rfl⟩

theorem readNeighbors_in_range (bytes : List Byte) :
    ∀ (j offset : Nat), readNeighbors bytes j offset ≠ .error .outOfRange := by
  intro j
  induction j with
  | zero => intro offset; simp [readNeighbors]
  | succ j ih =>
    intro offset
    simp only [readNeighbors]
    split
    · simp
    · rename_i hlen
      obtain ⟨v, hv⟩ := read32_ok (show offset + 4 ≤ bytes.length by omega)
      have hrec := ih (offset + 4)
      simp only [hv, bind, Except.bind, pure, Except.pure]
      cases hr : readNeighbors bytes j (offset + 4) with
      | error f => intro hc; simp only [Except.error.injEq] at hc; exact hrec (hr.trans (by rw [hc]))
      | ok r => simp

theorem readEntries_in_range (bytes : List Byte) (seq : Nat) :
    ∀ (i offset : Nat), readEntries bytes seq i offset ≠ .error .outOfRange := by
  intro i
  induction i with
  | zero => intro offset; simp [readEntries]
  | succ i ih =>
    intro offset
    simp only [readEntries]
    split
    · simp
    · rename_i hlen
      obtain ⟨v, hv⟩ := read32_ok (show offset + 4 ≤ bytes.length by omega)
      obtain ⟨c, hc⟩ := read16_ok (show offset + 4 + 2 ≤ bytes.length by omega)
      simp only [hv, hc, bind, Except.bind, pure, Except.pure]
      cases hn : readNeighbors bytes c (offset + 6) with
      | error f =>
        intro hx; simp only [Except.error.injEq] at hx
        exact readNeighbors_in_range bytes c (offset + 6) (hn.trans (by rw [hx]))
      | ok r =>
        simp only
        cases hr : readEntries bytes seq i r.2 with
        | error f =>
          intro hx; simp only [Except.error.injEq] at hx
          exact ih r.2 (hr.trans (by rw [hx]))
        | ok r2 => simp

theorem deserializeWithOffset_in_range (bytes : List Byte) (now : Nat) :
    deserializeWithOffset bytes now ≠ .error .outOfRange := by
  simp only [deserializeWithOffset]
  split
  · simp
  · rename_i hlen
    obtain ⟨t, ht⟩ := readByte_ok (show 0 < bytes.length by omega)
    obtain ⟨a, ha⟩ := read32_ok (show 1 + 4 ≤ bytes.length by omega)
    obtain ⟨q, hq⟩ := read32_ok (show 5 + 4 ≤ bytes.length by omega)
    obtain ⟨h, hh⟩ := readByte_ok (show 9 < bytes.length by omega)
    simp only [ht, ha, hq, hh, bind, Except.bind, pure, Except.pure]
    split
    · simp
    · rename_i hlen2
      obtain ⟨c, hc⟩ := read16_ok (show 10 + 2 ≤ bytes.length by omega)
      simp only [hc]
      cases hr : readEntries bytes q c 12 with
      | error f =>
        intro hx; simp only [Except.error.injEq] at hx
        exact readEntries_in_range bytes q c 12 (hr.trans (by rw [hx]))
      | ok r => simp

/-! ### A successful decode reads only what it consumed -/

theorem readByte_append {bytes : List Byte} (ext : List Byte) {offset : Nat}
    (h : offset < bytes.length) : readByte (bytes ++ ext) offset = readByte bytes offset := by
  simp [readByte, List.getElem?_append_left h]

theorem read32_append {bytes : List Byte} (ext : List Byte) {offset : Nat}
    (h : offset + 4 ≤ bytes.length) : read32 (bytes ++ ext) offset = read32 bytes offset := by
  simp only [read32, readByte_append ext (show offset < bytes.length by omega),
    readByte_append ext (show offset + 1 < bytes.length by omega),
    readByte_append ext (show offset + 2 < bytes.length by omega),
    readByte_append ext (show offset + 3 < bytes.length by omega)]

theorem read16_append {bytes : List Byte} (ext : List Byte) {offset : Nat}
    (h : offset + 2 ≤ bytes.length) : read16 (bytes ++ ext) offset = read16 bytes offset := by
  simp only [read16, readByte_append ext (show offset < bytes.length by omega),
    readByte_append ext (show offset + 1 < bytes.length by omega)]

theorem readNeighbors_append (bytes ext : List Byte) :
    ∀ (j offset : Nat) (r : List Nat × Nat), readNeighbors bytes j offset = .ok r →
      offset ≤ bytes.length →
      readNeighbors (bytes ++ ext) j offset = .ok r ∧ r.2 ≤ bytes.length := by
  intro j
  induction j with
  | zero =>
    intro offset r h hle
    simp only [readNeighbors, Except.ok.injEq] at h
    subst h
    exact ⟨rfl, hle⟩
  | succ j ih =>
    intro offset r h hle
    simp only [readNeighbors] at h
    split at h
    · simp at h
    · rename_i hlen
      have hlen4 : offset + 4 ≤ bytes.length := by omega
      cases hv : read32 bytes offset with
      | error f => simp [hv, bind, Except.bind] at h
      | ok v =>
        cases hr : readNeighbors bytes j (offset + 4) with
        | error f => simp [hv, hr, bind, Except.bind] at h
        | ok r1 =>
          obtain ⟨h1, h2⟩ := ih (offset + 4) r1 hr hlen4
          simp only [hv, hr, bind, Except.bind, pure, Except.pure, Except.ok.injEq] at h
          subst h
          refine ⟨?_, h2⟩
          simp only [readNeighbors, List.length_append, read32_append ext hlen4, hv, h1, bind,
            Except.bind, pure, Except.pure]
          rw [if_neg (by omega)]

theorem readEntries_append (bytes ext : List Byte) (seq : Nat) :
    ∀ (i offset : Nat) (r : List LspEntry × Nat), readEntries bytes seq i offset = .ok r →
      offset ≤ bytes.length →
      readEntries (bytes ++ ext) seq i offset = .ok r ∧ r.2 ≤ bytes.length := by
  intro i
  induction i with
  | zero =>
    intro offset r h hle
    simp only [readEntries, Except.ok.injEq] at h
    subst h
    exact ⟨rfl, hle⟩
  | succ i ih =>
    intro offset r h hle
    simp only [readEntries] at h
    split at h
    · simp at h
    · rename_i hlen
      have hlen4 : offset + 4 ≤ bytes.length := by omega
      have hlen6 : offset + 4 + 2 ≤ bytes.length := by omega
      cases hv : read32 bytes offset with
      | error f => simp [hv, bind, Except.bind] at h
      | ok v =>
        cases hc : read16 bytes (offset + 4) with
        | error f => simp [hv, hc, bind, Except.bind] at h
        | ok c =>
          cases hn : readNeighbors bytes c (offset + 6) with
          | error f => simp [hv, hc, hn, bind, Except.bind] at h
          | ok rn =>
            obtain ⟨hn1, hn2⟩ := readNeighbors_append bytes ext c (offset + 6) rn hn (by omega)
            cases hr : readEntries bytes seq i rn.2 with
            | error f => simp [hv, hc, hn, hr, bind, Except.bind] at h
            | ok r1 =>
              obtain ⟨h1, h2⟩ := ih rn.2 r1 hr hn2
              simp only [hv, hc, hn, hr, bind, Except.bind, pure, Except.pure,
                Except.ok.injEq] at h
              subst h
              refine ⟨?_, h2⟩
              simp only [readEntries, List.length_append, read32_append ext hlen4,
                read16_append ext hlen6, hv, hc, hn1, h1, bind, Except.bind, pure, Except.pure]
              rw [if_neg (by omega)]

theorem deserializeWithOffset_append (bytes ext : List Byte) (now : Nat)
    (r : FsrPacket × Nat) (h : deserializeWithOffset bytes now = .ok r) :
    deserializeWithOffset (bytes ++ ext) now = .ok r ∧ r.2 ≤ bytes.length := by
  simp only [deserializeWithOffset] at h
  split at h
  · simp at h
  · rename_i hlen
    cases ht : readByte bytes 0 with
    | error f => simp [ht, bind, Except.bind] at h
    | ok t =>
      cases ha : read32 bytes 1 with
      | error f => simp [ht, ha, bind, Except.bind] at h
      | ok a =>
        cases hq : read32 bytes 5 with
        | error f => simp [ht, ha, hq, bind, Except.bind] at h
        | ok q =>
          cases hh : readByte bytes 9 with
          | error f => simp [ht, ha, hq, hh, bind, Except.bind] at h
          | ok hc =>
            simp only [ht, ha, hq, hh, bind, Except.bind] at h
            split at h
            · simp at h
            · rename_i hlen2
              cases hn : read16 bytes 10 with
              | error f => simp [hn] at h
              | ok c =>
                cases hr : readEntries bytes q c 12 with
                | error f => simp [hn, hr] at h
                | ok re =>
                  obtain ⟨h1, h2⟩ := readEntries_append bytes ext q c 12 re hr (by omega)
                  simp only [hn, hr, pure, Except.pure, Except.ok.injEq] at h
                  subst h
                  refine ⟨?_, h2⟩
                  simp only [deserializeWithOffset, List.length_append,
                    readByte_append ext (show 0 < bytes.length by omega),
                    readByte_append ext (show 9 < bytes.length by omega),
                    read32_append ext (show 1 + 4 ≤ bytes.length by omega),
                    read32_append ext (show 5 + 4 ≤ bytes.length by omega),
                    read16_append ext (show 10 + 2 ≤ bytes.length by omega),
                    ht, ha, hq, hh, hn, h1, bind, Except.bind, pure, Except.pure]
                  rw [if_neg (by omega), if_neg (by omega)]

theorem push32_eq_bigEndian (v : Nat) : push32 (v % 2 ^ 32) = bigEndian 4 v := by
  simp only [push32, bigEndian, toByte, and_255, Nat.shiftRight_eq_div_pow, List.cons.injEq,
    Fin.mk.injEq, and_true]
  refine ⟨?_, ?_, ?_, ?_⟩ <;> omega

theorem push16_eq_bigEndian (v : Nat) : push16 (v % 2 ^ 16) = bigEndian 2 v := by
  simp only [push16, bigEndian, toByte, and_255, Nat.shiftRight_eq_div_pow, List.cons.injEq,
    Fin.mk.injEq, and_true]
  refine ⟨?_, ?_⟩ <;> omega

theorem serializeNeighbors_eq (ns : List Nat) :
    serializeNeighbors ns = (ns.map (bigEndian 4)).flatten := by
  induction ns with
  | nil => rfl
  | cons n ns ih =>
    simp only [serializeNeighbors, List.map_cons, List.flatten_cons, push32_eq_bigEndian, ih]

theorem length_bigEndian (w v : Nat) : (bigEndian w v).length = w := by
  induction w with
  | zero => rfl
  | succ w ih => simp [bigEndian, ih]

theorem length_serializeNeighbors (ns : List Nat) :
    (serializeNeighbors ns).length = 4 * ns.length := by
  induction ns with
  | nil => rfl
  | cons n ns ih => simp [serializeNeighbors, length_push32, ih]; omega

theorem length_serializeEntries (es : List LspEntry) :
    (serializeEntries es).length
      = (es.map (fun e => 6 + 4 * (e.neighbors.length % 2 ^ 16))).sum := by
  induction es with
  | nil => rfl
  | cons e es ih =>
    simp only [serializeEntries, serializeEntry, List.length_append, length_push32,
      length_push16, length_serializeNeighbors, length_take_mod _ _, ih,
      List.map_cons, List.sum_cons]

theorem length_serializeFsrPacket (p : FsrPacket) :
    (serializeFsrPacket p).length
      = 12 + (serializeEntries (p.lspEntries.take (p.lspEntries.length % 2 ^ 16))).length := by
  simp only [serializeFsrPacket, List.length_append, length_push32, length_push16,
    List.length_singleton]

theorem serializeEntry_eq (e : LspEntry) (h : e.neighbors.length < 2 ^ 16) :
    serializeEntry e = entryLayout e := by
  have hm : e.neighbors.length % 2 ^ 16 = e.neighbors.length := Nat.mod_eq_of_lt h
  have hb := push16_eq_bigEndian e.neighbors.length
  rw [hm] at hb
  simp only [serializeEntry, entryLayout, hm, List.take_length, push32_eq_bigEndian, hb,
    serializeNeighbors_eq]

theorem serializeEntries_eq (es : List LspEntry)
    (h : ∀ e ∈ es, e.neighbors.length < 2 ^ 16) :
    serializeEntries es = (es.map entryLayout).flatten := by
  induction es with
  | nil => rfl
  | cons e es ih =>
    simp only [serializeEntries, List.map_cons, List.flatten_cons]
    rw [serializeEntry_eq e (h e (List.mem_cons_self _ _)),
      ih (fun x hx => h x (List.mem_cons_of_mem _ hx))]

theorem length_entryLayouts (es : List LspEntry) :
    ((es.map entryLayout).flatten).length
      = (es.map (fun e => 6 + 4 * e.neighbors.length)).sum := by
  induction es with
  | nil => rfl
  | cons e es ih =>
    simp only [List.map_cons, List.flatten_cons, List.length_append, List.sum_cons, ih,
      entryLayout, length_bigEndian]
    have : ((e.neighbors.map (bigEndian 4)).flatten).length = 4 * e.neighbors.length := by
      rw [← serializeNeighbors_eq, length_serializeNeighbors]
    omega

theorem wireImage_of_valid (p : FsrPacket) (now : Nat) (hv : p.valid) :
    wireImage p now = { p with
      timestamp := now
      lspEntries := p.lspEntries.map
        (fun e => { e with sequenceNumber := p.sequenceNumber }) } := by
  obtain ⟨ht, hs, hq, hh, hn, he⟩ := hv
  have ht' : p.packetType % 256 = p.packetType := Nat.mod_eq_of_lt ht
  have hh' : p.hopCount % 256 = p.hopCount := Nat.mod_eq_of_lt hh
  simp only [wireImage, ht', hh', Nat.mod_eq_of_lt hs, Nat.mod_eq_of_lt hq,
    Nat.mod_eq_of_lt hn, List.take_length]
  congr 1
  apply List.map_congr_left
  intro e hmem
  obtain ⟨h1, _, h3, h4⟩ := he e hmem
  simp only [wireEntry, Nat.mod_eq_of_lt h1, Nat.mod_eq_of_lt h3, List.take_length]
  congr 1
  conv_rhs => rw [← List.map_id e.neighbors]
  apply List.map_congr_left
  intro n hn
  exact Nat.mod_eq_of_lt (h4 n hn)

theorem deserialize_serialize (p : FsrPacket) (now : Nat) :
    deserializeFsrPacket (serializeFsrPacket p) now = .ok (wireImage p now) := by
  simp only [deserializeFsrPacket, deserializeWithOffset_serialize]

/-! ## Claims on the codec -/

/-- C1 (as amended): for every syntactically valid packet, decoding its
encoding succeeds and returns the packet with the arrival time as timestamp and
with every entry's sequence number set to the packet-level sequence number; all
other fields are those of the packet, and when each entry already carries the
packet-level sequence number the result is the packet itself up to the
timestamp. -/
theorem C1_roundtrip (p : FsrPacket) (now : Nat) (hv : p.valid) :
    deserializeFsrPacket (serializeFsrPacket p) now
        = .ok { p with
            timestamp := now
            lspEntries := p.lspEntries.map
              (fun e => { e with sequenceNumber := p.sequenceNumber }) } ∧
      ((∀ e ∈ p.lspEntries, e.sequenceNumber = p.sequenceNumber) →
        deserializeFsrPacket (serializeFsrPacket p) now = .ok { p with timestamp := now }) := by
  have h := deserialize_serialize p now
  rw [wireImage_of_valid p now hv] at h
  refine ⟨h, fun hs => ?_⟩
  rw [h]
  congr 2
  conv_rhs => rw [← List.map_id p.lspEntries]
  apply List.map_congr_left
  intro e he
  have := hs e he
  cases e
  simp_all

theorem samplePacket_valid : samplePacket.valid := by
  simp [samplePacket, FsrPacket.valid, LspEntry.valid]

theorem ownSeqPacket_valid : ownSeqPacket.valid := by
  simp [ownSeqPacket, FsrPacket.valid, LspEntry.valid]

/-- C1 at a packet built like those of `sendTopologyUpdate`. -/
theorem C1_roundtrip_witness :
    samplePacket.valid ∧
      deserializeFsrPacket (serializeFsrPacket samplePacket) 7
        = .ok { samplePacket with timestamp := 7 } :=
  ⟨samplePacket_valid,
    (C1_roundtrip samplePacket 7 samplePacket_valid).2 (by simp [samplePacket])⟩

/-- C1 as stated fails: a valid packet whose entry has sequence number 4 under
packet sequence number 5 comes back with entry sequence number 5. -/
theorem C1_counterexample :
    ownSeqPacket.valid ∧
      ∀ now, ∃ q, deserializeFsrPacket (serializeFsrPacket ownSeqPacket) now = .ok q ∧
        q.lspEntries.map (·.sequenceNumber) = [5] ∧
        ownSeqPacket.lspEntries.map (·.sequenceNumber) = [4] ∧
        q ≠ { ownSeqPacket with timestamp := now } := by
  refine ⟨ownSeqPacket_valid, fun now => ⟨_, deserialize_serialize _ _, ?_, ?_, ?_⟩⟩
  · simp [wireImage, wireEntry, ownSeqPacket]
  · simp [ownSeqPacket]
  · simp [wireImage, wireEntry, ownSeqPacket]

/-- C2: decoding any strict initial segment of an encoding returns the decode
error (null), never a packet. -/
theorem C2_truncated_is_rejected (p : FsrPacket) (now k : Nat)
    (hk : k < (serializeFsrPacket p).length) :
    deserializeFsrPacket ((serializeFsrPacket p).take k) now = .error .nullPacket := by
  have hfull := deserializeWithOffset_serialize p now
  have hrange := deserializeWithOffset_in_range ((serializeFsrPacket p).take k) now
  cases hd : deserializeWithOffset ((serializeFsrPacket p).take k) now with
  | error f =>
    cases f with
    | nullPacket => simp [deserializeFsrPacket, hd]
    | outOfRange => exact absurd hd hrange
  | ok r =>
    exfalso
    obtain ⟨h1, h2⟩ := deserializeWithOffset_append _ ((serializeFsrPacket p).drop k) now r hd
    rw [List.take_append_drop, hfull] at h1
    simp only [Except.ok.injEq] at h1
    rw [← h1, List.length_take] at h2
    simp only at h2
    omega

/-- C2 at a concrete packet cut after 25 of its 26 bytes. -/
theorem C2_truncated_is_rejected_witness :
    25 < (serializeFsrPacket samplePacket).length ∧
      deserializeFsrPacket ((serializeFsrPacket samplePacket).take 25) 0
        = .error .nullPacket :=
  ⟨by decide, C2_truncated_is_rejected samplePacket 0 25 (by decide)⟩

/-- C3: on every byte sequence the decoder never evaluates `bytes[i]` with `i`
at or beyond the buffer length; it ends with a packet or with the decode
error. -/
theorem C3_reads_stay_in_bounds (bytes : List Byte) (now : Nat) :
    deserializeFsrPacket bytes now ≠ .error .outOfRange ∧
      ((∃ p, deserializeFsrPacket bytes now = .ok p) ∨
        deserializeFsrPacket bytes now = .error .nullPacket) := by
  have hrange := deserializeWithOffset_in_range bytes now
  cases hd : deserializeWithOffset bytes now with
  | error f =>
    cases f with
    | nullPacket => simp [deserializeFsrPacket, hd]
    | outOfRange => exact absurd hd hrange
  | ok r => simp [deserializeFsrPacket, hd]

/-- C4 (as amended): for every packet whose entry count and whose neighbor
counts fit the two-byte count fields, the encoding is the big-endian
concatenation of type, source address, sequence number, hop count, entry count
and the entries (node address, neighbor count, neighbors), and its length is
the 12 header bytes plus `6 + 4 * neighborCount` for each entry. -/
theorem C4_wire_layout (p : FsrPacket) (hn : p.lspEntries.length < 2 ^ 16)
    (he : ∀ e ∈ p.lspEntries, e.neighbors.length < 2 ^ 16) :
    serializeFsrPacket p = packetLayout p ∧
      (serializeFsrPacket p).length
        = 12 + (p.lspEntries.map (fun e => 6 + 4 * e.neighbors.length)).sum := by
  have hm : p.lspEntries.length % 2 ^ 16 = p.lspEntries.length := Nat.mod_eq_of_lt hn
  have hb := push16_eq_bigEndian p.lspEntries.length
  rw [hm] at hb
  have hlay : serializeFsrPacket p = packetLayout p := by
    simp only [serializeFsrPacket, packetLayout, hm, List.take_length, push32_eq_bigEndian, hb,
      serializeEntries_eq _ he]
    simp [bigEndian]
  refine ⟨hlay, ?_⟩
  rw [hlay]
  simp only [packetLayout, List.length_append, length_bigEndian, length_entryLayouts]

/-- C4 at a concrete packet of one entry with two neighbors: 26 bytes. -/
theorem C4_wire_layout_witness :
    serializeFsrPacket samplePacket = packetLayout samplePacket ∧
      (serializeFsrPacket samplePacket).length = 12 + (6 + 4 * 2) := by
  have h := C4_wire_layout samplePacket (by simp [samplePacket]) (by simp [samplePacket])
  exact ⟨h.1, by rw [h.2]; simp [samplePacket]⟩

theorem length_serialize_oversized (p : FsrPacket) (e : LspEntry) (he : p.lspEntries = [e])
    (hl : e.neighbors.length = 65536) :
    (serializeFsrPacket p).length = 18 ∧
      (serializeFsrPacket p).length
        ≠ 12 + (p.lspEntries.map (fun e => 6 + 4 * e.neighbors.length)).sum ∧
      serializeFsrPacket p ≠ packetLayout p := by
  have h18 : (serializeFsrPacket p).length = 18 := by
    rw [length_serializeFsrPacket, he, length_serializeEntries]
    simp only [List.length_singleton, Nat.reducePow, Nat.reduceMod, List.take_succ_cons,
      List.take_zero, List.map_cons, List.map_nil, List.sum_cons, List.sum_nil, hl]
    omega
  refine ⟨h18, ?_, ?_⟩
  · rw [h18, he]
    simp only [List.map_cons, List.map_nil, List.sum_cons, List.sum_nil, hl]
    omega
  · intro hc
    have hlen := congrArg List.length hc
    rw [h18] at hlen
    simp only [packetLayout, List.length_append, length_bigEndian, length_entryLayouts]
      at hlen
    simp only [he, List.map_cons, List.map_nil, List.sum_cons, List.sum_nil, hl] at hlen
    omega

theorem manyNeighborsEntry_length : manyNeighborsEntry.neighbors.length = 65536 := by
  simp only [manyNeighborsEntry, List.length_replicate]

/-- C4 as stated fails: an entry with 65536 neighbors is written with neighbor
count 0 and no neighbor, so the encoding has 18 bytes and not
`12 + 6 + 4 * 65536`. -/
theorem C4_counterexample :
    (serializeFsrPacket manyNeighborsPacket).length = 18 ∧
      (serializeFsrPacket manyNeighborsPacket).length
        ≠ 12 + (manyNeighborsPacket.lspEntries.map
            (fun e => 6 + 4 * e.neighbors.length)).sum ∧
      serializeFsrPacket manyNeighborsPacket ≠ packetLayout manyNeighborsPacket :=
  length_serialize_oversized manyNeighborsPacket manyNeighborsEntry rfl
    manyNeighborsEntry_length

/-! ## Container lemmas -/

theorem mem_setInsert (a x : Nat) (s : List Nat) : x ∈ setInsert a s ↔ x = a ∨ x ∈ s := by
  induction s with
  | nil => simp [setInsert]
  | cons b rest ih =>
    simp only [setInsert]
    split
    · simp
    · split
      · rename_i h; subst h; simp
      · simp only [List.mem_cons, ih]; tauto

theorem mapFind_mapSet_self {β : Type} (k : Nat) (v : β) (m : List (Nat × β)) :
    mapFind (mapSet k v m) k = some v := by
  induction m with
  | nil => simp [mapSet, mapFind]
  | cons e rest ih =>
    obtain ⟨k', v'⟩ := e
    simp only [mapSet]
    split
    · simp [mapFind]
    · split
      · simp [mapFind]
      · rename_i h1 h2
        have : ¬ k' = k := fun h => h2 h.symm
        simp [mapFind, this, ih]

theorem mapFind_mapSet_ne {β : Type} (k x : Nat) (v : β) (m : List (Nat × β)) (h : x ≠ k) :
    mapFind (mapSet k v m) x = mapFind m x := by
  induction m with
  | nil => simp [mapSet, mapFind, Ne.symm h]
  | cons e rest ih =>
    obtain ⟨k', v'⟩ := e
    simp only [mapSet]
    split
    · simp [mapFind, Ne.symm h]
    · split
      · rename_i h1 h2; subst h2; simp [mapFind, Ne.symm h]
      · simp only [mapFind, ih]

theorem mem_keys_mapSet {β : Type} (k x : Nat) (v : β) (m : List (Nat × β)) :
    x ∈ (mapSet k v m).map Prod.fst ↔ x = k ∨ x ∈ m.map Prod.fst := by
  induction m with
  | nil => simp [mapSet]
  | cons e rest ih =>
    obtain ⟨k', v'⟩ := e
    simp only [mapSet]
    split
    · simp
    · split
      · rename_i h1 h2; subst h2; simp
      · simp only [List.map_cons, List.mem_cons, ih]; tauto

theorem keysSorted_mapSet {β : Type} (k : Nat) (v : β) (m : List (Nat × β))
    (h : keysSorted m) : keysSorted (mapSet k v m) := by
  induction m with
  | nil => simp [mapSet, keysSorted]
  | cons e rest ih =>
    obtain ⟨k', v'⟩ := e
    simp only [keysSorted, List.map_cons, List.pairwise_cons] at h
    obtain ⟨hhead, htail⟩ := h
    simp only [mapSet]
    split
    · rename_i hlt
      simp only [keysSorted, List.map_cons, List.pairwise_cons, List.mem_cons]
      refine ⟨?_, hhead, htail⟩
      intro x hx
      rcases hx with rfl | hx
      · exact hlt
      · exact Nat.lt_trans hlt (hhead x hx)
    · split
      · rename_i h1 h2; subst h2
        simp only [keysSorted, List.map_cons, List.pairwise_cons]
        exact ⟨hhead, htail⟩
      · rename_i h1 h2
        simp only [keysSorted, List.map_cons, List.pairwise_cons]
        refine ⟨?_, ih htail⟩
        intro x hx
        rcases (mem_keys_mapSet k x v rest).1 hx with rfl | hx
        · omega
        · exact hhead x hx

theorem mapFind_of_mem {β : Type} (m : List (Nat × β)) (h : keysSorted m) (k : Nat) (v : β)
    (hmem : (k, v) ∈ m) : mapFind m k = some v := by
  induction m with
  | nil => simp at hmem
  | cons e rest ih =>
    obtain ⟨k', v'⟩ := e
    simp only [keysSorted, List.map_cons, List.pairwise_cons] at h
    obtain ⟨hhead, htail⟩ := h
    simp only [List.mem_cons, Prod.mk.injEq] at hmem
    rcases hmem with ⟨rfl, rfl⟩ | hmem
    · simp [mapFind]
    · have hk : k ∈ rest.map Prod.fst := List.mem_map.2 ⟨(k, v), hmem, rfl⟩
      have hlt := hhead k hk
      have hne : ¬ k' = k := by omega
      simp only [mapFind, hne, if_false]
      exact ih htail hmem

theorem mem_of_mapFind {β : Type} (m : List (Nat × β)) (k : Nat) (v : β)
    (h : mapFind m k = some v) : (k, v) ∈ m := by
  induction m with
  | nil => simp [mapFind] at h
  | cons e rest ih =>
    obtain ⟨k', v'⟩ := e
    simp only [mapFind] at h
    split at h
    · rename_i hk; subst hk
      simp only [Option.some.injEq] at h; subst h
      exact List.mem_cons_self _ _
    · exact List.mem_cons_of_mem _ (ih h)

theorem mapIndex_sorted {β : Type} (m : List (Nat × β)) (k : Nat) (dflt : β)
    (h : keysSorted m) : keysSorted (mapIndex m k dflt).2 := by
  unfold mapIndex
  split
  · exact h
  · exact keysSorted_mapSet k dflt m h

theorem mapFind_mapIndex {β : Type} (m : List (Nat × β)) (k x : Nat) (dflt v : β)
    (h : mapFind m x = some v) : mapFind (mapIndex m k dflt).2 x = some v := by
  unfold mapIndex
  split
  · exact h
  · rename_i hnone
    have hne : x ≠ k := by
      rintro rfl
      rw [h] at hnone
      exact Option.noConfusion hnone
    simpa [mapFind_mapSet_ne k x dflt m hne] using h

theorem mapIndex_fst {β : Type} (m : List (Nat × β)) (k : Nat) (dflt v : β)
    (h : mapFind m k = some v) : (mapIndex m k dflt).1 = v := by
  unfold mapIndex
  rw [h]

/-! ## The shortest-path computation keeps what the neighbor loop seeded -/

theorem keysSorted_initDistances (selfAddress : Nat) (tt : List (Nat × tt_entry_t)) :
    ∀ dist, keysSorted dist → keysSorted (initDistances selfAddress tt dist) := by
  induction tt with
  | nil => intro dist h; exact h
  | cons e rest ih =>
    intro dist h
    simp only [initDistances]
    split
    · exact ih _ (keysSorted_mapSet _ _ _ h)
    · exact ih _ h

theorem seeded_addDirectNeighbors (ns : List Nat) :
    ∀ (done : List Nat) (d : Dijkstra), Seeded done d →
      Seeded (done ++ ns) (addDirectNeighbors ns d) := by
  induction ns with
  | nil => intro done d h; simpa [addDirectNeighbors] using h
  | cons m rest ih =>
    intro done d h
    obtain ⟨hd, hp, hs⟩ := h
    have hstep : Seeded (done ++ [m])
        { d with dist := mapSet m 1 d.dist, prev := mapSet m m d.prev } := by
      refine ⟨keysSorted_mapSet _ _ _ hd, keysSorted_mapSet _ _ _ hp, ?_⟩
      intro n hn
      by_cases hnm : n = m
      · subst hnm
        exact ⟨mapFind_mapSet_self _ _ _, mapFind_mapSet_self _ _ _⟩
      · have hn' : n ∈ done := by
          rcases List.mem_append.1 hn with h1 | h1
          · exact h1
          · simp at h1; exact absurd h1 hnm
        simp only [mapFind_mapSet_ne _ _ _ _ hnm]
        exact hs n hn'
    have := ih (done ++ [m]) _ hstep
    simpa [addDirectNeighbors, List.append_assoc] using this

theorem findMin_spec (visited : List Nat) (l : List (Nat × Nat)) :
    ∀ acc : Nat × Nat × Bool,
      findMin visited l acc = acc ∨
        ((findMin visited l acc).2.2 = true ∧
          ((findMin visited l acc).1, (findMin visited l acc).2.1) ∈ l ∧
          (findMin visited l acc).2.1 < acc.2.1) := by
  induction l with
  | nil => intro acc; left; rfl
  | cons e rest ih =>
    intro acc
    obtain ⟨current, minDist, found⟩ := acc
    simp only [findMin]
    split
    · rename_i hc
      right
      rcases ih (e.1, e.2, true) with h | ⟨h1, h2, h3⟩
      · rw [h]
        exact ⟨rfl, List.mem_cons_self _ _, hc.2⟩
      · exact ⟨h1, List.mem_cons_of_mem _ h2, Nat.lt_trans h3 hc.2⟩
    · rcases ih (current, minDist, found) with h | ⟨h1, h2, h3⟩
      · left; exact h
      · right; exact ⟨h1, List.mem_cons_of_mem _ h2, h3⟩

theorem relaxing_relaxNeighbor (ns : List Nat) (selfAddress current : Nat) (d : Dijkstra)
    (neighbor : Nat) (h : Relaxing ns current d) :
    Relaxing ns current (relaxNeighbor selfAddress current d neighbor) := by
  obtain ⟨⟨hd, hp, hs⟩, hvis, c, hc, hcur⟩ := h
  unfold relaxNeighbor
  split
  · rename_i hnv
    have hne : neighbor ≠ current := by
      rintro rfl
      exact hnv (by simpa using hvis)
    have h1 : mapIndex d.dist current 0 = (c, d.dist) := by
      unfold mapIndex; rw [hcur]
    have hnew : (c + 1) % 2 ^ 32 = c + 1 := by
      apply Nat.mod_eq_of_lt
      simp only [UINT32_MAX] at hc
      omega
    simp only [h1, hnew]
    have hd2 : keysSorted (mapIndex d.dist neighbor 0).2 := mapIndex_sorted _ _ _ hd
    have hs2 : ∀ n ∈ ns, mapFind (mapIndex d.dist neighbor 0).2 n = some 1 :=
      fun n hn => mapFind_mapIndex _ _ _ _ _ (hs n hn).1
    have hcur2 : mapFind (mapIndex d.dist neighbor 0).2 current = some c :=
      mapFind_mapIndex _ _ _ _ _ hcur
    split
    · rename_i hlt
      have hnot : neighbor ∉ ns := by
        intro hmem
        have := mapIndex_fst d.dist neighbor 0 1 (hs neighbor hmem).1
        rw [this] at hlt
        omega
      have hdist : ∀ n ∈ ns,
          mapFind (mapSet neighbor (c + 1) (mapIndex d.dist neighbor 0).2) n = some 1 := by
        intro n hn
        have hnn : n ≠ neighbor := fun e => hnot (e ▸ hn)
        rw [mapFind_mapSet_ne _ _ _ _ hnn]
        exact hs2 n hn
      have hcur3 :
          mapFind (mapSet neighbor (c + 1) (mapIndex d.dist neighbor 0).2) current = some c := by
        rw [mapFind_mapSet_ne _ _ _ _ (Ne.symm hne)]
        exact hcur2
      split
      · refine ⟨⟨keysSorted_mapSet _ _ _ hd2, keysSorted_mapSet _ _ _ hp, ?_⟩, hvis, c, hc, hcur3⟩
        intro n hn
        have hnn : n ≠ neighbor := fun e => hnot (e ▸ hn)
        exact ⟨hdist n hn, by rw [mapFind_mapSet_ne _ _ _ _ hnn]; exact (hs n hn).2⟩
      · refine ⟨⟨keysSorted_mapSet _ _ _ hd2,
          keysSorted_mapSet _ _ _ (mapIndex_sorted _ _ _ hp), ?_⟩, hvis, c, hc, hcur3⟩
        intro n hn
        have hnn : n ≠ neighbor := fun e => hnot (e ▸ hn)
        refine ⟨hdist n hn, ?_⟩
        rw [mapFind_mapSet_ne _ _ _ _ hnn]
        exact mapFind_mapIndex _ _ _ _ _ (hs n hn).2
    · exact ⟨⟨hd2, hp, fun n hn => ⟨hs2 n hn, (hs n hn).2⟩⟩, hvis, c, hc, hcur2⟩
  · exact ⟨⟨hd, hp, hs⟩, hvis, c, hc, hcur⟩

theorem relaxing_foldl (ns : List Nat) (selfAddress current : Nat) (ls : List Nat) :
    ∀ d, Relaxing ns current d →
      Relaxing ns current (ls.foldl (relaxNeighbor selfAddress current) d) := by
  induction ls with
  | nil => intro d h; exact h
  | cons m rest ih =>
    intro d h
    exact ih _ (relaxing_relaxNeighbor ns selfAddress current d m h)

theorem seeded_visit (ns : List Nat) (selfAddress : Nat) (tt : List (Nat × tt_entry_t))
    (d : Dijkstra) (current c : Nat) (h : Seeded ns d) (hc : c < UINT32_MAX)
    (hcur : mapFind d.dist current = some c) :
    Seeded ns (visit selfAddress tt d current) := by
  have hstart : Relaxing ns current { d with visited := setInsert current d.visited } :=
    ⟨h, (mem_setInsert _ _ _).2 (Or.inl rfl), c, hc, hcur⟩
  unfold visit
  split
  · exact (relaxing_foldl ns selfAddress current _ _ hstart).1
  · exact h

theorem seeded_dijkstraLoop (ns : List Nat) (selfAddress : Nat) (tt : List (Nat × tt_entry_t)) :
    ∀ (fuel : Nat) (d : Dijkstra), Seeded ns d →
      Seeded ns (dijkstraLoop selfAddress tt fuel d) := by
  intro fuel
  induction fuel with
  | zero => intro d h; exact h
  | succ fuel ih =>
    intro d h
    simp only [dijkstraLoop]
    split
    · split
      · exact h
      · rename_i hgo
        simp only [Bool.or_eq_true, Bool.not_eq_true', decide_eq_true_eq, not_or,
          Bool.not_eq_false] at hgo
        rcases findMin_spec d.visited d.dist (0, UINT32_MAX, false) with hbad | ⟨_, hmem, hlt⟩
        · rw [hbad] at hgo
          exact absurd hgo.1 (by simp)
        · exact ih _ (seeded_visit ns selfAddress tt d _ _ h hlt
            (mapFind_of_mem d.dist h.1 _ _ hmem))
    · exact h

theorem seeded_shortestPaths (st : FsrState) : Seeded st.neighbors (shortestPaths st) := by
  unfold shortestPaths
  apply seeded_dijkstraLoop
  have h0 : Seeded []
      ⟨initDistances st.selfAddress st.topologyTable (mapSet st.selfAddress 0 []), [], []⟩ :=
    ⟨keysSorted_initDistances _ _ _ (keysSorted_mapSet _ _ _ (by simp [keysSorted])),
      by simp [keysSorted], by simp⟩
  simpa using seeded_addDirectNeighbors st.neighbors [] _ h0

/-! ## Routes: what the route functions touch and what they install -/

theorem createRoute_frame (st : FsrState) (dst nexthop hopCount : Nat) :
    ∃ rt, createRoute st dst nexthop hopCount = { st with routingTable := rt } := by
  unfold createRoute
  split
  · split
    · exact ⟨_, rfl⟩
    · exact ⟨_, rfl⟩
  · exact ⟨_, rfl⟩

theorem updateRoutes_frame (prev : List (Nat × Nat)) :
    ∀ st : FsrState, ∃ rt, updateRoutes st prev = { st with routingTable := rt } := by
  induction prev with
  | nil => intro st; exact ⟨_, rfl⟩
  | cons e rest ih =>
    intro st
    simp only [updateRoutes]
    split
    · obtain ⟨rt1, h1⟩ := createRoute_frame st e.1 e.2 1
      rw [h1]
      obtain ⟨rt2, h2⟩ := ih { st with routingTable := rt1 }
      exact ⟨rt2, h2⟩
    · exact ih st

theorem clearRoutes_frame (st : FsrState) :
    ∃ rt, clearRoutes st = { st with routingTable := rt } := by
  unfold clearRoutes
  split
  · exact ⟨_, rfl⟩
  · exact ⟨_, rfl⟩

theorem calculateShortestPath_frame (st : FsrState) :
    ∃ rt, calculateShortestPath st = { st with routingTable := rt } := by
  unfold calculateShortestPath
  split
  · exact ⟨_, rfl⟩
  · obtain ⟨rt1, h1⟩ := clearRoutes_frame st
    rw [h1]
    obtain ⟨rt2, h2⟩ := updateRoutes_frame (shortestPaths st).prev { st with routingTable := rt1 }
    exact ⟨rt2, h2⟩

theorem mem_createRoute (st : FsrState) (dst nexthop hopCount : Nat) (r : Ipv4Route)
    (h : r ∈ routesOf (createRoute st dst nexthop hopCount)) :
    r ∈ routesOf st ∨
      (r.destination = dst ∧ r.nextHop = nexthop ∧ r.netmask = ALLONES_ADDRESS ∧
        r.sourceType = SourceType.MANET ∧ r.metric = hopCount) := by
  unfold createRoute at h
  split at h
  · rename_i routes ifaces hrt hit
    split at h
    · exact Or.inl h
    · simp only [routesOf, List.mem_append, List.mem_singleton] at h
      rcases h with h | h
      · left; simpa [routesOf, hrt] using h
      · right; subst h; exact ⟨rfl, rfl, rfl, rfl, rfl⟩
  · exact Or.inl h

theorem mem_updateRoutes (prev : List (Nat × Nat)) (r : Ipv4Route) :
    ∀ st : FsrState, r ∈ routesOf (updateRoutes st prev) →
      r ∈ routesOf st ∨
        (∃ e ∈ prev, e.1 ≠ st.selfAddress ∧ e.1 ≠ e.2 ∧ r.destination = e.1 ∧
          r.nextHop = e.2 ∧ r.netmask = ALLONES_ADDRESS ∧
          r.sourceType = SourceType.MANET ∧ r.metric = 1) := by
  induction prev with
  | nil => intro st h; exact Or.inl h
  | cons e rest ih =>
    intro st h
    simp only [updateRoutes] at h
    split at h
    · rename_i hc
      have hself : (createRoute st e.1 e.2 1).selfAddress = st.selfAddress := by
        obtain ⟨rt, hrt⟩ := createRoute_frame st e.1 e.2 1
        rw [hrt]
      rcases ih _ h with h1 | ⟨e', he', h1, h2⟩
      · rcases mem_createRoute st e.1 e.2 1 r h1 with h3 | ⟨h3, h4, h5, h6, h7⟩
        · exact Or.inl h3
        · exact Or.inr ⟨e, List.mem_cons_self _ _, hc.1, hc.2, h3, h4, h5, h6, h7⟩
      · rw [hself] at h1
        exact Or.inr ⟨e', List.mem_cons_of_mem _ he', h1, h2⟩
    · rcases ih _ h with h1 | ⟨e', he', h1⟩
      · exact Or.inl h1
      · exact Or.inr ⟨e', List.mem_cons_of_mem _ he', h1⟩

theorem clearRoutesFrom_eq :
    ∀ (i : Nat) (routes : List Ipv4Route), i ≤ routes.length →
      clearRoutesFrom i routes
        = (routes.take i).filter (fun r => decide (r.sourceType ≠ SourceType.MANET)) ++
            routes.drop i := by
  intro i
  induction i with
  | zero => intro routes _; simp [clearRoutesFrom]
  | succ i ih =>
    intro routes hle
    have hlt : i < routes.length := hle
    have hget : routes[i]? = some routes[i] := List.getElem?_eq_getElem hlt
    have htake : routes.take (i + 1) = routes.take i ++ [routes[i]] := by
      rw [List.take_succ, hget]; rfl
    simp only [clearRoutesFrom, hget]
    split
    · rename_i hm
      have hlen : i ≤ (routes.eraseIdx i).length := by
        rw [List.length_eraseIdx, if_pos hlt]; omega
      rw [ih _ hlen, htake, List.filter_append]
      have he : routes.eraseIdx i = routes.take i ++ routes.drop (i + 1) :=
        List.eraseIdx_eq_take_drop_succ routes i
      have hl : (routes.take i).length = i := by
        rw [List.length_take]; omega
      have h1 : (routes.eraseIdx i).take i = routes.take i := by
        rw [he, List.take_append_of_le_length (by omega), List.take_of_length_le (by omega)]
      have h2 : (routes.eraseIdx i).drop i = routes.drop (i + 1) := by
        rw [he, List.drop_append_of_le_length (by omega), List.drop_of_length_le (by omega)]
        rfl
      rw [h1, h2]
      simp [hm]
    · rename_i hm
      rw [ih _ (by omega), htake, List.filter_append]
      have hd : routes.drop i = routes[i] :: routes.drop (i + 1) :=
        List.drop_eq_getElem_cons hlt
      rw [hd]
      simp [hm]

theorem routesOf_clearRoutes (st : FsrState) :
    routesOf (clearRoutes st)
      = (routesOf st).filter (fun r => decide (r.sourceType ≠ SourceType.MANET)) := by
  unfold clearRoutes
  split
  · rename_i h; simp [routesOf, h]
  · rename_i routes h
    simp only [routesOf, h]
    rw [clearRoutesFrom_eq _ _ (Nat.le_refl _)]
    simp

/-- Every route in the table after `calculateShortestPath` is either an old
route that is not protocol-owned, or a `MANET` host route of metric 1 made
from a pair of `prev` whose key differs from self and from its value. -/
theorem mem_calculateShortestPath (st : FsrState) (r : Ipv4Route)
    (h : r ∈ routesOf (calculateShortestPath st)) :
    (r ∈ routesOf st ∧ (st.routingTable = none ∨ r.sourceType ≠ SourceType.MANET)) ∨
      (∃ e ∈ (shortestPaths st).prev, e.1 ≠ st.selfAddress ∧ e.1 ≠ e.2 ∧
        r.destination = e.1 ∧ r.nextHop = e.2 ∧ r.netmask = ALLONES_ADDRESS ∧
        r.sourceType = SourceType.MANET ∧ r.metric = 1) := by
  unfold calculateShortestPath at h
  split at h
  · rename_i hn; exact Or.inl ⟨h, Or.inl hn⟩
  · have hself : (clearRoutes st).selfAddress = st.selfAddress := by
      obtain ⟨rt, hrt⟩ := clearRoutes_frame st
      rw [hrt]
    rcases mem_updateRoutes _ r _ h with h1 | h1
    · rw [routesOf_clearRoutes] at h1
      simp only [List.mem_filter, decide_eq_true_eq] at h1
      exact Or.inl ⟨h1.1, Or.inr h1.2⟩
    · rw [hself] at h1
      exact Or.inr h1

/-! ## Inbound packets -/

theorem isStale_iff (st : FsrState) (packet : FsrPacket) :
    isStale st packet = true ↔
      ∃ stored, mapFind st.topologyTable packet.sourceAddress = some stored ∧
        packet.sequenceNumber ≤ stored.seq := by
  unfold isStale
  split
  · rename_i stored h
    simp [h]
  · rename_i h
    simp [h]

theorem processLSP_stale (st : FsrState) (packet : FsrPacket) (sourceAddr : Nat)
    (h : isStale st packet = true) :
    processLSP st packet sourceAddr
      = { st with numLSPsReceived := (st.numLSPsReceived + 1) % 2 ^ 32 } := by
  have h1 : isStale { st with numLSPsReceived := (st.numLSPsReceived + 1) % 2 ^ 32 } packet
      = true := h
  simp only [processLSP, h1, if_true]

theorem processLSP_fresh (st : FsrState) (packet : FsrPacket) (sourceAddr : Nat)
    (h : isStale st packet = false) :
    processLSP st packet sourceAddr
      = if packet.hopCount > 1 then
          sendFsrPacketHelper (calculateShortestPath (acceptedState st packet))
            (relayOf packet) ALLONES_ADDRESS
        else calculateShortestPath (acceptedState st packet) := by
  have h1 : isStale { st with numLSPsReceived := (st.numLSPsReceived + 1) % 2 ^ 32 } packet
      = false := h
  simp only [processLSP, h1]
  rfl

theorem mem_foldl_setInsert (ns : List Nat) (a : Nat) :
    ∀ s : List Nat, a ∈ ns.foldl (fun s n => setInsert n s) s ↔ a ∈ ns ∨ a ∈ s := by
  induction ns with
  | nil => intro s; simp
  | cons n rest ih =>
    intro s
    simp only [List.foldl_cons, ih, mem_setInsert, List.mem_cons]
    tauto

theorem mem_extractLspEntries (es : List LspEntry) (a : Nat) :
    ∀ ls : List Nat, a ∈ extractLspEntries es ls ↔
      a ∈ ls ∨ ∃ e ∈ es, a = e.nodeAddress ∨ a ∈ e.neighbors := by
  induction es with
  | nil => intro ls; simp [extractLspEntries]
  | cons e rest ih =>
    intro ls
    simp only [extractLspEntries, ih, mem_foldl_setInsert, mem_setInsert, List.mem_cons,
      exists_eq_or_imp]
    generalize (∃ x ∈ rest, a = x.nodeAddress ∨ a ∈ x.neighbors) = q
    tauto

theorem addNeighbor_sent (st : FsrState) (neighbor : Nat) :
    (addNeighbor st neighbor).sent = st.sent := by
  unfold addNeighbor
  split
  · rfl
  · split <;> rfl

theorem calculateShortestPath_sent (st : FsrState) :
    (calculateShortestPath st).sent = st.sent := by
  obtain ⟨rt, h⟩ := calculateShortestPath_frame st
  rw [h]

theorem calculateShortestPath_topologyTable (st : FsrState) :
    (calculateShortestPath st).topologyTable = st.topologyTable := by
  obtain ⟨rt, h⟩ := calculateShortestPath_frame st
  rw [h]

theorem calculateShortestPath_fsrPort (st : FsrState) :
    (calculateShortestPath st).fsrPort = st.fsrPort := by
  obtain ⟨rt, h⟩ := calculateShortestPath_frame st
  rw [h]

/-- What `processLSP` hands to the socket: nothing, or, for an accepted update
with more than one hop left, the relay packet and its encoding. -/
theorem processLSP_sent (st : FsrState) (packet : FsrPacket) (sourceAddr : Nat) :
    (processLSP st packet sourceAddr).sent =
      if isStale st packet = false ∧ 1 < packet.hopCount then
        st.sent ++ [⟨relayOf packet, serializeFsrPacket (relayOf packet), ALLONES_ADDRESS,
          st.fsrPort⟩]
      else st.sent := by
  cases hs : isStale st packet with
  | true => simp [processLSP_stale st packet sourceAddr hs]
  | false =>
    rw [processLSP_fresh st packet sourceAddr hs]
    by_cases hh : 1 < packet.hopCount
    · have hh' : packet.hopCount > 1 := hh
      simp only [hh', if_true, hh, and_self, sendFsrPacketHelper, calculateShortestPath_sent,
        calculateShortestPath_fsrPort]
      rfl
    · have hh' : ¬ packet.hopCount > 1 := hh
      simp only [hh', if_false, hh, and_false, calculateShortestPath_sent]
      rfl

theorem processFsrPacket_sent (kinds : PacketKinds) (st : FsrState) (packet : FsrPacket)
    (sourceAddr : Nat) :
    (processFsrPacket kinds st packet sourceAddr).sent = st.sent ∨
      (1 < packet.hopCount ∧
        (processFsrPacket kinds st packet sourceAddr).sent =
          st.sent ++ [⟨relayOf packet, serializeFsrPacket (relayOf packet), ALLONES_ADDRESS,
            st.fsrPort⟩]) := by
  unfold processFsrPacket
  split
  · exact Or.inl rfl
  · split
    · exact Or.inl (addNeighbor_sent st sourceAddr)
    · split
      · rw [processLSP_sent]
        split
        · rename_i h; exact Or.inr ⟨h.2, rfl⟩
        · exact Or.inl rfl
      · exact Or.inl rfl

theorem relayCount_le (kinds : PacketKinds) (nodes : List (FsrState × Nat)) :
    ∀ origin : FsrPacket, origin.hopCount < 256 →
      relayCount kinds nodes (serializeFsrPacket origin) ≤ origin.hopCount - 1 := by
  induction nodes with
  | nil => intro origin _; simp [relayCount]
  | cons node rest ih =>
    intro origin hh
    obtain ⟨st, sourceAddr⟩ := node
    simp only [relayCount, deserialize_serialize]
    have hhop : (wireImage origin st.simTime).hopCount = origin.hopCount := by
      simp only [wireImage]; exact Nat.mod_eq_of_lt hh
    rcases processFsrPacket_sent kinds st (wireImage origin st.simTime) sourceAddr with h | ⟨h1, h2⟩
    · rw [h, List.drop_length]
      exact Nat.zero_le _
    · rw [h2, List.drop_left]
      simp only
      have hr : (relayOf (wireImage origin st.simTime)).hopCount = origin.hopCount - 1 := by
        simp only [relayOf, hhop]
      have := ih (relayOf (wireImage origin st.simTime)) (by rw [hr]; omega)
      rw [hr] at this
      rw [hhop] at h1
      omega

theorem isStale_eq_false_iff (st : FsrState) (packet : FsrPacket) :
    isStale st packet = false ↔ ¬ StaleFor st packet := by
  unfold StaleFor
  rw [← isStale_iff, Bool.not_eq_true]

theorem processLSP_accepted_entry (st : FsrState) (packet : FsrPacket) (sourceAddr : Nat)
    (h : ¬ StaleFor st packet) :
    (processLSP st packet sourceAddr).topologyTable
      = mapSet packet.sourceAddress
          ⟨extractLspEntries packet.lspEntries [], packet.sequenceNumber, 0⟩
          st.topologyTable := by
  rw [processLSP_fresh st packet sourceAddr ((isStale_eq_false_iff st packet).2 h)]
  split
  · simp only [sendFsrPacketHelper, calculateShortestPath_topologyTable]; rfl
  · simp only [calculateShortestPath_topologyTable]; rfl

theorem lineAtA_fresh : ¬ StaleFor lineAtA freshFromC := by
  rintro ⟨stored, h1, h2⟩
  simp [lineAtA, freshFromC, mapFind] at h1
  subst h1
  simp [freshFromC] at h2

theorem lineAtA_stale : StaleFor lineAtA staleFromC :=
  ⟨⟨[2], 1, 0⟩, by decide, by decide⟩

theorem lineAtA_stray : ¬ StaleFor lineAtA strayEntryPacket := by
  rintro ⟨stored, h1, _⟩
  simp [lineAtA, strayEntryPacket, mapFind] at h1

/-! ## Claims on packet processing and routes -/

/-- C5: `processLSP` treats an update as stale exactly when the topology table
holds an entry for the packet's originator with stored sequence number at
least the packet's: in that case the topology table, the neighbor set, the
routing table and the sent datagrams are left as they were (only the receive
counter advances); otherwise the originator's entry is replaced by one with
the packet's sequence number and age 0. -/
theorem C5_freshness_gate (st : FsrState) (packet : FsrPacket) (sourceAddr : Nat) :
    ((processLSP st packet sourceAddr).topologyTable = st.topologyTable ↔
        StaleFor st packet) ∧
      (StaleFor st packet →
        processLSP st packet sourceAddr
            = { st with numLSPsReceived := (st.numLSPsReceived + 1) % 2 ^ 32 } ∧
          (processLSP st packet sourceAddr).topologyTable = st.topologyTable ∧
          (processLSP st packet sourceAddr).neighbors = st.neighbors ∧
          (processLSP st packet sourceAddr).routingTable = st.routingTable ∧
          (processLSP st packet sourceAddr).sent = st.sent) ∧
      (¬ StaleFor st packet →
        mapFind (processLSP st packet sourceAddr).topologyTable packet.sourceAddress
          = some ⟨extractLspEntries packet.lspEntries [], packet.sequenceNumber, 0⟩) := by
  have hstale : StaleFor st packet →
      processLSP st packet sourceAddr
        = { st with numLSPsReceived := (st.numLSPsReceived + 1) % 2 ^ 32 } :=
    fun h => processLSP_stale st packet sourceAddr ((isStale_iff st packet).2 h)
  have hfresh : ¬ StaleFor st packet →
      mapFind (processLSP st packet sourceAddr).topologyTable packet.sourceAddress
        = some ⟨extractLspEntries packet.lspEntries [], packet.sequenceNumber, 0⟩ := by
    intro h
    rw [processLSP_accepted_entry st packet sourceAddr h, mapFind_mapSet_self]
  refine ⟨⟨fun heq => ?_, fun h => by rw [hstale h]⟩, fun h => ?_, hfresh⟩
  · by_contra hn
    have h1 := hfresh hn
    rw [heq] at h1
    exact hn ⟨_, h1, Nat.le_refl _⟩
  · have := hstale h
    refine ⟨this, ?_, ?_, ?_, ?_⟩ <;> rw [this]

/-- C5 on the line A - B - C at A: a repeated update from C changes nothing, a
newer one replaces the entry of C. -/
theorem C5_freshness_gate_witness :
    StaleFor lineAtA staleFromC ∧
      (processLSP lineAtA staleFromC 2).topologyTable = lineAtA.topologyTable ∧
      (processLSP lineAtA staleFromC 2).sent = lineAtA.sent ∧
      ¬ StaleFor lineAtA freshFromC ∧
      mapFind (processLSP lineAtA freshFromC 2).topologyTable freshFromC.sourceAddress
        = some ⟨extractLspEntries freshFromC.lspEntries [], freshFromC.sequenceNumber, 0⟩ :=
  ⟨lineAtA_stale,
    ((C5_freshness_gate lineAtA staleFromC 2).2.1 lineAtA_stale).2.1,
    ((C5_freshness_gate lineAtA staleFromC 2).2.1 lineAtA_stale).2.2.2.2,
    lineAtA_fresh,
    (C5_freshness_gate lineAtA freshFromC 2).2.2 lineAtA_fresh⟩

/-- C6 (as amended): an accepted update is a full replace keyed by the packet's
source address: afterwards the topology table maps the packet's source address
to an entry with the packet's sequence number, age 0 and, as neighbor set,
exactly the addresses that some entry of the packet names as its node or lists
as a neighbor (nothing of the previously stored set survives otherwise); every
other key keeps what it had. For a packet of one entry whose node is the
packet's source address, that set is the entry's neighbors together with the
entry's node. -/
theorem C6_accepted_update_replaces (st : FsrState) (packet : FsrPacket) (sourceAddr : Nat)
    (hfresh : ¬ StaleFor st packet) :
    (∃ entry, mapFind (processLSP st packet sourceAddr).topologyTable packet.sourceAddress
          = some entry ∧
        entry.seq = packet.sequenceNumber ∧ entry.age = 0 ∧
        (∀ a, a ∈ entry.ls ↔ ∃ e ∈ packet.lspEntries, a = e.nodeAddress ∨ a ∈ e.neighbors) ∧
        (∀ e, packet.lspEntries = [e] → e.nodeAddress = packet.sourceAddress →
          mapFind (processLSP st packet sourceAddr).topologyTable e.nodeAddress = some entry ∧
          ∀ a, a ∈ entry.ls ↔ a ∈ e.neighbors ∨ a = e.nodeAddress)) ∧
      (∀ k, k ≠ packet.sourceAddress →
        mapFind (processLSP st packet sourceAddr).topologyTable k
          = mapFind st.topologyTable k) := by
  have htab := processLSP_accepted_entry st packet sourceAddr hfresh
  have hls : ∀ a, a ∈ extractLspEntries packet.lspEntries [] ↔
      ∃ e ∈ packet.lspEntries, a = e.nodeAddress ∨ a ∈ e.neighbors := by
    intro a
    rw [mem_extractLspEntries]
    simp
  refine ⟨⟨⟨extractLspEntries packet.lspEntries [], packet.sequenceNumber, 0⟩, ?_, rfl, rfl,
    hls, ?_⟩, ?_⟩
  · rw [htab, mapFind_mapSet_self]
  · intro e he hnode
    refine ⟨by rw [htab, hnode, mapFind_mapSet_self], fun a => ?_⟩
    rw [hls a, he]
    simp only [List.mem_singleton, exists_eq_left]
    tauto
  · intro k hk
    rw [htab, mapFind_mapSet_ne _ _ _ _ hk]

/-- C6 on the line A - B - C at A, for the newer update from C. -/
theorem C6_accepted_update_replaces_witness :
    ¬ StaleFor lineAtA freshFromC ∧
      ∃ entry, mapFind (processLSP lineAtA freshFromC 2).topologyTable 3 = some entry ∧
        entry.seq = 5 ∧ entry.age = 0 ∧ ∀ a, a ∈ entry.ls ↔ a ∈ [2, 4] ∨ a = 3 := by
  obtain ⟨⟨entry, _, h2, h3, _, h5⟩, _⟩ :=
    C6_accepted_update_replaces lineAtA freshFromC 2 lineAtA_fresh
  exact ⟨lineAtA_fresh, entry, (h5 ⟨3, 5, [2, 4]⟩ rfl rfl).1, h2, h3,
    (h5 ⟨3, 5, [2, 4]⟩ rfl rfl).2⟩

/-- C6 as stated fails: an accepted update sent by 5 whose entry describes node
7 gives 7 no entry; the addresses of that entry go into the entry of 5. -/
theorem C6_counterexample :
    ¬ StaleFor lineAtA strayEntryPacket ∧
      strayEntryPacket.lspEntries.map (·.nodeAddress) = [7] ∧
      mapFind (processLSP lineAtA strayEntryPacket 2).topologyTable 7 = none ∧
      mapFind (processLSP lineAtA strayEntryPacket 2).topologyTable 5
        = some ⟨[7, 8], 9, 0⟩ := by
  refine ⟨lineAtA_stray, rfl, ?_, ?_⟩
  · rw [processLSP_accepted_entry _ _ _ lineAtA_stray]; decide
  · rw [processLSP_accepted_entry _ _ _ lineAtA_stray]; decide

/-- C7: an accepted update with hop count `h > 1` makes `processLSP` send
exactly one datagram, the encoding of a packet with the same type, source
address, sequence number and entries and hop count `h - 1`; an accepted update
with hop count at most 1 sends nothing. Hence along any forwarding path an
update originated with hop count `N` is relayed at most `N - 1` times. -/
theorem C7_relay (st : FsrState) (packet : FsrPacket) (sourceAddr : Nat)
    (hfresh : ¬ StaleFor st packet) :
    (1 < packet.hopCount →
        (processLSP st packet sourceAddr).sent
            = st.sent ++ [⟨relayOf packet, serializeFsrPacket (relayOf packet),
                ALLONES_ADDRESS, st.fsrPort⟩] ∧
          (relayOf packet).packetType = packet.packetType ∧
          (relayOf packet).sourceAddress = packet.sourceAddress ∧
          (relayOf packet).sequenceNumber = packet.sequenceNumber ∧
          (relayOf packet).lspEntries = packet.lspEntries ∧
          (relayOf packet).hopCount = packet.hopCount - 1) ∧
      (packet.hopCount ≤ 1 → (processLSP st packet sourceAddr).sent = st.sent) ∧
      (∀ (kinds : PacketKinds) (nodes : List (FsrState × Nat)) (origin : FsrPacket),
        origin.hopCount < 256 →
        relayCount kinds nodes (serializeFsrPacket origin) ≤ origin.hopCount - 1) := by
  have hs := (isStale_eq_false_iff st packet).2 hfresh
  refine ⟨fun h => ⟨?_, rfl, rfl, rfl, rfl, rfl⟩, fun h => ?_,
    fun kinds nodes origin ho => relayCount_le kinds nodes origin ho⟩
  · rw [processLSP_sent, if_pos ⟨hs, h⟩]
  · rw [processLSP_sent, if_neg (by omega)]

/-- C7 on the line A - B - C at A: the newer update from C arrives with three
hops left and is relayed once, with two hops left. -/
theorem C7_relay_witness :
    ¬ StaleFor lineAtA freshFromC ∧ 1 < freshFromC.hopCount ∧
      (processLSP lineAtA freshFromC 2).sent
        = [⟨{ freshFromC with hopCount := 2 },
            serializeFsrPacket { freshFromC with hopCount := 2 }, ALLONES_ADDRESS, 6543⟩] :=
  ⟨lineAtA_fresh, by decide, ((C7_relay lineAtA freshFromC 2 lineAtA_fresh).1 (by decide)).1⟩

/-- C8: a packet of any kind whose sender address is the node's own address
leaves the whole state as it was, so no neighbor, timer, topology entry,
counter or route changes and nothing is sent. -/
theorem C8_self_loop_guard (kinds : PacketKinds) (st : FsrState) (packet : FsrPacket) :
    processFsrPacket kinds st packet st.selfAddress = st := by
  simp [processFsrPacket]

/-- C9 at the topology `{A:[B], B:[A,C], C:[B]}` computed at A: the computed
distance of C is 2 and the one route installed goes to C through B, with the
metric 1 that `updateRoutes` passes for every route. -/
theorem C9_line_route_has_metric_one :
    mapFind (shortestPaths lineAtA).dist 3 = some 2 ∧
      (calculateShortestPath lineAtA).routingTable
        = some [⟨3, ALLONES_ADDRESS, 2, 100, SourceType.MANET, 1⟩] := by
  decide

/-- C10 (as amended): for every address `n` of the live neighbor set the
computation ends with distance 1 and next hop `n` recorded for `n`, whether or
not the database holds an entry originated by `n`; but `updateRoutes` skips
every destination that is its own next hop, so the routes the protocol installs
contain no route to `n`, and none whose next hop is its destination. -/
theorem C10_neighbor_seeded_not_routed (st : FsrState) (n : Nat) (hn : n ∈ st.neighbors) :
    mapFind (shortestPaths st).dist n = some 1 ∧
      mapFind (shortestPaths st).prev n = some n ∧
      (∀ r ∈ routesOf (calculateShortestPath st),
        r.sourceType = SourceType.MANET → r.destination ≠ n) ∧
      (∀ r ∈ routesOf (calculateShortestPath st),
        r.sourceType = SourceType.MANET → r.destination ≠ r.nextHop) := by
  obtain ⟨_, hp, hs⟩ := seeded_shortestPaths st
  have hold : ∀ r ∈ routesOf (calculateShortestPath st), r.sourceType = SourceType.MANET →
      ∃ e ∈ (shortestPaths st).prev, e.1 ≠ e.2 ∧ r.destination = e.1 ∧ r.nextHop = e.2 := by
    intro r hr hm
    rcases mem_calculateShortestPath st r hr with ⟨hmem, h | h⟩ | ⟨e, he, _, hne, h1, h2, _⟩
    · simp [routesOf, h] at hmem
    · exact absurd hm h
    · exact ⟨e, he, hne, h1, h2⟩
  refine ⟨(hs n hn).1, (hs n hn).2, fun r hr hm hd => ?_, fun r hr hm hd => ?_⟩
  · obtain ⟨e, he, hne, h1, _⟩ := hold r hr hm
    have hfind := mapFind_of_mem _ hp e.1 e.2 he
    rw [← h1, hd, (hs n hn).2] at hfind
    simp only [Option.some.injEq] at hfind
    rw [← h1, hd] at hne
    exact hne hfind
  · obtain ⟨e, _, hne, h1, h2⟩ := hold r hr hm
    rw [h1, h2] at hd
    exact hne hd

/-- C10 on the line A - B - C at A for the neighbor B. -/
theorem C10_neighbor_seeded_not_routed_witness :
    2 ∈ lineAtA.neighbors ∧
      mapFind (shortestPaths lineAtA).dist 2 = some 1 ∧
      mapFind (shortestPaths lineAtA).prev 2 = some 2 ∧
      ∀ r ∈ routesOf (calculateShortestPath lineAtA),
        r.sourceType = SourceType.MANET → r.destination ≠ 2 :=
  ⟨by decide, (C10_neighbor_seeded_not_routed lineAtA 2 (by decide)).1,
    (C10_neighbor_seeded_not_routed lineAtA 2 (by decide)).2.1,
    (C10_neighbor_seeded_not_routed lineAtA 2 (by decide)).2.2.1⟩

/-- C10 as stated fails: at A on the line A - B - C the live neighbor B gets no
route at all. -/
theorem C10_counterexample :
    2 ∈ lineAtA.neighbors ∧
      ¬ ∃ r ∈ routesOf (calculateShortestPath lineAtA),
        r.destination = 2 ∧ r.nextHop = 2 ∧ r.metric = 1 := by
  decide

/-! ## More on the containers -/

theorem mapFind_mapSet {β : Type} (k x : Nat) (v : β) (m : List (Nat × β)) :
    mapFind (mapSet k v m) x = if x = k then some v else mapFind m x := by
  split
  · rename_i h; subst h; exact mapFind_mapSet_self _ _ _
  · rename_i h; exact mapFind_mapSet_ne _ _ _ _ h

theorem mem_mapSet {β : Type} (k : Nat) (v : β) (m : List (Nat × β)) (e : Nat × β)
    (h : e ∈ mapSet k v m) : e = (k, v) ∨ e ∈ m := by
  induction m with
  | nil => simp [mapSet] at h; exact Or.inl h
  | cons e' rest ih =>
    obtain ⟨k', v'⟩ := e'
    simp only [mapSet] at h
    split at h
    · simp only [List.mem_cons] at h ⊢; tauto
    · split at h
      · simp only [List.mem_cons] at h ⊢; tauto
      · simp only [List.mem_cons] at h ⊢
        rcases h with h | h
        · exact Or.inr (Or.inl h)
        · rcases ih h with h | h
          · exact Or.inl h
          · exact Or.inr (Or.inr h)

theorem mapFind_mapIndex_cases {β : Type} (m : List (Nat × β)) (k x : Nat) (dflt v : β)
    (h : mapFind (mapIndex m k dflt).2 x = some v) :
    mapFind m x = some v ∨ (x = k ∧ v = dflt) := by
  unfold mapIndex at h
  split at h
  · exact Or.inl h
  · simp only [mapFind_mapSet] at h
    split at h
    · rename_i hx
      simp only [Option.some.injEq] at h
      exact Or.inr ⟨hx, h.symm⟩
    · exact Or.inl h

theorem mem_mapIndex {β : Type} (m : List (Nat × β)) (k : Nat) (dflt : β) (e : Nat × β)
    (h : e ∈ (mapIndex m k dflt).2) : e ∈ m ∨ e = (k, dflt) := by
  unfold mapIndex at h
  split at h
  · exact Or.inl h
  · rcases mem_mapSet _ _ _ _ h with h | h
    · exact Or.inr h
    · exact Or.inl h

theorem mapIndex_fst_cases {β : Type} (m : List (Nat × β)) (k : Nat) (dflt : β) :
    mapFind m k = some (mapIndex m k dflt).1 ∨ (mapIndex m k dflt).1 = dflt := by
  unfold mapIndex
  split
  · rename_i v h; exact Or.inl h
  · exact Or.inr rfl

theorem mem_keys_of_mapFind {β : Type} (m : List (Nat × β)) (k : Nat) (v : β)
    (h : mapFind m k = some v) : k ∈ m.map Prod.fst :=
  List.mem_map.2 ⟨(k, v), mem_of_mapFind m k v h, rfl⟩

/-! ## Every key of `prev` is a known address at finite distance -/

theorem finite_initDistances (tt : List (Nat × tt_entry_t)) (ns : List Nat) (selfAddress : Nat) :
    ∀ (l : List (Nat × tt_entry_t)) (dist : List (Nat × Nat)),
      (∀ e ∈ l, e.1 ∈ tt.map Prod.fst) →
      Finite tt ns ⟨dist, [], []⟩ →
      Finite tt ns ⟨initDistances selfAddress l dist, [], []⟩ := by
  intro l
  induction l with
  | nil => intro dist _ h; exact h
  | cons e rest ih =>
    intro dist hl h
    simp only [initDistances]
    split
    · apply ih _ (fun x hx => hl x (List.mem_cons_of_mem _ hx))
      obtain ⟨hd, hv, _⟩ := h
      refine ⟨keysSorted_mapSet _ _ _ hd, ?_, by simp⟩
      intro k v hk
      simp only [mapFind_mapSet] at hk
      split at hk
      · rename_i hke
        simp only [Option.some.injEq] at hk
        subst hk
        exact ⟨Nat.le_refl _, fun _ => Or.inl (hke ▸ hl e (List.mem_cons_self _ _))⟩
      · exact hv k v hk
    · exact ih _ (fun x hx => hl x (List.mem_cons_of_mem _ hx)) h

theorem finite_addDirectNeighbors (tt : List (Nat × tt_entry_t)) (ns : List Nat) :
    ∀ (l : List Nat) (d : Dijkstra), (∀ n ∈ l, n ∈ ns) → Finite tt ns d →
      Finite tt ns (addDirectNeighbors l d) := by
  intro l
  induction l with
  | nil => intro d _ h; exact h
  | cons n rest ih =>
    intro d hl h
    simp only [addDirectNeighbors]
    apply ih _ (fun x hx => hl x (List.mem_cons_of_mem _ hx))
    obtain ⟨hd, hv, hp⟩ := h
    have hn : Known tt ns n := Or.inr (hl n (List.mem_cons_self _ _))
    refine ⟨keysSorted_mapSet _ _ _ hd, ?_, ?_⟩
    · intro k v hk
      simp only [mapFind_mapSet] at hk
      split at hk
      · rename_i hke
        simp only [Option.some.injEq] at hk
        subst hk
        exact ⟨by simp [UINT32_MAX], fun _ => hke ▸ hn⟩
      · exact hv k v hk
    · intro e he
      simp only [mapFind_mapSet]
      rcases mem_mapSet _ _ _ _ he with rfl | he
      · exact ⟨hn, 1, by simp [UINT32_MAX], by simp⟩
      · refine ⟨(hp e he).1, ?_⟩
        split
        · exact ⟨1, by simp [UINT32_MAX], rfl⟩
        · exact (hp e he).2

/-- The state between two relaxations while `current`, a key of the topology
table at finite distance, is being visited. -/
theorem finite_relaxNeighbor (tt : List (Nat × tt_entry_t)) (ns : List Nat)
    (selfAddress current c : Nat) (d : Dijkstra) (neighbor : Nat)
    (h : Finite tt ns d) (hvis : current ∈ d.visited) (hk : Known tt ns current)
    (hc : c < UINT32_MAX) (hcur : mapFind d.dist current = some c) :
    Finite tt ns (relaxNeighbor selfAddress current d neighbor) ∧
      current ∈ (relaxNeighbor selfAddress current d neighbor).visited ∧
      mapFind (relaxNeighbor selfAddress current d neighbor).dist current = some c := by
  obtain ⟨hd, hv, hp⟩ := h
  unfold relaxNeighbor
  split
  · rename_i hnv
    have hne : neighbor ≠ current := by
      rintro rfl
      exact hnv (by simpa using hvis)
    have h1 : mapIndex d.dist current 0 = (c, d.dist) := by
      unfold mapIndex; rw [hcur]
    have hnew : (c + 1) % 2 ^ 32 = c + 1 := by
      apply Nat.mod_eq_of_lt
      simp only [UINT32_MAX] at hc
      omega
    simp only [h1, hnew]
    have hd2 : keysSorted (mapIndex d.dist neighbor 0).2 := mapIndex_sorted _ _ _ hd
    have hv2 : ∀ k v, mapFind (mapIndex d.dist neighbor 0).2 k = some v →
        v ≤ UINT32_MAX ∧ (v ≠ 0 → Known tt ns k) := by
      intro k v hkv
      rcases mapFind_mapIndex_cases _ _ _ _ _ hkv with h2 | ⟨_, h2⟩
      · exact hv k v h2
      · subst h2; exact ⟨Nat.zero_le _, fun h0 => absurd rfl h0⟩
    have hp2 : ∀ e ∈ d.prev, Known tt ns e.1 ∧
        ∃ c', c' < UINT32_MAX ∧ mapFind (mapIndex d.dist neighbor 0).2 e.1 = some c' := by
      intro e he
      obtain ⟨hk1, c', hc', hf⟩ := hp e he
      exact ⟨hk1, c', hc', mapFind_mapIndex _ _ _ _ _ hf⟩
    have hcur2 : mapFind (mapIndex d.dist neighbor 0).2 current = some c :=
      mapFind_mapIndex _ _ _ _ _ hcur
    split
    · rename_i hlt
      have hdn : (mapIndex d.dist neighbor 0).1 ≤ UINT32_MAX ∧ Known tt ns neighbor := by
        rcases mapIndex_fst_cases d.dist neighbor 0 with h2 | h2
        · have := hv _ _ h2
          exact ⟨this.1, this.2 (by omega)⟩
        · rw [h2] at hlt; omega
      have hfin : c + 1 < UINT32_MAX := by omega
      have hv3 : ∀ k v,
          mapFind (mapSet neighbor (c + 1) (mapIndex d.dist neighbor 0).2) k = some v →
          v ≤ UINT32_MAX ∧ (v ≠ 0 → Known tt ns k) := by
        intro k v hkv
        simp only [mapFind_mapSet] at hkv
        split at hkv
        · rename_i hke
          simp only [Option.some.injEq] at hkv
          subst hkv
          exact ⟨by omega, fun _ => hke ▸ hdn.2⟩
        · exact hv2 k v hkv
      have hf3 : ∀ x, (∃ c', c' < UINT32_MAX ∧
            mapFind (mapIndex d.dist neighbor 0).2 x = some c') →
          ∃ c', c' < UINT32_MAX ∧
            mapFind (mapSet neighbor (c + 1) (mapIndex d.dist neighbor 0).2) x = some c' := by
        intro x hx
        simp only [mapFind_mapSet]
        split
        · exact ⟨c + 1, hfin, rfl⟩
        · exact hx
      have hnb3 : ∃ c', c' < UINT32_MAX ∧
          mapFind (mapSet neighbor (c + 1) (mapIndex d.dist neighbor 0).2) neighbor = some c' :=
        ⟨c + 1, hfin, mapFind_mapSet_self _ _ _⟩
      have hcur3 :
          mapFind (mapSet neighbor (c + 1) (mapIndex d.dist neighbor 0).2) current = some c := by
        rw [mapFind_mapSet_ne _ _ _ _ (Ne.symm hne)]
        exact hcur2
      split
      · refine ⟨⟨keysSorted_mapSet _ _ _ hd2, hv3, ?_⟩, hvis, hcur3⟩
        intro e he
        rcases mem_mapSet _ _ _ _ he with rfl | he
        · exact ⟨hdn.2, hnb3⟩
        · exact ⟨(hp2 e he).1, hf3 _ (hp2 e he).2⟩
      · refine ⟨⟨keysSorted_mapSet _ _ _ hd2, hv3, ?_⟩, hvis, hcur3⟩
        intro e he
        rcases mem_mapSet _ _ _ _ he with rfl | he
        · exact ⟨hdn.2, hnb3⟩
        · rcases mem_mapIndex _ _ _ _ he with he | rfl
          · exact ⟨(hp2 e he).1, hf3 _ (hp2 e he).2⟩
          · exact ⟨hk, c, hc, hcur3⟩
    · exact ⟨⟨hd2, hv2, hp2⟩, hvis, hcur2⟩
  · exact ⟨⟨hd, hv, hp⟩, hvis, hcur⟩

theorem finite_foldl (tt : List (Nat × tt_entry_t)) (ns : List Nat)
    (selfAddress current c : Nat) (hk : Known tt ns current) (hc : c < UINT32_MAX)
    (ls : List Nat) :
    ∀ d, Finite tt ns d → current ∈ d.visited → mapFind d.dist current = some c →
      Finite tt ns (ls.foldl (relaxNeighbor selfAddress current) d) := by
  induction ls with
  | nil => intro d h _ _; exact h
  | cons m rest ih =>
    intro d h hvis hcur
    obtain ⟨h1, h2, h3⟩ :=
      finite_relaxNeighbor tt ns selfAddress current c d m h hvis hk hc hcur
    exact ih _ h1 h2 h3

theorem finite_visit (tt : List (Nat × tt_entry_t)) (ns : List Nat) (selfAddress : Nat)
    (d : Dijkstra) (current c : Nat) (h : Finite tt ns d) (hc : c < UINT32_MAX)
    (hcur : mapFind d.dist current = some c) :
    Finite tt ns (visit selfAddress tt d current) := by
  unfold visit
  split
  · rename_i entry hfind
    exact finite_foldl tt ns selfAddress current c
      (Or.inl (mem_keys_of_mapFind _ _ _ hfind)) hc _ _ h
      ((mem_setInsert _ _ _).2 (Or.inl rfl)) hcur
  · exact h

theorem finite_dijkstraLoop (tt : List (Nat × tt_entry_t)) (ns : List Nat) (selfAddress : Nat) :
    ∀ (fuel : Nat) (d : Dijkstra), Finite tt ns d →
      Finite tt ns (dijkstraLoop selfAddress tt fuel d) := by
  intro fuel
  induction fuel with
  | zero => intro d h; exact h
  | succ fuel ih =>
    intro d h
    simp only [dijkstraLoop]
    split
    · split
      · exact h
      · rename_i hgo
        simp only [Bool.or_eq_true, Bool.not_eq_true', decide_eq_true_eq, not_or,
          Bool.not_eq_false] at hgo
        rcases findMin_spec d.visited d.dist (0, UINT32_MAX, false) with hbad | ⟨_, hmem, hlt⟩
        · rw [hbad] at hgo
          exact absurd hgo.1 (by simp)
        · exact ih _ (finite_visit tt ns selfAddress d _ _ h hlt
            (mapFind_of_mem d.dist h.1 _ _ hmem))
    · exact h

theorem finite_shortestPaths (st : FsrState) :
    Finite st.topologyTable st.neighbors (shortestPaths st) := by
  unfold shortestPaths
  apply finite_dijkstraLoop
  apply finite_addDirectNeighbors _ _ _ _ (fun n hn => hn)
  apply finite_initDistances _ _ _ _ _ (fun e he => List.mem_map.2 ⟨e, he, rfl⟩)
  refine ⟨keysSorted_mapSet _ _ _ (by simp [keysSorted]), ?_, by simp⟩
  intro k v hk
  simp only [mapFind_mapSet, mapFind] at hk
  split at hk
  · simp only [Option.some.injEq] at hk
    subst hk
    exact ⟨Nat.zero_le _, fun h0 => absurd rfl h0⟩
  · exact Option.noConfusion hk

/-! ## The routing table after a run of `calculateShortestPath` -/

theorem outputInterface_frame (st : FsrState) (rt : Option (List Ipv4Route)) :
    outputInterface { st with routingTable := rt } = outputInterface st := rfl

theorem createRoute_routingTable (st : FsrState) (dst nexthop hopCount : Nat)
    (routes : List Ipv4Route) (hrt : st.routingTable = some routes) :
    (createRoute st dst nexthop hopCount).routingTable
      = some (routes ++
          match outputInterface st with
          | some ie =>
            [⟨dst, ALLONES_ADDRESS, nexthop, ie.interfaceId, SourceType.MANET, hopCount⟩]
          | none => []) := by
  unfold createRoute outputInterface
  cases hit : st.interfaceTable with
  | none => simp [hrt]
  | some ifaces =>
    simp only [hrt]
    cases hf : ifaces.find? (fun iface => iface.wireless && !iface.loopback) with
    | none => simp [hrt]
    | some ie => simp

theorem updateRoutes_routingTable (prev : List (Nat × Nat)) :
    ∀ (st : FsrState) (routes : List Ipv4Route), st.routingTable = some routes →
      (updateRoutes st prev).routingTable
        = some (routes ++
            match outputInterface st with
            | some ie =>
              (prev.filter (fun e => decide (e.1 ≠ st.selfAddress ∧ e.1 ≠ e.2))).map
                (fun e => ⟨e.1, ALLONES_ADDRESS, e.2, ie.interfaceId, SourceType.MANET, 1⟩)
            | none => []) := by
  induction prev with
  | nil =>
    intro st routes hrt
    simp only [updateRoutes, hrt, List.filter_nil, List.map_nil]
    cases outputInterface st <;> simp
  | cons e rest ih =>
    intro st routes hrt
    simp only [updateRoutes]
    split
    · rename_i hc
      have hrt1 := createRoute_routingTable st e.1 e.2 1 routes hrt
      obtain ⟨rt, hfr⟩ := createRoute_frame st e.1 e.2 1
      have hself : (createRoute st e.1 e.2 1).selfAddress = st.selfAddress := by rw [hfr]
      have hout : outputInterface (createRoute st e.1 e.2 1) = outputInterface st := by
        rw [hfr]; rfl
      rw [ih _ _ hrt1, hself, hout]
      have hdec : decide (e.1 ≠ st.selfAddress ∧ e.1 ≠ e.2) = true := decide_eq_true hc
      cases outputInterface st with
      | none => simp
      | some ie =>
        simp only [List.append_assoc, List.singleton_append]
        rw [List.filter_cons, if_pos hdec, List.map_cons]
    · rename_i hc
      rw [ih _ _ hrt]
      have hdec : decide (e.1 ≠ st.selfAddress ∧ e.1 ≠ e.2) = false := decide_eq_false hc
      cases outputInterface st with
      | none => rfl
      | some ie =>
        simp only
        rw [List.filter_cons, if_neg (by rw [hdec]; exact Bool.false_ne_true)]

theorem calculateShortestPath_routingTable (st : FsrState) (routes : List Ipv4Route)
    (hrt : st.routingTable = some routes) :
    (calculateShortestPath st).routingTable
      = some (routes.filter (fun r => decide (r.sourceType ≠ SourceType.MANET)) ++
          computedRoutes st) := by
  have hclear : (clearRoutes st).routingTable
      = some (routes.filter (fun r => decide (r.sourceType ≠ SourceType.MANET))) := by
    simp only [clearRoutes, hrt]
    rw [clearRoutesFrom_eq _ _ (Nat.le_refl _)]
    simp
  obtain ⟨rt, hfr⟩ := clearRoutes_frame st
  have hself : (clearRoutes st).selfAddress = st.selfAddress := by rw [hfr]
  have hout : outputInterface (clearRoutes st) = outputInterface st := by rw [hfr]; rfl
  simp only [calculateShortestPath, hrt]
  rw [updateRoutes_routingTable _ _ _ hclear, hself, hout]
  rfl

theorem computedRoutes_manet (st : FsrState) :
    ∀ r ∈ computedRoutes st, r.sourceType = SourceType.MANET := by
  intro r hr
  unfold computedRoutes at hr
  split at hr
  · simp only [List.mem_map] at hr
    obtain ⟨e, _, rfl⟩ := hr
    rfl
  · simp at hr

/-! ## Claims on the computed routes -/

/-- C11: every route that `calculateShortestPath` produces has a destination
other than self that is a key of the topology table or a live neighbor and
whose distance at the end of the computation is below `UINT32_MAX`; so neither
self nor an address left at `UINT32_MAX` gets a route. -/
theorem C11_routes_are_known_and_finite (st : FsrState) :
    (∀ r ∈ routesOf (calculateShortestPath st), r.sourceType = SourceType.MANET →
        r.destination ≠ st.selfAddress ∧
        (r.destination ∈ st.topologyTable.map Prod.fst ∨ r.destination ∈ st.neighbors) ∧
        ∃ c, mapFind (shortestPaths st).dist r.destination = some c ∧ c < UINT32_MAX) ∧
      (∀ k, k = st.selfAddress ∨ mapFind (shortestPaths st).dist k = some UINT32_MAX →
        ∀ r ∈ routesOf (calculateShortestPath st), r.sourceType = SourceType.MANET →
          r.destination ≠ k) := by
  obtain ⟨_, _, hp⟩ := finite_shortestPaths st
  have hmain : ∀ r ∈ routesOf (calculateShortestPath st), r.sourceType = SourceType.MANET →
      r.destination ≠ st.selfAddress ∧
      (r.destination ∈ st.topologyTable.map Prod.fst ∨ r.destination ∈ st.neighbors) ∧
      ∃ c, mapFind (shortestPaths st).dist r.destination = some c ∧ c < UINT32_MAX := by
    intro r hr hm
    rcases mem_calculateShortestPath st r hr with ⟨hmem, h | h⟩ | ⟨e, he, hself, _, h1, _⟩
    · simp [routesOf, h] at hmem
    · exact absurd hm h
    · obtain ⟨hk, c, hc, hf⟩ := hp e he
      rw [h1]
      exact ⟨hself, hk, c, hf, hc⟩
  refine ⟨hmain, fun k hk r hr hm hd => ?_⟩
  obtain ⟨h1, _, c, h3, h4⟩ := hmain r hr hm
  rcases hk with hk | hk
  · exact h1 (hd.trans hk)
  · rw [hd, hk] at h3
    simp only [Option.some.injEq] at h3
    omega

/-- C11 on the line A - B - C at A: the route to C. -/
theorem C11_routes_are_known_and_finite_witness :
    (⟨3, ALLONES_ADDRESS, 2, 100, SourceType.MANET, 1⟩ : Ipv4Route)
        ∈ routesOf (calculateShortestPath lineAtA) ∧
      (3 : Nat) ≠ lineAtA.selfAddress ∧
      ((3 : Nat) ∈ lineAtA.topologyTable.map Prod.fst ∨ (3 : Nat) ∈ lineAtA.neighbors) ∧
      ∃ c, mapFind (shortestPaths lineAtA).dist 3 = some c ∧ c < UINT32_MAX :=
  ⟨by decide,
    (C11_routes_are_known_and_finite lineAtA).1
      ⟨3, ALLONES_ADDRESS, 2, 100, SourceType.MANET, 1⟩ (by decide) rfl⟩

/-- C12: with a routing table bound, the table after `calculateShortestPath`
is the old routes of other source types, unchanged and in order, followed by
the routes computed in this run; so its `MANET` routes are exactly the routes
of this run and no earlier protocol route survives. -/
theorem C12_full_replacement (st : FsrState) (routes : List Ipv4Route)
    (hrt : st.routingTable = some routes) :
    (calculateShortestPath st).routingTable
        = some (routes.filter (fun r => decide (r.sourceType ≠ SourceType.MANET)) ++
            computedRoutes st) ∧
      (routesOf (calculateShortestPath st)).filter
          (fun r => decide (r.sourceType = SourceType.MANET)) = computedRoutes st ∧
      (routesOf (calculateShortestPath st)).filter
          (fun r => decide (r.sourceType ≠ SourceType.MANET))
        = routes.filter (fun r => decide (r.sourceType ≠ SourceType.MANET)) := by
  have h := calculateShortestPath_routingTable st routes hrt
  have hm := computedRoutes_manet st
  refine ⟨h, ?_, ?_⟩
  · simp only [routesOf, h, List.filter_append, List.filter_filter]
    rw [List.filter_eq_nil_iff.2, List.filter_eq_self.2]
    · rfl
    · intro r hr; simp [hm r hr]
    · intro r _; simp
  · have hnil : (computedRoutes st).filter
        (fun r => decide (r.sourceType ≠ SourceType.MANET)) = [] :=
      List.filter_eq_nil_iff.2 (fun r hr => by simp [hm r hr])
    simp only [routesOf, h, List.filter_append, List.filter_filter, hnil, List.append_nil,
      Bool.and_self]

/-- C12 at node A of the line A - B - C holding an earlier protocol route and a
manual route: the manual route stays, the earlier protocol route is gone, the
route to C is new. -/
theorem C12_full_replacement_witness :
    (calculateShortestPath routedAtA).routingTable
        = some [⟨8, 4294967040, 7, 100, SourceType.MANUAL, 0⟩,
            ⟨3, ALLONES_ADDRESS, 2, 100, SourceType.MANET, 1⟩] ∧
      (routesOf (calculateShortestPath routedAtA)).filter
          (fun r => decide (r.sourceType = SourceType.MANET)) = computedRoutes routedAtA :=
  ⟨((C12_full_replacement routedAtA _ rfl).1).trans (by decide),
    (C12_full_replacement routedAtA _ rfl).2.1⟩

/-! ## Aging -/

theorem mapFind_none_of_sorted_cons {β : Type} (k : Nat) (v : β) (rest : List (Nat × β))
    (h : keysSorted ((k, v) :: rest)) : mapFind rest k = none := by
  simp only [keysSorted, List.map_cons, List.pairwise_cons] at h
  cases hf : mapFind rest k with
  | none => rfl
  | some w =>
    have := h.1 k (mem_keys_of_mapFind _ _ _ hf)
    omega

theorem keysSorted_tail {β : Type} (e : Nat × β) (rest : List (Nat × β))
    (h : keysSorted (e :: rest)) : keysSorted rest := by
  simp only [keysSorted, List.map_cons, List.pairwise_cons] at h
  exact h.2

theorem mem_keys_ageEntries (lifeTime : Int) (tt : List (Nat × tt_entry_t)) (x : Nat)
    (h : x ∈ (ageEntries lifeTime tt).map Prod.fst) : x ∈ tt.map Prod.fst := by
  induction tt with
  | nil => simp [ageEntries] at h
  | cons e rest ih =>
    obtain ⟨k, entry⟩ := e
    simp only [ageEntries] at h
    split at h
    · exact List.mem_cons_of_mem _ (ih h)
    · simp only [List.map_cons, List.mem_cons] at h ⊢
      rcases h with h | h
      · exact Or.inl h
      · exact Or.inr (ih h)

theorem keysSorted_ageEntries (lifeTime : Int) (tt : List (Nat × tt_entry_t))
    (h : keysSorted tt) : keysSorted (ageEntries lifeTime tt) := by
  induction tt with
  | nil => simp [ageEntries, keysSorted]
  | cons e rest ih =>
    obtain ⟨k, entry⟩ := e
    have htail := keysSorted_tail _ _ h
    simp only [keysSorted, List.map_cons, List.pairwise_cons] at h
    simp only [ageEntries]
    split
    · exact ih htail
    · simp only [keysSorted, List.map_cons, List.pairwise_cons]
      exact ⟨fun x hx => h.1 x (mem_keys_ageEntries _ _ _ hx), ih htail⟩

/-- What a tick does to the entry of one key. -/
theorem mapFind_ageEntries (lifeTime : Int) (tt : List (Nat × tt_entry_t)) (k : Nat)
    (h : keysSorted tt) :
    mapFind (ageEntries lifeTime tt) k
      = match mapFind tt k with
        | none => none
        | some entry =>
          if (entry.age + 1) % 2 ^ 32 > toUnsigned lifeTime then none
          else some { entry with age := (entry.age + 1) % 2 ^ 32 } := by
  induction tt with
  | nil => simp [ageEntries, mapFind]
  | cons e rest ih =>
    obtain ⟨k', entry⟩ := e
    have htail := keysSorted_tail _ _ h
    have hrest := ih htail
    by_cases hk : k' = k
    · subst hk
      have hnone := mapFind_none_of_sorted_cons _ _ _ h
      rw [hnone] at hrest
      simp only [ageEntries, mapFind, if_true]
      split
      · exact hrest
      · simp [mapFind]
    · simp only [ageEntries, mapFind, hk, if_false]
      split
      · exact hrest
      · simp only [mapFind, hk, if_false]
        exact hrest

theorem toUnsigned_natCast (L : Nat) (h : L < 2 ^ 31) : toUnsigned (L : Int) = L := by
  unfold toUnsigned
  have h1 : ((L : Int) % 2 ^ 32) = (L : Int) := by
    apply Int.emod_eq_of_lt
    · exact Int.natCast_nonneg L
    · have : (L : Int) < 2 ^ 31 := by exact_mod_cast h
      omega
  rw [h1]
  exact Int.toNat_natCast L

theorem decrementAge_iterate_lifeTime (k : Nat) (st : FsrState) :
    (decrementAge^[k] st).lifeTime = st.lifeTime := by
  induction k generalizing st with
  | zero => rfl
  | succ k ih => rw [Function.iterate_succ_apply, ih]; rfl

theorem decrementAge_iterate_sorted (k : Nat) (st : FsrState)
    (h : keysSorted st.topologyTable) : keysSorted (decrementAge^[k] st).topologyTable := by
  induction k generalizing st with
  | zero => exact h
  | succ k ih =>
    rw [Function.iterate_succ_apply]
    exact ih _ (keysSorted_ageEntries _ _ h)

/-- An entry of age `a` survives `k` ticks when `a + k` does not exceed the
lifetime, and its age is then `a + k`. -/
theorem mapFind_decrementAge_iterate (L : Nat) (hL : L < 2 ^ 31) :
    ∀ (k : Nat) (st : FsrState) (o : Nat) (ls : List Nat) (seq a : Nat),
      st.lifeTime = (L : Int) → keysSorted st.topologyTable →
      mapFind st.topologyTable o = some ⟨ls, seq, a⟩ → a + k ≤ L →
      mapFind (decrementAge^[k] st).topologyTable o = some ⟨ls, seq, a + k⟩ := by
  intro k
  induction k with
  | zero => intro st o ls seq a _ _ h _; simpa using h
  | succ k ih =>
    intro st o ls seq a hl hs h hle
    rw [Function.iterate_succ_apply]
    have hstep : mapFind (decrementAge st).topologyTable o = some ⟨ls, seq, a + 1⟩ := by
      simp only [decrementAge]
      rw [mapFind_ageEntries _ _ _ hs, h, hl, toUnsigned_natCast L hL]
      have hmod : (a + 1) % 2 ^ 32 = a + 1 := Nat.mod_eq_of_lt (by omega)
      simp only [hmod]
      rw [if_neg (by omega)]
    have := ih (decrementAge st) o ls seq (a + 1) hl (keysSorted_ageEntries _ _ hs) hstep
      (by omega)
    rw [this]
    congr 2
    omega

theorem mapFind_decrementAge_expired (L : Nat) (hL : L < 2 ^ 31) (st : FsrState) (o : Nat)
    (ls : List Nat) (seq : Nat) (hl : st.lifeTime = (L : Int))
    (hs : keysSorted st.topologyTable) (h : mapFind st.topologyTable o = some ⟨ls, seq, L⟩) :
    mapFind (decrementAge st).topologyTable o = none := by
  simp only [decrementAge]
  rw [mapFind_ageEntries _ _ _ hs, h, hl, toUnsigned_natCast L hL]
  have hmod : (L + 1) % 2 ^ 32 = L + 1 := Nat.mod_eq_of_lt (by omega)
  simp only [hmod]
  rw [if_pos (by omega)]

theorem calculateShortestPath_lifeTime (st : FsrState) :
    (calculateShortestPath st).lifeTime = st.lifeTime := by
  obtain ⟨rt, h⟩ := calculateShortestPath_frame st
  rw [h]

theorem calculateShortestPath_selfAddress (st : FsrState) :
    (calculateShortestPath st).selfAddress = st.selfAddress := by
  obtain ⟨rt, h⟩ := calculateShortestPath_frame st
  rw [h]

theorem calculateShortestPath_neighbors (st : FsrState) :
    (calculateShortestPath st).neighbors = st.neighbors := by
  obtain ⟨rt, h⟩ := calculateShortestPath_frame st
  rw [h]

theorem calculateShortestPath_neighborTimeouts (st : FsrState) :
    (calculateShortestPath st).neighborTimeouts = st.neighborTimeouts := by
  obtain ⟨rt, h⟩ := calculateShortestPath_frame st
  rw [h]

theorem calculateShortestPath_sequenceNumber (st : FsrState) :
    (calculateShortestPath st).sequenceNumber = st.sequenceNumber := by
  obtain ⟨rt, h⟩ := calculateShortestPath_frame st
  rw [h]

theorem processLSP_lifeTime (st : FsrState) (packet : FsrPacket) (sourceAddr : Nat) :
    (processLSP st packet sourceAddr).lifeTime = st.lifeTime := by
  cases hs : isStale st packet with
  | true => rw [processLSP_stale st packet sourceAddr hs]
  | false =>
    rw [processLSP_fresh st packet sourceAddr hs]
    split
    · simp only [sendFsrPacketHelper, calculateShortestPath_lifeTime]; rfl
    · simp only [calculateShortestPath_lifeTime]; rfl

theorem processLSP_selfAddress (st : FsrState) (packet : FsrPacket) (sourceAddr : Nat) :
    (processLSP st packet sourceAddr).selfAddress = st.selfAddress := by
  cases hs : isStale st packet with
  | true => rw [processLSP_stale st packet sourceAddr hs]
  | false =>
    rw [processLSP_fresh st packet sourceAddr hs]
    split
    · simp only [sendFsrPacketHelper, calculateShortestPath_selfAddress]; rfl
    · simp only [calculateShortestPath_selfAddress]; rfl

/-- The topology table after `processLSP`, accepted or not. -/
theorem processLSP_topologyTable (st : FsrState) (packet : FsrPacket) (sourceAddr : Nat) :
    (processLSP st packet sourceAddr).topologyTable
      = if isStale st packet = true then st.topologyTable
        else mapSet packet.sourceAddress
          ⟨extractLspEntries packet.lspEntries [], packet.sequenceNumber, 0⟩
          st.topologyTable := by
  cases hs : isStale st packet with
  | true => rw [processLSP_stale st packet sourceAddr hs]; simp
  | false =>
    rw [processLSP_accepted_entry st packet sourceAddr ((isStale_eq_false_iff st packet).1 hs)]
    simp

theorem processLSP_sorted (st : FsrState) (packet : FsrPacket) (sourceAddr : Nat)
    (h : keysSorted st.topologyTable) :
    keysSorted (processLSP st packet sourceAddr).topologyTable := by
  rw [processLSP_topologyTable]
  split
  · exact h
  · exact keysSorted_mapSet _ _ _ h

theorem refreshCycle_entry (L : Nat) (hL : L < 2 ^ 31) (h1 : 1 ≤ L) (sourceAddr : Nat)
    (st : FsrState) (packet : FsrPacket) (hl : st.lifeTime = (L : Int))
    (hs : keysSorted st.topologyTable) (hfresh : ¬ StaleFor st packet) :
    mapFind (refreshCycle sourceAddr st packet).topologyTable packet.sourceAddress
        = some ⟨extractLspEntries packet.lspEntries [], packet.sequenceNumber, 1⟩ ∧
      (refreshCycle sourceAddr st packet).lifeTime = (L : Int) ∧
      keysSorted (refreshCycle sourceAddr st packet).topologyTable := by
  have hentry : mapFind (processLSP st packet sourceAddr).topologyTable packet.sourceAddress
      = some ⟨extractLspEntries packet.lspEntries [], packet.sequenceNumber, 0⟩ := by
    rw [processLSP_accepted_entry st packet sourceAddr hfresh, mapFind_mapSet_self]
  have hl2 : (processLSP st packet sourceAddr).lifeTime = (L : Int) := by
    rw [processLSP_lifeTime, hl]
  have hs2 := processLSP_sorted st packet sourceAddr hs
  refine ⟨?_, hl2, keysSorted_ageEntries _ _ hs2⟩
  have := mapFind_decrementAge_iterate L hL 1 (processLSP st packet sourceAddr)
    packet.sourceAddress _ _ 0 hl2 hs2 hentry (by omega)
  simpa [refreshCycle] using this

theorem refreshed_entry_stays (L : Nat) (hL : L < 2 ^ 31) (h1 : 1 ≤ L) (sourceAddr : Nat) :
    ∀ (ps : List FsrPacket) (st : FsrState) (p : FsrPacket),
      st.lifeTime = (L : Int) → keysSorted st.topologyTable → ¬ StaleFor st p →
      List.Chain (fun a b : FsrPacket => a.sequenceNumber < b.sequenceNumber) p ps →
      (∀ q ∈ ps, q.sourceAddress = p.sourceAddress) →
      ∃ entry, mapFind ((p :: ps).foldl (refreshCycle sourceAddr) st).topologyTable
          p.sourceAddress = some entry ∧ entry.age = 1 := by
  intro ps
  induction ps with
  | nil =>
    intro st p hl hs hf _ _
    exact ⟨_, (refreshCycle_entry L hL h1 sourceAddr st p hl hs hf).1, rfl⟩
  | cons q rest ih =>
    intro st p hl hs hf hch hsrc
    obtain ⟨he, hl2, hs2⟩ := refreshCycle_entry L hL h1 sourceAddr st p hl hs hf
    rw [List.chain_cons] at hch
    have hq : q.sourceAddress = p.sourceAddress := hsrc q (List.mem_cons_self _ _)
    have hfq : ¬ StaleFor (refreshCycle sourceAddr st p) q := by
      rintro ⟨stored, h2, h3⟩
      rw [hq, he] at h2
      simp only [Option.some.injEq] at h2
      subst h2
      simp only at h3
      omega
    have := ih (refreshCycle sourceAddr st p) q hl2 hs2 hfq hch.2
      (fun x hx => (hsrc x (List.mem_cons_of_mem _ hx)).trans hq.symm)
    rw [hq] at this
    simpa [List.foldl_cons] using this

theorem emptyAtA_fresh : ¬ StaleFor emptyAtA freshFromC :=
  (isStale_eq_false_iff _ _).1 (by decide)

/-- C13 (as amended): for every lifetime `L` an `int` can hold with `L >= 0`,
an entry of age 0 that is not refreshed is still there, with the same sequence
number and neighbor set and with age `k`, after `k <= L` calls of
`decrementAge`, and call `L + 1` removes it; and for `L >= 1` an entry that is
re-accepted before every tick is there, with age 1, after every tick. -/
theorem C13_aging (L : Nat) (hL : L < 2 ^ 31) :
    (∀ (st : FsrState) (o : Nat) (ls : List Nat) (seq : Nat),
        st.lifeTime = (L : Int) → keysSorted st.topologyTable →
        mapFind st.topologyTable o = some ⟨ls, seq, 0⟩ →
        (∀ k, k ≤ L → mapFind (decrementAge^[k] st).topologyTable o = some ⟨ls, seq, k⟩) ∧
          mapFind (decrementAge^[L + 1] st).topologyTable o = none) ∧
      (1 ≤ L → ∀ (sourceAddr : Nat) (st : FsrState) (p : FsrPacket) (ps : List FsrPacket),
        st.lifeTime = (L : Int) → keysSorted st.topologyTable → ¬ StaleFor st p →
        List.Chain (fun a b : FsrPacket => a.sequenceNumber < b.sequenceNumber) p ps →
        (∀ q ∈ ps, q.sourceAddress = p.sourceAddress) →
        ∃ entry, mapFind ((p :: ps).foldl (refreshCycle sourceAddr) st).topologyTable
            p.sourceAddress = some entry ∧ entry.age = 1) := by
  refine ⟨fun st o ls seq hl hs h0 => ⟨fun k hk => ?_, ?_⟩,
    fun h1 sourceAddr st p ps hl hs hf hch hsrc =>
      refreshed_entry_stays L hL h1 sourceAddr ps st p hl hs hf hch hsrc⟩
  · have := mapFind_decrementAge_iterate L hL k st o ls seq 0 hl hs h0 (by omega)
    simpa using this
  · rw [Function.iterate_succ_apply']
    have hat := mapFind_decrementAge_iterate L hL L st o ls seq 0 hl hs h0 (by omega)
    simp only [Nat.zero_add] at hat
    exact mapFind_decrementAge_expired L hL _ o ls seq
      ((decrementAge_iterate_lifeTime L st).trans hl) (decrementAge_iterate_sorted L st hs) hat

/-- C13 on the line A - B - C at A with lifetime 5, for the entry of C. -/
theorem C13_aging_witness :
    ((∀ k, k ≤ 5 → mapFind (decrementAge^[k] lineAtA).topologyTable 3 = some ⟨[2], 1, k⟩) ∧
        mapFind (decrementAge^[5 + 1] lineAtA).topologyTable 3 = none) ∧
      ∃ entry, mapFind ([freshFromC].foldl (refreshCycle 2) lineAtA).topologyTable
          freshFromC.sourceAddress = some entry ∧ entry.age = 1 :=
  ⟨(C13_aging 5 (by norm_num)).1 lineAtA 3 [2] 1 rfl (by simp [keysSorted, lineAtA]) rfl,
    (C13_aging 5 (by norm_num)).2 (by norm_num) 2 lineAtA freshFromC [] rfl
      (by simp [keysSorted, lineAtA]) lineAtA_fresh List.Chain.nil (by simp)⟩

/-- C13 as stated fails for lifetime 0: an update is accepted and the next tick
already removes its entry, so a refresh before every tick does not keep it. -/
theorem C13_counterexample :
    emptyAtA.lifeTime = 0 ∧ ¬ StaleFor emptyAtA freshFromC ∧
      mapFind (processLSP emptyAtA freshFromC 2).topologyTable freshFromC.sourceAddress
        = some ⟨[2, 3, 4], 5, 0⟩ ∧
      mapFind (refreshCycle 2 emptyAtA freshFromC).topologyTable freshFromC.sourceAddress
        = none := by
  refine ⟨rfl, emptyAtA_fresh, ?_, ?_⟩
  · rw [processLSP_accepted_entry _ _ _ emptyAtA_fresh]; decide
  · simp only [refreshCycle, decrementAge]
    rw [processLSP_accepted_entry _ _ _ emptyAtA_fresh, processLSP_lifeTime]
    decide

/-! ## Runs: what each event does to the topology table -/

theorem addNeighbor_topologyTable (st : FsrState) (neighbor : Nat) :
    (addNeighbor st neighbor).topologyTable = st.topologyTable := by
  unfold addNeighbor
  split
  · rfl
  · split <;> rfl

theorem addNeighbor_selfAddress (st : FsrState) (neighbor : Nat) :
    (addNeighbor st neighbor).selfAddress = st.selfAddress := by
  unfold addNeighbor
  split
  · rfl
  · split <;> rfl

theorem addNeighbor_lifeTime (st : FsrState) (neighbor : Nat) :
    (addNeighbor st neighbor).lifeTime = st.lifeTime := by
  unfold addNeighbor
  split
  · rfl
  · split <;> rfl

theorem removeNeighbor_topologyTable (st : FsrState) (neighbor : Nat) :
    (removeNeighbor st neighbor).topologyTable = st.topologyTable := by
  unfold removeNeighbor
  simp only [calculateShortestPath_topologyTable]
  split <;> rfl

theorem removeNeighbor_selfAddress (st : FsrState) (neighbor : Nat) :
    (removeNeighbor st neighbor).selfAddress = st.selfAddress := by
  unfold removeNeighbor
  simp only [calculateShortestPath_selfAddress]
  split <;> rfl

theorem removeNeighbor_lifeTime (st : FsrState) (neighbor : Nat) :
    (removeNeighbor st neighbor).lifeTime = st.lifeTime := by
  unfold removeNeighbor
  simp only [calculateShortestPath_lifeTime]
  split <;> rfl

theorem sendHelloPacket_topologyTable (kinds : PacketKinds) (st : FsrState) :
    (sendHelloPacket kinds st).topologyTable = st.topologyTable := by
  unfold sendHelloPacket
  split <;> rfl

theorem sendHelloPacket_selfAddress (kinds : PacketKinds) (st : FsrState) :
    (sendHelloPacket kinds st).selfAddress = st.selfAddress := by
  unfold sendHelloPacket
  split <;> rfl

theorem sendHelloPacket_lifeTime (kinds : PacketKinds) (st : FsrState) :
    (sendHelloPacket kinds st).lifeTime = st.lifeTime := by
  unfold sendHelloPacket
  split <;> rfl

theorem sendTopologyUpdate_topologyTable (kinds : PacketKinds) (st : FsrState) :
    (sendTopologyUpdate kinds st).topologyTable = st.topologyTable := by
  unfold sendTopologyUpdate
  split <;> rfl

theorem sendTopologyUpdate_selfAddress (kinds : PacketKinds) (st : FsrState) :
    (sendTopologyUpdate kinds st).selfAddress = st.selfAddress := by
  unfold sendTopologyUpdate
  split <;> rfl

theorem sendTopologyUpdate_lifeTime (kinds : PacketKinds) (st : FsrState) :
    (sendTopologyUpdate kinds st).lifeTime = st.lifeTime := by
  unfold sendTopologyUpdate
  split <;> rfl

/-- The topology table after `processFsrPacket`: the originator's entry is
replaced when the packet passes the sender test, the type dispatch and the
freshness test, and nothing changes otherwise. -/
theorem processFsrPacket_topologyTable (kinds : PacketKinds) (st : FsrState)
    (packet : FsrPacket) (sourceAddr : Nat) :
    (processFsrPacket kinds st packet sourceAddr).topologyTable
      = if acceptsLsp kinds st packet sourceAddr = true then
          mapSet packet.sourceAddress
            ⟨extractLspEntries packet.lspEntries [], packet.sequenceNumber, 0⟩
            st.topologyTable
        else st.topologyTable := by
  by_cases h1 : sourceAddr = st.selfAddress
  · have hacc : acceptsLsp kinds st packet sourceAddr = false := by simp [acceptsLsp, h1]
    rw [hacc]
    simp [processFsrPacket, h1]
  · by_cases h2 : packet.packetType = kinds.HELLO
    · have hacc : acceptsLsp kinds st packet sourceAddr = false := by simp [acceptsLsp, h2]
      rw [hacc]
      simp only [processFsrPacket, if_neg h1, if_pos h2, processHello,
        addNeighbor_topologyTable]
      rfl
    · by_cases h3 : packet.packetType = kinds.LSP
      · have hacc : acceptsLsp kinds st packet sourceAddr = !isStale st packet := by
          have h2' : ¬ kinds.LSP = kinds.HELLO := h3 ▸ h2
          simp [acceptsLsp, h1, h3, h2']
        rw [hacc]
        simp only [processFsrPacket, if_neg h1, if_neg h2, if_pos h3,
          processLSP_topologyTable]
        cases isStale st packet <;> simp
      · have hacc : acceptsLsp kinds st packet sourceAddr = false := by
          simp [acceptsLsp, h3]
        rw [hacc]
        simp only [processFsrPacket, if_neg h1, if_neg h2, if_neg h3]
        rfl

theorem processFsrPacket_selfAddress (kinds : PacketKinds) (st : FsrState)
    (packet : FsrPacket) (sourceAddr : Nat) :
    (processFsrPacket kinds st packet sourceAddr).selfAddress = st.selfAddress := by
  unfold processFsrPacket
  split
  · rfl
  · split
    · exact addNeighbor_selfAddress _ _
    · split
      · exact processLSP_selfAddress _ _ _
      · rfl

theorem processFsrPacket_lifeTime (kinds : PacketKinds) (st : FsrState)
    (packet : FsrPacket) (sourceAddr : Nat) :
    (processFsrPacket kinds st packet sourceAddr).lifeTime = st.lifeTime := by
  unfold processFsrPacket
  split
  · rfl
  · split
    · exact addNeighbor_lifeTime _ _
    · split
      · exact processLSP_lifeTime _ _ _
      · rfl

theorem step_selfAddress (kinds : PacketKinds) (st : FsrState) (ev : Event) :
    (step kinds st ev).selfAddress = st.selfAddress := by
  cases ev with
  | inbound p s => exact processFsrPacket_selfAddress _ _ _ _
  | helloTimer => exact sendHelloPacket_selfAddress _ _
  | lspTimer => exact sendTopologyUpdate_selfAddress _ _
  | neighborExpiry n => exact removeNeighbor_selfAddress _ _
  | ageTimer => rfl
  | elapse d => rfl

theorem step_lifeTime (kinds : PacketKinds) (st : FsrState) (ev : Event) :
    (step kinds st ev).lifeTime = st.lifeTime := by
  cases ev with
  | inbound p s => exact processFsrPacket_lifeTime _ _ _ _
  | helloTimer => exact sendHelloPacket_lifeTime _ _
  | lspTimer => exact sendTopologyUpdate_lifeTime _ _
  | neighborExpiry n => exact removeNeighbor_lifeTime _ _
  | ageTimer => rfl
  | elapse d => rfl

/-- Only an accepted update and the aging timer change the topology table. -/
theorem step_topologyTable (kinds : PacketKinds) (st : FsrState) (ev : Event) :
    (step kinds st ev).topologyTable
      = match ev with
        | .inbound packet sourceAddr =>
          if acceptsLsp kinds st packet sourceAddr = true then
            mapSet packet.sourceAddress
              ⟨extractLspEntries packet.lspEntries [], packet.sequenceNumber, 0⟩
              st.topologyTable
          else st.topologyTable
        | .ageTimer => ageEntries st.lifeTime st.topologyTable
        | _ => st.topologyTable := by
  cases ev with
  | inbound p s => exact processFsrPacket_topologyTable _ _ _ _
  | helloTimer => exact sendHelloPacket_topologyTable _ _
  | lspTimer => exact sendTopologyUpdate_topologyTable _ _
  | neighborExpiry n => exact removeNeighbor_topologyTable _ _
  | ageTimer => rfl
  | elapse d => rfl

theorem step_sorted (kinds : PacketKinds) (st : FsrState) (ev : Event)
    (h : keysSorted st.topologyTable) : keysSorted (step kinds st ev).topologyTable := by
  rw [step_topologyTable]
  cases ev with
  | inbound p s =>
    simp only
    split
    · exact keysSorted_mapSet _ _ _ h
    · exact h
  | ageTimer => exact keysSorted_ageEntries _ _ h
  | helloTimer => exact h
  | lspTimer => exact h
  | neighborExpiry n => exact h
  | elapse d => exact h

/-! ## Sequence numbers of accepted updates -/

theorem acceptsLsp_fresh (kinds : PacketKinds) (st : FsrState) (packet : FsrPacket)
    (sourceAddr : Nat) (h : acceptsLsp kinds st packet sourceAddr = true) :
    ¬ StaleFor st packet := by
  apply (isStale_eq_false_iff st packet).1
  simp only [acceptsLsp, Bool.and_eq_true, Bool.not_eq_true'] at h
  exact h.2

theorem acceptedSeqs_increasing (kinds : PacketKinds) (o : Nat) :
    ∀ (events : List Event) (st : FsrState), keysSorted st.topologyTable →
      NoExpiry kinds o st events →
      (acceptedSeqs kinds o st events).Pairwise (· < ·) ∧
        ∀ e, mapFind st.topologyTable o = some e →
          ∀ x ∈ acceptedSeqs kinds o st events, e.seq < x := by
  intro events
  induction events with
  | nil => intro st _ _; simp [acceptedSeqs]
  | cons ev rest ih =>
    intro st hs hne
    obtain ⟨htick, hrest⟩ := hne
    obtain ⟨hpw, habove⟩ := ih (step kinds st ev) (step_sorted kinds st ev hs) hrest
    have htab := step_topologyTable kinds st ev
    have hsame : (step kinds st ev).topologyTable = st.topologyTable →
        (acceptedSeqs kinds o (step kinds st ev) rest).Pairwise (· < ·) ∧
          ∀ e, mapFind st.topologyTable o = some e →
            ∀ x ∈ acceptedSeqs kinds o (step kinds st ev) rest, e.seq < x := by
      intro heq
      refine ⟨hpw, fun e he => habove e ?_⟩
      rw [heq]; exact he
    cases ev with
    | inbound p s =>
      simp only [acceptedSeqs]
      simp only at htab
      by_cases hacc : acceptsLsp kinds st p s = true
      · rw [if_pos hacc] at htab
        by_cases hsrc : p.sourceAddress = o
        · rw [if_pos ⟨hsrc, hacc⟩]
          have hnew : mapFind (step kinds st (Event.inbound p s)).topologyTable o
              = some ⟨extractLspEntries p.lspEntries [], p.sequenceNumber, 0⟩ := by
            rw [htab, ← hsrc, mapFind_mapSet_self]
          have hab := habove _ hnew
          refine ⟨List.pairwise_cons.2 ⟨hab, hpw⟩, fun e he x hx => ?_⟩
          have hlt : e.seq < p.sequenceNumber := by
            have hf := acceptsLsp_fresh kinds st p s hacc
            by_contra hge
            exact hf ⟨e, hsrc ▸ he, by omega⟩
          rcases List.mem_cons.1 hx with rfl | hx
          · exact hlt
          · exact Nat.lt_trans hlt (hab x hx)
        · rw [if_neg (fun h => hsrc h.1)]
          refine ⟨hpw, fun e he => habove e ?_⟩
          rw [htab, mapFind_mapSet_ne _ _ _ _ (Ne.symm hsrc)]
          exact he
      · rw [if_neg hacc] at htab
        rw [if_neg (fun h => hacc h.2)]
        exact hsame htab
    | ageTimer =>
      simp only [acceptedSeqs]
      refine ⟨hpw, fun e he x hx => ?_⟩
      have hsome := htick rfl (by rw [he]; rfl)
      have hfind : mapFind (decrementAge st).topologyTable o
          = if (e.age + 1) % 2 ^ 32 > toUnsigned st.lifeTime then none
            else some { e with age := (e.age + 1) % 2 ^ 32 } := by
        simp only [decrementAge]
        rw [mapFind_ageEntries _ _ _ hs, he]
      by_cases hgt : (e.age + 1) % 2 ^ 32 > toUnsigned st.lifeTime
      · rw [hfind, if_pos hgt] at hsome
        exact absurd hsome (by simp)
      · rw [if_neg hgt] at hfind
        exact habove _ hfind x hx
    | helloTimer => simp only [acceptedSeqs]; exact hsame htab
    | lspTimer => simp only [acceptedSeqs]; exact hsame htab
    | neighborExpiry n => simp only [acceptedSeqs]; exact hsame htab
    | elapse d => simp only [acceptedSeqs]; exact hsame htab

/-- C14 (as amended): over every run of inbound packets, timers and aging ticks
in which no tick removes the originator's entry, the sequence numbers of the
updates accepted for that originator are strictly increasing: each is above
every earlier one. -/
theorem C14_sequence_monotonicity (kinds : PacketKinds) (originator : Nat) (st : FsrState)
    (events : List Event) (hs : keysSorted st.topologyTable)
    (hne : NoExpiry kinds originator st events) :
    (acceptedSeqs kinds originator st events).Pairwise (· < ·) :=
  (acceptedSeqs_increasing kinds originator events st hs hne).1

theorem keysSorted_lineAtA : keysSorted lineAtA.topologyTable := by
  simp [keysSorted, lineAtA]

/-- C14 on the line A - B - C at A: a newer update from C, a tick, a repeat of
the stored one. -/
theorem C14_sequence_monotonicity_witness :
    acceptedSeqs sampleKinds 3 lineAtA
        [Event.inbound freshFromC 2, Event.ageTimer, Event.inbound staleFromC 2] = [5] ∧
      (acceptedSeqs sampleKinds 3 lineAtA
        [Event.inbound freshFromC 2, Event.ageTimer, Event.inbound staleFromC 2]).Pairwise
          (· < ·) :=
  ⟨by decide,
    C14_sequence_monotonicity sampleKinds 3 lineAtA _ keysSorted_lineAtA (by decide)⟩

/-- C14 as stated fails: with lifetime 0 an update of C with sequence number 10
is accepted, the tick removes its entry, and an update of C with the smaller
sequence number 5 is accepted after it. -/
theorem C14_counterexample :
    acceptedSeqs sampleKinds 3 emptyAtA
        [Event.inbound seqTenFromC 2, Event.ageTimer, Event.inbound freshFromC 2]
      = [10, 5] ∧
      ¬ (acceptedSeqs sampleKinds 3 emptyAtA
        [Event.inbound seqTenFromC 2, Event.ageTimer, Event.inbound freshFromC 2]).Pairwise
          (· < ·) := by
  decide

/-! ## Claims on the self entry -/

/-- C15 at a node A = 1 that has just run `initNode`: an update whose source
address field is A, relayed by the neighbor 2, passes the sender test and the
freshness test and replaces the entry keyed by A's own address. -/
theorem C15_relayed_own_update_replaces_self_entry (kinds : PacketKinds)
    (hk : kinds.HELLO ≠ kinds.LSP) :
    (initNode emptyAtA).selfAddress = 1 ∧
      mapFind (initNode emptyAtA).topologyTable 1 = some ⟨[], 0, 0⟩ ∧
      mapFind (processFsrPacket kinds (initNode emptyAtA) (ownEcho kinds) 2).topologyTable 1
        = some ⟨[1, 2], 2, 0⟩ := by
  refine ⟨rfl, by decide, ?_⟩
  have hacc : acceptsLsp kinds (initNode emptyAtA) (ownEcho kinds) 2 = true := by
    have h1 : isStale (initNode emptyAtA) (ownEcho kinds) = false := rfl
    have h2 : ¬ kinds.LSP = kinds.HELLO := fun h => hk h.symm
    have h3 : ¬ (2 : Nat) = (initNode emptyAtA).selfAddress := by decide
    have h4 : (ownEcho kinds).packetType = kinds.LSP := rfl
    simp [acceptsLsp, h1, h2, h3, h4]
  rw [processFsrPacket_topologyTable, if_pos hacc]
  rfl

/-- C15 with `HELLO = 1` and `LSP = 2`. -/
theorem C15_relayed_own_update_replaces_self_entry_witness :
    mapFind (initNode emptyAtA).topologyTable 1 = some ⟨[], 0, 0⟩ ∧
      mapFind (processFsrPacket sampleKinds (initNode emptyAtA) (ownEcho sampleKinds)
        2).topologyTable 1 = some ⟨[1, 2], 2, 0⟩ :=
  (C15_relayed_own_update_replaces_self_entry sampleKinds (by decide)).2

theorem run_replicate_ageTimer (kinds : PacketKinds) :
    ∀ (k : Nat) (st : FsrState),
      run kinds st (List.replicate k Event.ageTimer) = decrementAge^[k] st := by
  intro k
  induction k with
  | zero => intro st; rfl
  | succ k ih =>
    intro st
    rw [List.replicate_succ, Function.iterate_succ_apply]
    simp only [run, step]
    exact ih _

theorem self_entry_survives (kinds : PacketKinds) (L : Nat) (hL : L < 2 ^ 31)
    (selfAddress : Nat) :
    ∀ (events : List Event) (st : FsrState),
      st.selfAddress = selfAddress → st.lifeTime = (L : Int) →
      keysSorted st.topologyTable →
      (∃ e, mapFind st.topologyTable selfAddress = some e ∧ e.age + ticks events ≤ L) →
      (mapFind (run kinds st events).topologyTable selfAddress).isSome := by
  intro events
  induction events with
  | nil =>
    intro st _ _ _ h
    obtain ⟨e, he, _⟩ := h
    simp [run, he]
  | cons ev rest ih =>
    intro st hself hl hs h
    obtain ⟨e, he, hage⟩ := h
    simp only [run]
    apply ih _ ((step_selfAddress kinds st ev).trans hself)
      ((step_lifeTime kinds st ev).trans hl) (step_sorted kinds st ev hs)
    rw [step_topologyTable]
    cases ev with
    | inbound p s =>
      simp only [ticks] at hage
      simp only
      split
      · by_cases hp : selfAddress = p.sourceAddress
        · exact ⟨_, by rw [hp, mapFind_mapSet_self], by simpa using hage.trans' (by omega)⟩
        · exact ⟨e, by rw [mapFind_mapSet_ne _ _ _ _ hp]; exact he, hage⟩
      · exact ⟨e, he, hage⟩
    | ageTimer =>
      simp only [ticks] at hage
      simp only
      rw [mapFind_ageEntries _ _ _ hs, he, hl, toUnsigned_natCast L hL]
      have hmod : (e.age + 1) % 2 ^ 32 = e.age + 1 := Nat.mod_eq_of_lt (by omega)
      simp only [hmod]
      rw [if_neg (by omega)]
      exact ⟨_, rfl, by simp only; omega⟩
    | helloTimer => exact ⟨e, he, by simpa [ticks] using hage⟩
    | lspTimer => exact ⟨e, he, by simpa [ticks] using hage⟩
    | neighborExpiry n => exact ⟨e, he, by simpa [ticks] using hage⟩
    | elapse d => exact ⟨e, he, by simpa [ticks] using hage⟩

/-- C16 (as amended): `initNode` creates the entry of the node's own address
with an empty neighbor set, sequence number 0 and age 0; in every state reached
from there through inbound packets, Hello and LSP generation, neighbor expiry
and at most `lifeTime` aging ticks the topology table still holds an entry for
the own address; `lifeTime + 1` aging ticks in a row remove it. -/
theorem C16_self_entry_until_aged_out (kinds : PacketKinds) (L : Nat) (hL : L < 2 ^ 31)
    (st0 : FsrState) (hl : st0.lifeTime = (L : Int)) (hs : keysSorted st0.topologyTable) :
    mapFind (initNode st0).topologyTable st0.selfAddress = some ⟨[], 0, 0⟩ ∧
      (∀ events, ticks events ≤ L →
        (mapFind (run kinds (initNode st0) events).topologyTable st0.selfAddress).isSome) ∧
      mapFind (run kinds (initNode st0)
        (List.replicate (L + 1) Event.ageTimer)).topologyTable st0.selfAddress = none := by
  have hinit : mapFind (initNode st0).topologyTable st0.selfAddress = some ⟨[], 0, 0⟩ :=
    mapFind_mapSet_self _ _ _
  have hs1 : keysSorted (initNode st0).topologyTable := keysSorted_mapSet _ _ _ hs
  have hl1 : (initNode st0).lifeTime = (L : Int) := hl
  refine ⟨hinit, fun events ht => ?_, ?_⟩
  · exact self_entry_survives kinds L hL st0.selfAddress events (initNode st0) rfl hl1 hs1
      ⟨_, hinit, by simpa using ht⟩
  · rw [run_replicate_ageTimer, Function.iterate_succ_apply']
    have hat := mapFind_decrementAge_iterate L hL L (initNode st0) st0.selfAddress [] 0 0
      hl1 hs1 hinit (by omega)
    simp only [Nat.zero_add] at hat
    exact mapFind_decrementAge_expired L hL _ _ [] 0
      ((decrementAge_iterate_lifeTime L _).trans hl1) (decrementAge_iterate_sorted L _ hs1) hat

/-- C16 on the line A - B - C at A with lifetime 5: after `initNode`, five
ticks mixed with a newer update from C and a Hello leave the self entry. -/
theorem C16_self_entry_until_aged_out_witness :
    (mapFind (run sampleKinds (initNode lineAtA)
        [Event.ageTimer, Event.inbound freshFromC 2, Event.ageTimer, Event.helloTimer,
          Event.ageTimer, Event.ageTimer, Event.ageTimer]).topologyTable
        lineAtA.selfAddress).isSome ∧
      mapFind (run sampleKinds (initNode lineAtA)
        (List.replicate (5 + 1) Event.ageTimer)).topologyTable lineAtA.selfAddress = none :=
  ⟨(C16_self_entry_until_aged_out sampleKinds 5 (by norm_num) lineAtA rfl
      keysSorted_lineAtA).2.1 _ (by decide),
    (C16_self_entry_until_aged_out sampleKinds 5 (by norm_num) lineAtA rfl
      keysSorted_lineAtA).2.2⟩

/-- C16 as stated fails: with lifetime 0 the first aging tick after `initNode`
removes the entry of the node's own address. -/
theorem C16_counterexample :
    mapFind (initNode emptyAtA).topologyTable emptyAtA.selfAddress = some ⟨[], 0, 0⟩ ∧
      mapFind (run sampleKinds (initNode emptyAtA) [Event.ageTimer]).topologyTable
        emptyAtA.selfAddress = none := by
  decide

/-- C17 (as amended): `addNeighbor` and `removeNeighbor` leave the topology
table as it was, the entry of the node's own address included; the live
neighbor set is kept in `neighbors` alone. -/
theorem C17_neighbor_changes_leave_table (st : FsrState) (a : Nat) :
    (addNeighbor st a).topologyTable = st.topologyTable ∧
      (removeNeighbor st a).topologyTable = st.topologyTable ∧
      mapFind (addNeighbor st a).topologyTable st.selfAddress
        = mapFind st.topologyTable st.selfAddress ∧
      mapFind (removeNeighbor st a).topologyTable st.selfAddress
        = mapFind st.topologyTable st.selfAddress := by
  refine ⟨addNeighbor_topologyTable st a, removeNeighbor_topologyTable st a, ?_, ?_⟩
  · rw [addNeighbor_topologyTable]
  · rw [removeNeighbor_topologyTable]

/-- C17 as stated fails: after `initNode`, adding the not yet known neighbor 2
gives the live neighbor set `{2}` while the self entry still lists nobody; and
removing the neighbor B at A on the line leaves B in the self entry. -/
theorem C17_counterexample :
    (2 : Nat) ∉ (initNode emptyAtA).neighbors ∧
      (addNeighbor (initNode emptyAtA) 2).neighbors = [2] ∧
      mapFind (addNeighbor (initNode emptyAtA) 2).topologyTable emptyAtA.selfAddress
        = some ⟨[], 0, 0⟩ ∧
      (2 : Nat) ∈ lineAtA.neighbors ∧
      (removeNeighbor lineAtA 2).neighbors = [] ∧
      mapFind (removeNeighbor lineAtA 2).topologyTable lineAtA.selfAddress
        = some ⟨[2], 0, 0⟩ := by
  decide

/-! ## Packet generation -/

theorem isUnspecified_eq_false (addr : Nat) (h : addr ≠ 0) : isUnspecified addr = false := by
  simp [isUnspecified, h]

theorem sendHelloPacket_specified (kinds : PacketKinds) (st : FsrState)
    (hself : st.selfAddress ≠ 0) :
    sendHelloPacket kinds st
      = { st with
          sequenceNumber := (st.sequenceNumber + 1) % 2 ^ 32
          sent := st.sent ++ [⟨helloPacket kinds st, serializeFsrPacket (helloPacket kinds st),
            ALLONES_ADDRESS, st.fsrPort⟩]
          controlBytesSent :=
            (st.controlBytesSent + (serializeFsrPacket (helloPacket kinds st)).length) % 2 ^ 32
          numHellosSent := (st.numHellosSent + 1) % 2 ^ 32 } := by
  simp only [sendHelloPacket, isUnspecified_eq_false _ hself, Bool.false_eq_true, if_false]
  rfl

theorem sendTopologyUpdate_specified (kinds : PacketKinds) (st : FsrState)
    (hself : st.selfAddress ≠ 0) (hn : st.neighbors ≠ []) :
    sendTopologyUpdate kinds st
      = { st with
          sequenceNumber := (st.sequenceNumber + 1) % 2 ^ 32
          sent := st.sent ++ [⟨lspPacket kinds st, serializeFsrPacket (lspPacket kinds st),
            ALLONES_ADDRESS, st.fsrPort⟩]
          controlBytesSent :=
            (st.controlBytesSent + (serializeFsrPacket (lspPacket kinds st)).length) % 2 ^ 32
          numLSPsSent := (st.numLSPsSent + 1) % 2 ^ 32 } := by
  have he : st.neighbors.isEmpty = false := by
    cases hl : st.neighbors with
    | nil => exact absurd hl hn
    | cons a l => rfl
  simp only [sendTopologyUpdate, isUnspecified_eq_false _ hself, he, Bool.or_self,
    Bool.false_eq_true, if_false]
  rfl

theorem sendTopologyUpdate_skips (kinds : PacketKinds) (st : FsrState)
    (h : st.selfAddress = 0 ∨ st.neighbors = []) : sendTopologyUpdate kinds st = st := by
  unfold sendTopologyUpdate
  rcases h with h | h
  · simp [isUnspecified, h]
  · simp [h]

theorem mem_neighbors_addNeighbor (st : FsrState) (a : Nat) :
    a ∈ (addNeighbor st a).neighbors := by
  unfold addNeighbor
  split
  · exact (mem_setInsert _ _ _).2 (Or.inl rfl)
  · rename_i h
    have ha : a ∈ st.neighbors := by simpa using h
    split <;> exact ha

/-- C18 (as amended): when the self address is specified and the neighbor set
is not empty, `sendTopologyUpdate` hands exactly one packet to the socket: type
LSP, source address self, as sequence number the counter plus one (as a 32-bit
value, which is the new counter), hop count 10, and exactly one entry with
node self, the same sequence number and the neighbor set as its neighbor list,
so that an address added by a Hello just received is listed. With an empty
neighbor set, or with an unspecified self address, it sends nothing and leaves
the whole state, the counter included, as it was. -/
theorem C18_lsp_generation (kinds : PacketKinds) (st : FsrState) :
    (st.selfAddress ≠ 0 → st.neighbors ≠ [] →
        (sendTopologyUpdate kinds st).sent
            = st.sent ++ [⟨lspPacket kinds st, serializeFsrPacket (lspPacket kinds st),
                ALLONES_ADDRESS, st.fsrPort⟩] ∧
          (sendTopologyUpdate kinds st).sequenceNumber = (st.sequenceNumber + 1) % 2 ^ 32 ∧
          (lspPacket kinds st).packetType = kinds.LSP ∧
          (lspPacket kinds st).sourceAddress = st.selfAddress ∧
          (lspPacket kinds st).sequenceNumber = (st.sequenceNumber + 1) % 2 ^ 32 ∧
          (st.sequenceNumber + 1 < 2 ^ 32 →
            (lspPacket kinds st).sequenceNumber = st.sequenceNumber + 1) ∧
          (lspPacket kinds st).lspEntries
            = [⟨st.selfAddress, (st.sequenceNumber + 1) % 2 ^ 32, st.neighbors⟩] ∧
          (st.neighbors.Nodup → ∀ a ∈ st.neighbors, st.neighbors.count a = 1)) ∧
      (st.neighbors = [] → sendTopologyUpdate kinds st = st) ∧
      (st.selfAddress = 0 → sendTopologyUpdate kinds st = st) ∧
      (∀ (packet : FsrPacket) (y : Nat), st.selfAddress ≠ 0 →
        (sendTopologyUpdate kinds (processHello st packet y)).sent
            = (processHello st packet y).sent ++
                [⟨lspPacket kinds (processHello st packet y),
                  serializeFsrPacket (lspPacket kinds (processHello st packet y)),
                  ALLONES_ADDRESS, st.fsrPort⟩] ∧
          ∃ e ∈ (lspPacket kinds (processHello st packet y)).lspEntries, y ∈ e.neighbors) := by
  refine ⟨fun hself hn => ?_, fun hn => sendTopologyUpdate_skips kinds st (Or.inr hn),
    fun hs => sendTopologyUpdate_skips kinds st (Or.inl hs), fun packet y hself => ?_⟩
  · rw [sendTopologyUpdate_specified kinds st hself hn]
    refine ⟨rfl, rfl, rfl, rfl, rfl, fun h => ?_, rfl, fun hnd a ha => ?_⟩
    · exact Nat.mod_eq_of_lt h
    · exact List.count_eq_one_of_mem hnd ha
  · have hy : y ∈ (processHello st packet y).neighbors := mem_neighbors_addNeighbor st y
    have hself' : (processHello st packet y).selfAddress ≠ 0 := by
      simp only [processHello, addNeighbor_selfAddress]; exact hself
    have hport : (processHello st packet y).fsrPort = st.fsrPort := by
      simp only [processHello, addNeighbor]
      split
      · rfl
      · split <;> rfl
    rw [sendTopologyUpdate_specified kinds _ hself' (List.ne_nil_of_mem hy), ← hport]
    exact ⟨rfl, _, List.mem_singleton.2 rfl, hy⟩

/-- C18 on the line A - B - C at A, whose neighbor set is `{B}`. -/
theorem C18_lsp_generation_witness :
    (sendTopologyUpdate sampleKinds lineAtA).sent
        = [⟨⟨2, 1, 1, 0, 10, [⟨1, 1, [2]⟩]⟩,
            serializeFsrPacket ⟨2, 1, 1, 0, 10, [⟨1, 1, [2]⟩]⟩, ALLONES_ADDRESS, 6543⟩] ∧
      (sendTopologyUpdate sampleKinds lineAtA).sequenceNumber = 1 ∧
      sendTopologyUpdate sampleKinds emptyAtA = emptyAtA :=
  ⟨((C18_lsp_generation sampleKinds lineAtA).1 (by decide) (by decide)).1,
    ((C18_lsp_generation sampleKinds lineAtA).1 (by decide) (by decide)).2.1,
    (C18_lsp_generation sampleKinds emptyAtA).2.1 rfl⟩

/-- C18 as stated fails: a node whose own address is unspecified has the
neighbor B, yet `sendTopologyUpdate` sends nothing and keeps the counter. -/
theorem C18_counterexample :
    unspecifiedSelf.neighbors = [2] ∧
      (sendTopologyUpdate sampleKinds unspecifiedSelf).sent = unspecifiedSelf.sent ∧
      (sendTopologyUpdate sampleKinds unspecifiedSelf).sequenceNumber
        = unspecifiedSelf.sequenceNumber := by
  decide

/-- C19 (as amended): when the self address is specified, `sendHelloPacket`
hands exactly one packet to the socket: type HELLO, source address self, hop
count 1, no entries, and as sequence number the counter plus one as a 32-bit
value, to which the one counter of the node advances. The next packet the node
generates, Hello or LSP, carries that counter plus one again: as long as the
counter stays below `2 ^ 32` the values are `c + 1` and then `c + 2`. With an
unspecified self address nothing is sent and the counter stays. -/
theorem C19_hello_generation (kinds : PacketKinds) (st : FsrState) :
    (st.selfAddress ≠ 0 →
        (sendHelloPacket kinds st).sent
            = st.sent ++ [⟨helloPacket kinds st, serializeFsrPacket (helloPacket kinds st),
                ALLONES_ADDRESS, st.fsrPort⟩] ∧
          (helloPacket kinds st).packetType = kinds.HELLO ∧
          (helloPacket kinds st).sourceAddress = st.selfAddress ∧
          (helloPacket kinds st).hopCount = 1 ∧
          (helloPacket kinds st).lspEntries = [] ∧
          (helloPacket kinds st).sequenceNumber = (st.sequenceNumber + 1) % 2 ^ 32 ∧
          (sendHelloPacket kinds st).sequenceNumber = (st.sequenceNumber + 1) % 2 ^ 32 ∧
          (sendHelloPacket kinds (sendHelloPacket kinds st)).sent
            = (sendHelloPacket kinds st).sent ++
                [⟨helloPacket kinds (sendHelloPacket kinds st),
                  serializeFsrPacket (helloPacket kinds (sendHelloPacket kinds st)),
                  ALLONES_ADDRESS, st.fsrPort⟩] ∧
          (st.neighbors ≠ [] →
            (sendTopologyUpdate kinds (sendHelloPacket kinds st)).sent
              = (sendHelloPacket kinds st).sent ++
                  [⟨lspPacket kinds (sendHelloPacket kinds st),
                    serializeFsrPacket (lspPacket kinds (sendHelloPacket kinds st)),
                    ALLONES_ADDRESS, st.fsrPort⟩]) ∧
          (st.sequenceNumber + 2 < 2 ^ 32 →
            (helloPacket kinds st).sequenceNumber = st.sequenceNumber + 1 ∧
            (helloPacket kinds (sendHelloPacket kinds st)).sequenceNumber
              = st.sequenceNumber + 2 ∧
            (lspPacket kinds (sendHelloPacket kinds st)).sequenceNumber
              = st.sequenceNumber + 2)) ∧
      (st.selfAddress = 0 → sendHelloPacket kinds st = st) := by
  refine ⟨fun hself => ?_, fun hs => by simp [sendHelloPacket, isUnspecified, hs]⟩
  have h1 := sendHelloPacket_specified kinds st hself
  have hself1 : (sendHelloPacket kinds st).selfAddress ≠ 0 := by rw [h1]; exact hself
  have hport : (sendHelloPacket kinds st).fsrPort = st.fsrPort := by rw [h1]
  have hnb : (sendHelloPacket kinds st).neighbors = st.neighbors := by rw [h1]
  have hseq : (sendHelloPacket kinds st).sequenceNumber = (st.sequenceNumber + 1) % 2 ^ 32 := by
    rw [h1]
  refine ⟨by rw [h1], rfl, rfl, rfl, rfl, rfl, hseq, ?_, fun hn => ?_, fun hlt => ?_⟩
  · rw [sendHelloPacket_specified kinds _ hself1, hport]
  · rw [sendTopologyUpdate_specified kinds _ hself1 (by rw [hnb]; exact hn), hport]
  · have e1 : (st.sequenceNumber + 1) % 2 ^ 32 = st.sequenceNumber + 1 :=
      Nat.mod_eq_of_lt (by omega)
    have e2 : (st.sequenceNumber + 1 + 1) % 2 ^ 32 = st.sequenceNumber + 2 :=
      Nat.mod_eq_of_lt (by omega)
    refine ⟨e1, ?_, ?_⟩
    · show ((sendHelloPacket kinds st).sequenceNumber + 1) % 2 ^ 32 = _
      rw [hseq, e1, e2]
    · show ((sendHelloPacket kinds st).sequenceNumber + 1) % 2 ^ 32 = _
      rw [hseq, e1, e2]

/-- C19 on the line A - B - C at A: a Hello with sequence number 1, then an
LSP with sequence number 2. -/
theorem C19_hello_generation_witness :
    (sendHelloPacket sampleKinds lineAtA).sent
        = [⟨⟨1, 1, 1, 0, 1, []⟩, serializeFsrPacket ⟨1, 1, 1, 0, 1, []⟩,
            ALLONES_ADDRESS, 6543⟩] ∧
      (lspPacket sampleKinds (sendHelloPacket sampleKinds lineAtA)).sequenceNumber = 0 + 2 ∧
      sendHelloPacket sampleKinds unspecifiedSelf = unspecifiedSelf :=
  ⟨((C19_hello_generation sampleKinds lineAtA).1 (by decide)).1,
    (((C19_hello_generation sampleKinds lineAtA).1 (by decide)).2.2.2.2.2.2.2.2.2
      (by decide)).2.2,
    (C19_hello_generation sampleKinds unspecifiedSelf).2 rfl⟩

/-- C19 as stated fails: a node whose own address is unspecified sends no
Hello and does not advance its counter. -/
theorem C19_counterexample :
    (sendHelloPacket sampleKinds unspecifiedSelf).sent = unspecifiedSelf.sent ∧
      (sendHelloPacket sampleKinds unspecifiedSelf).sequenceNumber
        = unspecifiedSelf.sequenceNumber := by
  decide

/-! ## Neighbor timeouts -/

theorem mapFind_mapErase_self {β : Type} (k : Nat) (m : List (Nat × β)) (h : keysSorted m) :
    mapFind (mapErase k m) k = none := by
  induction m with
  | nil => rfl
  | cons e rest ih =>
    obtain ⟨k', v⟩ := e
    simp only [mapErase]
    split
    · rename_i hk
      subst hk
      exact mapFind_none_of_sorted_cons k' v rest h
    · rename_i hk
      simp only [mapFind, if_neg hk]
      exact ih (keysSorted_tail _ _ h)

theorem removeNeighbor_neighbors (st : FsrState) (neighbor : Nat) :
    (removeNeighbor st neighbor).neighbors = setErase neighbor st.neighbors := by
  unfold removeNeighbor
  simp only [calculateShortestPath_neighbors]
  split <;> rfl

theorem mapFind_removeNeighbor_self (st : FsrState) (neighbor : Nat)
    (hs : keysSorted st.neighborTimeouts) :
    mapFind (removeNeighbor st neighbor).neighborTimeouts neighbor = none := by
  unfold removeNeighbor
  simp only [calculateShortestPath_neighborTimeouts]
  split
  · exact mapFind_mapErase_self neighbor _ hs
  · rename_i h
    exact h

theorem neighborTimeoutFired_undefined (st : FsrState) (msg : Nat) (it : Nat × Nat)
    (hs : keysSorted st.neighborTimeouts)
    (hfind : st.neighborTimeouts.find? (fun e => e.2 = msg) = some it) :
    neighborTimeoutFired st msg = none := by
  unfold neighborTimeoutFired
  rw [hfind]
  simp only [mapFind_removeNeighbor_self st it.1 hs]

theorem addNeighbor_absent (st : FsrState) (a : Nat) (h : a ∉ st.neighbors) :
    addNeighbor st a
      = { st with
          neighbors := setInsert a st.neighbors
          nextMessageId := st.nextMessageId + 1
          neighborTimeouts := mapSet a st.nextMessageId st.neighborTimeouts
          scheduled :=
            (match mapFind st.neighborTimeouts a with
              | some old => st.scheduled.filter (fun ev => ev.1 ≠ old)
              | none => st.scheduled) ++
              [(st.nextMessageId, st.simTime + 3 * st.helloBroadcastInterval)] } := by
  have hc : st.neighbors.contains a = false := by simpa using h
  simp only [addNeighbor, hc, Bool.false_eq_true, not_false_eq_true, if_true]

theorem addNeighbor_present (st : FsrState) (a msg : Nat) (h : a ∈ st.neighbors)
    (hm : mapFind st.neighborTimeouts a = some msg) :
    addNeighbor st a
      = { st with
          scheduled := st.scheduled.filter (fun ev => ev.1 ≠ msg) ++
            [(msg, st.simTime + 3 * st.helloBroadcastInterval)] } := by
  have hc : st.neighbors.contains a = true := by simpa using h
  simp only [addNeighbor, hc, hm, not_true_eq_false, if_false]

theorem addNeighbor_neighbors_of_mem (st : FsrState) (a : Nat) (h : a ∈ st.neighbors) :
    (addNeighbor st a).neighbors = st.neighbors := by
  have hc : st.neighbors.contains a = true := by simpa using h
  simp only [addNeighbor, hc, not_true_eq_false, if_false]
  split <;> rfl

/-- C20: `addNeighbor(a)` at time `t` leaves `a` in the neighbor set with one
timeout message for `a`, scheduled exactly once, at `t + 3 *
helloBroadcastInterval` (the message ids handed out so far lie below the next
one, and a neighbor present before has its message in `neighborTimeouts`); a
second call gives the same set, and no other address enters or leaves. When
that message fires, the handler of `handleMessageWhenUp` calls
`removeNeighbor(a)`, which takes `a` out of the set and already erases the
pair of `a` from `neighborTimeouts` and deletes the message; the
`neighborTimeouts.erase(it)` and `delete msg` that follow in the handler then
act on the erased map node and the deleted message, so the expiry has no
defined outcome. -/
theorem C20_expiry_is_undefined (st : FsrState) (a : Nat)
    (hs : keysSorted st.neighborTimeouts)
    (hids : ∀ ev ∈ st.scheduled, ev.1 < st.nextMessageId)
    (hwf : a ∈ st.neighbors → ∃ msg, mapFind st.neighborTimeouts a = some msg) :
    a ∈ (addNeighbor st a).neighbors ∧
      (addNeighbor (addNeighbor st a) a).neighbors = (addNeighbor st a).neighbors ∧
      (∀ b, b ≠ a → (b ∈ (addNeighbor st a).neighbors ↔ b ∈ st.neighbors)) ∧
      ∃ msg, mapFind (addNeighbor st a).neighborTimeouts a = some msg ∧
        (addNeighbor st a).scheduled.filter (fun ev => ev.1 = msg)
          = [(msg, st.simTime + 3 * st.helloBroadcastInterval)] ∧
        a ∉ (removeNeighbor (addNeighbor st a) a).neighbors ∧
        mapFind (removeNeighbor (addNeighbor st a) a).neighborTimeouts a = none ∧
        neighborTimeoutFired (addNeighbor st a) msg = none := by
  have hmem := mem_neighbors_addNeighbor st a
  have hexp : ∀ (s : FsrState) (msg : Nat), keysSorted s.neighborTimeouts →
      mapFind s.neighborTimeouts a = some msg →
      a ∉ (removeNeighbor s a).neighbors ∧
        mapFind (removeNeighbor s a).neighborTimeouts a = none ∧
        neighborTimeoutFired s msg = none := by
    intro s msg hss hm
    refine ⟨?_, mapFind_removeNeighbor_self s a hss, ?_⟩
    · rw [removeNeighbor_neighbors]
      simp [setErase]
    · cases hf : s.neighborTimeouts.find? (fun e => e.2 = msg) with
      | none =>
        have := List.find?_eq_none.1 hf (a, msg) (mem_of_mapFind _ _ _ hm)
        simp at this
      | some it => exact neighborTimeoutFired_undefined s msg it hss hf
  refine ⟨hmem, addNeighbor_neighbors_of_mem _ a hmem, ?_, ?_⟩
  · intro b hb
    by_cases hc : a ∈ st.neighbors
    · rw [addNeighbor_neighbors_of_mem st a hc]
    · rw [addNeighbor_absent st a hc]
      show b ∈ setInsert a st.neighbors ↔ _
      rw [mem_setInsert]
      exact ⟨fun h => h.resolve_left hb, Or.inr⟩
  · by_cases hc : a ∈ st.neighbors
    · obtain ⟨msg, hm⟩ := hwf hc
      have he := addNeighbor_present st a msg hc hm
      have hm' : mapFind (addNeighbor st a).neighborTimeouts a = some msg := by
        rw [he]; exact hm
      have hs' : keysSorted (addNeighbor st a).neighborTimeouts := by
        rw [he]; exact hs
      refine ⟨msg, hm', ?_, hexp _ msg hs' hm'⟩
      rw [he]
      show (st.scheduled.filter (fun ev => ev.1 ≠ msg) ++
        [(msg, st.simTime + 3 * st.helloBroadcastInterval)]).filter (fun ev => ev.1 = msg) = _
      rw [List.filter_append, List.filter_filter]
      have hnil : st.scheduled.filter (fun ev => decide (ev.1 = msg) && decide (ev.1 ≠ msg))
          = [] := List.filter_eq_nil_iff.2 (fun ev _ => by simp)
      rw [hnil]
      simp
    · have he := addNeighbor_absent st a hc
      have hm' : mapFind (addNeighbor st a).neighborTimeouts a = some st.nextMessageId := by
        rw [he]; exact mapFind_mapSet_self _ _ _
      have hs' : keysSorted (addNeighbor st a).neighborTimeouts := by
        rw [he]; exact keysSorted_mapSet _ _ _ hs
      refine ⟨st.nextMessageId, hm', ?_, hexp _ _ hs' hm'⟩
      rw [he]
      show ((match mapFind st.neighborTimeouts a with
              | some old => st.scheduled.filter (fun ev : Nat × Nat => ev.1 ≠ old)
              | none => st.scheduled) ++
              [(st.nextMessageId, st.simTime + 3 * st.helloBroadcastInterval)]).filter
                (fun ev : Nat × Nat => ev.1 = st.nextMessageId) = _
      have hsub : ∀ ev ∈ (match mapFind st.neighborTimeouts a with
              | some old => st.scheduled.filter (fun ev : Nat × Nat => ev.1 ≠ old)
              | none => st.scheduled), ev.1 < st.nextMessageId := by
        intro ev hev
        split at hev
        · exact hids ev (List.mem_filter.1 hev).1
        · exact hids ev hev
      rw [List.filter_append]
      have hnil : (match mapFind st.neighborTimeouts a with
              | some old => st.scheduled.filter (fun ev : Nat × Nat => ev.1 ≠ old)
              | none => st.scheduled).filter (fun ev : Nat × Nat => ev.1 = st.nextMessageId) = [] :=
        List.filter_eq_nil_iff.2 (fun ev hev => by
          have := hsub ev hev
          simp only [decide_eq_true_eq]
          omega)
      rw [hnil]
      simp

/-- C20 on the line A - B - C at A, where B is a neighbor whose message 0 is
due at time 30: a Hello from B at time 0 keeps the one message, and its expiry
is undefined. -/
theorem C20_expiry_is_undefined_witness :
    2 ∈ (addNeighbor lineAtA 2).neighbors ∧
      (addNeighbor lineAtA 2).scheduled = [(0, 30)] ∧
      neighborTimeoutFired (addNeighbor lineAtA 2) 0 = none ∧
      ∃ msg, mapFind (addNeighbor lineAtA 2).neighborTimeouts 2 = some msg ∧
        neighborTimeoutFired (addNeighbor lineAtA 2) msg = none :=
  have h := C20_expiry_is_undefined lineAtA 2 (by simp [keysSorted, lineAtA])
    (by decide) (fun _ => ⟨0, rfl⟩)
  ⟨h.1, by decide, by decide,
    h.2.2.2.elim (fun msg hm => ⟨msg, hm.1, hm.2.2.2.2⟩)⟩

/-! ## The shortest input the decoder accepts -/

theorem deserializeWithOffset_short (bytes : List Byte) (now : Nat) (h : bytes.length < 12) :
    deserializeWithOffset bytes now = .error .nullPacket := by
  simp only [deserializeWithOffset]
  split
  · rfl
  · obtain ⟨t, ht⟩ := readByte_ok (show 0 < bytes.length by omega)
    obtain ⟨a, ha⟩ := read32_ok (show 1 + 4 ≤ bytes.length by omega)
    obtain ⟨q, hq⟩ := read32_ok (show 5 + 4 ≤ bytes.length by omega)
    obtain ⟨c, hc⟩ := readByte_ok (show 9 < bytes.length by omega)
    simp only [ht, ha, hq, hc, bind, Except.bind, pure, Except.pure]

/-- C22 (as amended): the encoding of a packet with zero entries, the bare
header, is exactly 12 bytes long (type 1, source address 4, sequence number 4,
hop count 1, entry count 2) and `deserializeFsrPacket` accepts it, returning
the header fields and no entry; every input shorter than 12 bytes is rejected
with the decode error, and so every accepted input has at least 12 bytes. -/
theorem C22_minimum_length (p : FsrPacket) (bytes : List Byte) (now : Nat) :
    (p.lspEntries = [] →
        (serializeFsrPacket p).length = 12 ∧
        deserializeFsrPacket (serializeFsrPacket p) now
          = .ok ⟨p.packetType % 256, p.sourceAddress % 2 ^ 32, p.sequenceNumber % 2 ^ 32, now,
              p.hopCount % 256, []⟩) ∧
      (bytes.length < 12 → deserializeFsrPacket bytes now = .error .nullPacket) ∧
      (∀ q, deserializeFsrPacket bytes now = .ok q → 12 ≤ bytes.length) := by
  have hshort : bytes.length < 12 → deserializeFsrPacket bytes now = .error .nullPacket := by
    intro h
    simp only [deserializeFsrPacket, deserializeWithOffset_short bytes now h]
  refine ⟨fun he => ⟨?_, ?_⟩, hshort, fun q hq => ?_⟩
  · rw [length_serializeFsrPacket, he]
    rfl
  · rw [deserialize_serialize]
    simp [wireImage, he]
  · by_contra hlt
    rw [hshort (by omega)] at hq
    exact Except.noConfusion hq

/-- C22 at a Hello: its encoding has 12 bytes and decodes, its first 11 bytes
are rejected. -/
theorem C22_minimum_length_witness :
    (serializeFsrPacket bareHello).length = 12 ∧
      deserializeFsrPacket (serializeFsrPacket bareHello) 4 = .ok ⟨1, 1, 1, 4, 1, []⟩ ∧
      deserializeFsrPacket ((serializeFsrPacket bareHello).take 11) 4 = .error .nullPacket :=
  ⟨((C22_minimum_length bareHello [] 4).1 rfl).1,
    ((C22_minimum_length bareHello [] 4).1 rfl).2,
    (C22_minimum_length bareHello ((serializeFsrPacket bareHello).take 11) 4).2.1 (by decide)⟩

/-- C22 as stated fails: the encoding of a packet with zero entries has 12
bytes, not 11, and an input of 11 bytes, here the first 11 bytes of that
encoding, is rejected. -/
theorem C22_counterexample :
    bareHello.lspEntries = [] ∧
      (serializeFsrPacket bareHello).length = 12 ∧
      ((serializeFsrPacket bareHello).take 11).length = 11 ∧
      deserializeFsrPacket ((serializeFsrPacket bareHello).take 11) 0
        = .error .nullPacket := by
  refine ⟨rfl, by decide, by decide, ?_⟩
  simp only [deserializeFsrPacket, deserializeWithOffset_short _ 0
    (show ((serializeFsrPacket bareHello).take 11).length < 12 by decide)]

/-! ## The hop count of a generated update -/

/-- C23 (as amended): every packet that `sendTopologyUpdate` hands to the
socket has hop count 10, the literal of `setHopCount(10)`, whatever the state
and the configured parameters of the node are; the value is at least 1 and it
is the hop count a receiver decodes. -/
theorem C23_hop_count_is_ten (kinds : PacketKinds) (st : FsrState) (now : Nat) :
    ∀ s ∈ (sendTopologyUpdate kinds st).sent.drop st.sent.length,
      s.chunk.hopCount = 10 ∧ 1 ≤ s.chunk.hopCount ∧
        ∃ q, deserializeFsrPacket s.data now = .ok q ∧ q.hopCount = 10 := by
  intro s hs
  by_cases h : st.selfAddress = 0 ∨ st.neighbors = []
  · rw [sendTopologyUpdate_skips kinds st h] at hs
    simp at hs
  · have h1 : st.selfAddress ≠ 0 := fun h0 => h (Or.inl h0)
    have h2 : st.neighbors ≠ [] := fun h0 => h (Or.inr h0)
    rw [sendTopologyUpdate_specified kinds st h1 h2] at hs
    simp only [List.drop_left, List.mem_singleton] at hs
    subst hs
    refine ⟨rfl, ?_, _, deserialize_serialize _ now, ?_⟩
    · show 1 ≤ 10
      omega
    · simp [wireImage, lspPacket]

/-- C23 at node A of the line: the update it sends carries hop count 10 and is
decoded with hop count 10. -/
theorem C23_hop_count_is_ten_witness :
    lineUpdate ∈ (sendTopologyUpdate sampleKinds lineAtA).sent.drop lineAtA.sent.length ∧
      lineUpdate.chunk.hopCount = 10 ∧ 1 ≤ lineUpdate.chunk.hopCount ∧
      ∃ q, deserializeFsrPacket lineUpdate.data 0 = .ok q ∧ q.hopCount = 10 :=
  ⟨by decide, C23_hop_count_is_ten sampleKinds lineAtA 0 lineUpdate (by decide)⟩

/-- C23 as stated fails: the hop count does not follow the configuration. Node
A of the line and the same node with every configured parameter changed both
send their update with hop count 10. -/
theorem C23_counterexample :
    lineAtA.helloBroadcastInterval ≠ reconfiguredAtA.helloBroadcastInterval ∧
      lineAtA.lifeTime ≠ reconfiguredAtA.lifeTime ∧
      lineAtA.fsrPort ≠ reconfiguredAtA.fsrPort ∧
      (sendTopologyUpdate sampleKinds lineAtA).sent.map (fun s => s.chunk.hopCount) = [10] ∧
      (sendTopologyUpdate sampleKinds reconfiguredAtA).sent.map (fun s => s.chunk.hopCount)
        = [10] := by
  decide

/-! ## The neighbor set and the timeout map -/

theorem mem_mapErase {β : Type} (k : Nat) (m : List (Nat × β)) (e : Nat × β)
    (h : e ∈ mapErase k m) : e ∈ m := by
  induction m with
  | nil => simp [mapErase] at h
  | cons f rest ih =>
    obtain ⟨k', v⟩ := f
    simp only [mapErase] at h
    split at h
    · exact List.mem_cons_of_mem _ h
    · rcases List.mem_cons.1 h with h | h
      · exact h ▸ List.mem_cons_self _ _
      · exact List.mem_cons_of_mem _ (ih h)

theorem keysSorted_mapErase {β : Type} (k : Nat) (m : List (Nat × β)) (h : keysSorted m) :
    keysSorted (mapErase k m) := by
  induction m with
  | nil => exact h
  | cons f rest ih =>
    obtain ⟨k', v⟩ := f
    simp only [mapErase]
    split
    · exact keysSorted_tail _ _ h
    · have ht := keysSorted_tail _ _ h
      simp only [keysSorted, List.map_cons, List.pairwise_cons] at h ⊢
      refine ⟨fun x hx => ?_, ih ht⟩
      obtain ⟨e, he, rfl⟩ := List.mem_map.1 hx
      exact h.1 _ (List.mem_map.2 ⟨e, mem_mapErase _ _ _ he, rfl⟩)

theorem mem_mapErase_iff {β : Type} (k : Nat) (m : List (Nat × β)) (h : keysSorted m)
    (e : Nat × β) : e ∈ mapErase k m ↔ e ∈ m ∧ e.1 ≠ k := by
  induction m with
  | nil => simp [mapErase]
  | cons f rest ih =>
    obtain ⟨k', v⟩ := f
    have ht := keysSorted_tail _ _ h
    simp only [keysSorted, List.map_cons, List.pairwise_cons] at h
    simp only [mapErase]
    split
    · rename_i hk
      subst hk
      constructor
      · intro he
        refine ⟨List.mem_cons_of_mem _ he, fun hek => ?_⟩
        have := h.1 _ (List.mem_map.2 ⟨e, he, rfl⟩)
        omega
      · rintro ⟨he, hne⟩
        rcases List.mem_cons.1 he with he | he
        · exact absurd (by rw [he]) hne
        · exact he
    · rename_i hk
      simp only [List.mem_cons, ih ht]
      constructor
      · rintro (he | ⟨he, hne⟩)
        · exact ⟨Or.inl he, by rw [he]; exact hk⟩
        · exact ⟨Or.inr he, hne⟩
      · rintro ⟨he | he, hne⟩
        · exact Or.inl he
        · exact Or.inr ⟨he, hne⟩

theorem mapFind_of_mem_keys {β : Type} (m : List (Nat × β)) (k : Nat)
    (h : k ∈ m.map Prod.fst) : ∃ v, mapFind m k = some v := by
  induction m with
  | nil => simp at h
  | cons f rest ih =>
    obtain ⟨k', v⟩ := f
    simp only [mapFind]
    split
    · exact ⟨v, rfl⟩
    · rename_i hk
      simp only [List.map_cons, List.mem_cons] at h
      rcases h with h | h
      · exact absurd h.symm hk
      · exact ih h

theorem removeNeighbor_timers (st : FsrState) (neighbor : Nat) :
    (mapFind st.neighborTimeouts neighbor = none ∧
        (removeNeighbor st neighbor).neighborTimeouts = st.neighborTimeouts ∧
        (removeNeighbor st neighbor).scheduled = st.scheduled ∧
        (removeNeighbor st neighbor).nextMessageId = st.nextMessageId) ∨
      (∃ msg, mapFind st.neighborTimeouts neighbor = some msg ∧
        (removeNeighbor st neighbor).neighborTimeouts = mapErase neighbor st.neighborTimeouts ∧
        (removeNeighbor st neighbor).scheduled
          = st.scheduled.filter (fun ev => ev.1 ≠ msg) ∧
        (removeNeighbor st neighbor).nextMessageId = st.nextMessageId) := by
  unfold removeNeighbor
  cases hf : mapFind st.neighborTimeouts neighbor with
  | none =>
    left
    obtain ⟨rt, h⟩ := calculateShortestPath_frame
      { st with neighbors := setErase neighbor st.neighbors }
    simp only [hf]
    rw [h]
    exact ⟨trivial, rfl, rfl, rfl⟩
  | some msg =>
    right
    obtain ⟨rt, h⟩ := calculateShortestPath_frame
      { st with
        neighbors := setErase neighbor st.neighbors
        scheduled := st.scheduled.filter (fun ev => ev.1 ≠ msg)
        neighborTimeouts := mapErase neighbor st.neighborTimeouts }
    simp only [hf]
    rw [h]
    exact ⟨msg, rfl, rfl, rfl, rfl⟩

theorem timersMatch_addNeighbor (st : FsrState) (a : Nat) (h : TimersMatch st) :
    TimersMatch (addNeighbor st a) := by
  obtain ⟨hs, hiff, hsched, hinj⟩ := h
  by_cases hc : a ∈ st.neighbors
  · obtain ⟨msg, hm⟩ := mapFind_of_mem_keys _ _ ((hiff a).1 hc)
    rw [addNeighbor_present st a msg hc hm]
    refine ⟨hs, hiff, fun e he => ⟨(hsched e he).1, ?_⟩, hinj⟩
    obtain ⟨t, ht⟩ := (hsched e he).2
    by_cases hem : e.2 = msg
    · exact ⟨_, List.mem_append_right _ (by rw [hem]; exact List.mem_singleton.2 rfl)⟩
    · exact ⟨t, List.mem_append_left _ (List.mem_filter.2 ⟨ht, by simpa using hem⟩)⟩
  · have hnone : mapFind st.neighborTimeouts a = none := by
      cases hf : mapFind st.neighborTimeouts a with
      | none => rfl
      | some v => exact absurd ((hiff a).2 (mem_keys_of_mapFind _ _ _ hf)) hc
    rw [addNeighbor_absent st a hc]
    simp only [hnone]
    refine ⟨keysSorted_mapSet _ _ _ hs, fun x => ?_, fun e he => ?_, fun e he f hf hef => ?_⟩
    · rw [mem_setInsert, mem_keys_mapSet, hiff x]
    · rcases mem_mapSet _ _ _ _ he with rfl | he
      · exact ⟨Nat.lt_succ_self _, _, List.mem_append_right _ (List.mem_singleton.2 rfl)⟩
      · obtain ⟨hlt, t, ht⟩ := hsched e he
        exact ⟨Nat.lt_succ_of_lt hlt, t, List.mem_append_left _ ht⟩
    · rcases mem_mapSet _ _ _ _ he with rfl | he
      · rcases mem_mapSet _ _ _ _ hf with rfl | hf
        · rfl
        · have := (hsched f hf).1
          simp only at hef
          omega
      · rcases mem_mapSet _ _ _ _ hf with rfl | hf
        · have := (hsched e he).1
          simp only at hef
          omega
        · exact hinj e he f hf hef

theorem timersMatch_removeNeighbor (st : FsrState) (a : Nat) (h : TimersMatch st) :
    TimersMatch (removeNeighbor st a) ∧ a ∉ (removeNeighbor st a).neighbors ∧
      a ∉ (removeNeighbor st a).neighborTimeouts.map Prod.fst := by
  obtain ⟨hs, hiff, hsched, hinj⟩ := h
  have hnb : ∀ x, x ∈ (removeNeighbor st a).neighbors ↔ x ∈ st.neighbors ∧ x ≠ a := by
    intro x
    rw [removeNeighbor_neighbors]
    simp [setErase]
  rcases removeNeighbor_timers st a with ⟨hf, h1, h2, h3⟩ | ⟨msg, hf, h1, h2, h3⟩
  · have hna : a ∉ st.neighborTimeouts.map Prod.fst := by
      intro hmem
      obtain ⟨v, hv⟩ := mapFind_of_mem_keys _ _ hmem
      rw [hf] at hv
      exact Option.noConfusion hv
    refine ⟨⟨by rw [h1]; exact hs, fun x => ?_, ?_, by rw [h1]; exact hinj⟩, ?_, ?_⟩
    · rw [hnb, h1, hiff x]
      exact ⟨fun hx => hx.1, fun hx => ⟨hx, fun hxa => hna (hxa ▸ hx)⟩⟩
    · rw [h1, h2, h3]; exact hsched
    · rw [hnb]; exact fun hx => hx.2 rfl
    · rw [h1]; exact hna
  · have hkeys : ∀ x, x ∈ (mapErase a st.neighborTimeouts).map Prod.fst ↔
        x ∈ st.neighborTimeouts.map Prod.fst ∧ x ≠ a := by
      intro x
      constructor
      · intro hx
        obtain ⟨e, he, rfl⟩ := List.mem_map.1 hx
        have := (mem_mapErase_iff a _ hs e).1 he
        exact ⟨List.mem_map.2 ⟨e, this.1, rfl⟩, this.2⟩
      · rintro ⟨hx, hne⟩
        obtain ⟨e, he, rfl⟩ := List.mem_map.1 hx
        exact List.mem_map.2 ⟨e, (mem_mapErase_iff a _ hs e).2 ⟨he, hne⟩, rfl⟩
    have hamsg : (a, msg) ∈ st.neighborTimeouts := mem_of_mapFind _ _ _ hf
    refine ⟨⟨by rw [h1]; exact keysSorted_mapErase _ _ hs, fun x => ?_, ?_, ?_⟩, ?_, ?_⟩
    · rw [hnb, h1, hkeys, hiff x]
    · rw [h1, h2, h3]
      intro e he
      obtain ⟨hem, hne⟩ := (mem_mapErase_iff a _ hs e).1 he
      obtain ⟨hlt, t, ht⟩ := hsched e hem
      refine ⟨hlt, t, List.mem_filter.2 ⟨ht, ?_⟩⟩
      have : e.2 ≠ msg := fun hx => hne (hinj e hem (a, msg) hamsg hx)
      simpa using this
    · rw [h1]
      intro e he f hf' hef
      exact hinj e ((mem_mapErase_iff a _ hs e).1 he).1 f
        ((mem_mapErase_iff a _ hs f).1 hf').1 hef
    · rw [hnb]; exact fun hx => hx.2 rfl
    · rw [h1, hkeys]; exact fun hx => hx.2 rfl

theorem handleStopOperation_cleared (st : FsrState) :
    (handleStopOperation st).neighbors = [] ∧ (handleStopOperation st).neighborTimeouts = [] := by
  unfold handleStopOperation
  obtain ⟨rt, h⟩ := clearRoutes_frame
    { st with
      scheduled := st.neighborTimeouts.foldl
        (fun sched entry => sched.filter (fun ev => ev.1 ≠ entry.2)) st.scheduled
      neighborTimeouts := [] }
  simp only []
  rw [h]
  simp

theorem timersMatch_handleStopOperation (st : FsrState) :
    TimersMatch (handleStopOperation st) := by
  obtain ⟨h1, h2⟩ := handleStopOperation_cleared st
  simp [TimersMatch, h1, h2, keysSorted]

theorem timersMatch_applyCalls (calls : List NeighborCall) :
    ∀ st, TimersMatch st → TimersMatch (applyCalls st calls) := by
  induction calls with
  | nil => intro st h; exact h
  | cons call rest ih =>
    intro st h
    simp only [applyCalls]
    apply ih
    cases call with
    | add a => exact timersMatch_addNeighbor st a h
    | remove a => exact (timersMatch_removeNeighbor st a h).1
    | stop => exact timersMatch_handleStopOperation st

/-- C21: start from a state with no neighbor and no timeout message. In every
state reached by calls of `addNeighbor`, `removeNeighbor` and
`handleStopOperation`, an address is in the neighbor set exactly when it is a
key of `neighborTimeouts`, and the message stored for it is scheduled;
`removeNeighbor(a)` takes `a` out of both, and `handleStopOperation` empties
both. -/
theorem C21_neighbor_presence (st0 : FsrState) (hn : st0.neighbors = [])
    (ht : st0.neighborTimeouts = []) (calls : List NeighborCall) (a : Nat) :
    (a ∈ (applyCalls st0 calls).neighbors ↔
        a ∈ (applyCalls st0 calls).neighborTimeouts.map Prod.fst) ∧
      (a ∈ (applyCalls st0 calls).neighbors →
        ∃ msg t, mapFind (applyCalls st0 calls).neighborTimeouts a = some msg ∧
          (msg, t) ∈ (applyCalls st0 calls).scheduled) ∧
      a ∉ (removeNeighbor (applyCalls st0 calls) a).neighbors ∧
      a ∉ (removeNeighbor (applyCalls st0 calls) a).neighborTimeouts.map Prod.fst ∧
      (handleStopOperation (applyCalls st0 calls)).neighbors = [] ∧
      (handleStopOperation (applyCalls st0 calls)).neighborTimeouts = [] := by
  have h0 : TimersMatch st0 := by simp [TimersMatch, hn, ht, keysSorted]
  have h := timersMatch_applyCalls calls st0 h0
  obtain ⟨_, hr1, hr2⟩ := timersMatch_removeNeighbor _ a h
  obtain ⟨hs, hiff, hsched, _⟩ := h
  refine ⟨hiff a, fun ha => ?_, hr1, hr2, handleStopOperation_cleared _⟩
  obtain ⟨msg, hm⟩ := mapFind_of_mem_keys _ _ ((hiff a).1 ha)
  obtain ⟨_, t, ht'⟩ := hsched _ (mem_of_mapFind _ _ _ hm)
  exact ⟨msg, t, hm, ht'⟩

/-- C21 at node A: Hellos from 2 and 3, the expiry of 2, a Hello from 2 again
and one from 4 leave the neighbors 2, 3, 4 with one scheduled message each. -/
theorem C21_neighbor_presence_witness :
    (applyCalls startAtA [.add 2, .add 3, .remove 2, .add 2, .add 4]).neighbors = [2, 3, 4] ∧
      (3 ∈ (applyCalls startAtA [.add 2, .add 3, .remove 2, .add 2, .add 4]).neighbors ↔
        3 ∈ (applyCalls startAtA
          [.add 2, .add 3, .remove 2, .add 2, .add 4]).neighborTimeouts.map Prod.fst) ∧
      (handleStopOperation (applyCalls startAtA
          [.add 2, .add 3, .remove 2, .add 2, .add 4])).neighborTimeouts = [] :=
  ⟨by decide,
    (C21_neighbor_presence startAtA rfl rfl [.add 2, .add 3, .remove 2, .add 2, .add 4] 3).1,
    (C21_neighbor_presence startAtA rfl rfl
      [.add 2, .add 3, .remove 2, .add 2, .add 4] 3).2.2.2.2.2⟩

/-! ## Lookups in the maps of the shortest-path loops -/

theorem mapIndex_fst_getD {β : Type} (m : List (Nat × β)) (k : Nat) (dflt : β) :
    (mapIndex m k dflt).1 = (mapFind m k).getD dflt := by
  unfold mapIndex
  cases mapFind m k <;> rfl

theorem mapFind_mapIndex_snd {β : Type} (m : List (Nat × β)) (k x : Nat) (dflt : β) :
    mapFind (mapIndex m k dflt).2 x
      = if x = k then some ((mapFind m k).getD dflt) else mapFind m x := by
  unfold mapIndex
  cases h : mapFind m k with
  | none => simp only [mapFind_mapSet, Option.getD_none]
  | some v =>
    simp only [Option.getD_some]
    split
    · rename_i hx; rw [hx, h]
    · rfl

theorem mapFind_initDistances (selfAddress : Nat) :
    ∀ (l : List (Nat × tt_entry_t)) (dist : List (Nat × Nat)) (x : Nat),
      mapFind (initDistances selfAddress l dist) x
        = if x ≠ selfAddress ∧ x ∈ l.map Prod.fst then some UINT32_MAX else mapFind dist x := by
  intro l
  induction l with
  | nil => intro dist x; simp [initDistances]
  | cons e rest ih =>
    intro dist x
    simp only [initDistances]
    split
    · rename_i he
      rw [ih, mapFind_mapSet]
      by_cases hx : x = e.1
      · subst hx
        simp [he]
      · have hiff : x ∈ e.1 :: rest.map Prod.fst ↔ x ∈ rest.map Prod.fst :=
          ⟨fun h => (List.mem_cons.1 h).resolve_left hx, List.mem_cons_of_mem _⟩
        simp only [List.map_cons, hiff, hx, if_false]
    · rename_i he
      have he' : e.1 = selfAddress := by simpa using he
      rw [ih]
      by_cases hx : x = e.1
      · have : ¬ (x ≠ selfAddress) := by simp [hx, he']
        simp [this]
      · have hiff : x ∈ e.1 :: rest.map Prod.fst ↔ x ∈ rest.map Prod.fst :=
          ⟨fun h => (List.mem_cons.1 h).resolve_left hx, List.mem_cons_of_mem _⟩
        simp only [List.map_cons, hiff, hx, if_false]

theorem addDirectNeighbors_lookup :
    ∀ (l : List Nat) (d : Dijkstra),
      (addDirectNeighbors l d).visited = d.visited ∧
      (∀ x, mapFind (addDirectNeighbors l d).dist x
        = if x ∈ l then some 1 else mapFind d.dist x) ∧
      (∀ x, mapFind (addDirectNeighbors l d).prev x
        = if x ∈ l then some x else mapFind d.prev x) := by
  intro l
  induction l with
  | nil => intro d; simp [addDirectNeighbors]
  | cons n rest ih =>
    intro d
    simp only [addDirectNeighbors]
    obtain ⟨h1, h2, h3⟩ := ih { d with dist := mapSet n 1 d.dist, prev := mapSet n n d.prev }
    refine ⟨h1, fun x => ?_, fun x => ?_⟩
    · rw [h2, mapFind_mapSet]
      by_cases hr : x ∈ rest
      · simp [hr]
      · by_cases hx : x = n
        · simp [hx]
        · simp [hr, hx]
    · rw [h3, mapFind_mapSet]
      by_cases hr : x ∈ rest
      · simp [hr]
      · by_cases hx : x = n
        · simp [hx]
        · simp [hr, hx]

theorem keysSorted_addDirectNeighbors :
    ∀ (l : List Nat) (d : Dijkstra), keysSorted d.dist →
      keysSorted (addDirectNeighbors l d).dist := by
  intro l
  induction l with
  | nil => intro d h; exact h
  | cons n rest ih =>
    intro d h
    simp only [addDirectNeighbors]
    exact ih _ (keysSorted_mapSet _ _ _ h)

theorem relaxNeighbor_visited (selfAddress current : Nat) (d : Dijkstra) (neighbor : Nat)
    (hvis : neighbor ∈ d.visited) : relaxNeighbor selfAddress current d neighbor = d := by
  have hc : d.visited.contains neighbor = true := by simpa using hvis
  simp only [relaxNeighbor, hc, not_true_eq_false, if_false]

theorem relaxNeighbor_improve (selfAddress current m : Nat) (d : Dijkstra) (neighbor : Nat)
    (hcur : mapFind d.dist current = some m) (hm : m < UINT32_MAX)
    (hvis : neighbor ∉ d.visited) (hlt : m + 1 < (mapFind d.dist neighbor).getD 0) :
    relaxNeighbor selfAddress current d neighbor
      = { d with
          dist := mapSet neighbor (m + 1) (mapIndex d.dist neighbor 0).2
          prev := if current = selfAddress then mapSet neighbor neighbor d.prev
            else mapSet neighbor ((mapFind d.prev current).getD 0)
              (mapIndex d.prev current 0).2 } := by
  have h1 : mapIndex d.dist current 0 = (m, d.dist) := by
    unfold mapIndex; rw [hcur]
  have hnew : (m + 1) % 2 ^ 32 = m + 1 := by
    apply Nat.mod_eq_of_lt
    simp only [UINT32_MAX] at hm
    omega
  have hc : d.visited.contains neighbor = false := by simpa using hvis
  simp only [relaxNeighbor, hc, Bool.false_eq_true, not_false_eq_true, if_true, h1, hnew,
    mapIndex_fst_getD, hlt]
  split <;> rfl

theorem relaxNeighbor_keep (selfAddress current m : Nat) (d : Dijkstra) (neighbor : Nat)
    (hcur : mapFind d.dist current = some m) (hm : m < UINT32_MAX)
    (hvis : neighbor ∉ d.visited) (hlt : ¬ m + 1 < (mapFind d.dist neighbor).getD 0) :
    relaxNeighbor selfAddress current d neighbor
      = { d with dist := (mapIndex d.dist neighbor 0).2 } := by
  have h1 : mapIndex d.dist current 0 = (m, d.dist) := by
    unfold mapIndex; rw [hcur]
  have hnew : (m + 1) % 2 ^ 32 = m + 1 := by
    apply Nat.mod_eq_of_lt
    simp only [UINT32_MAX] at hm
    omega
  have hc : d.visited.contains neighbor = false := by simpa using hvis
  simp only [relaxNeighbor, hc, Bool.false_eq_true, not_false_eq_true, if_true, h1, hnew,
    mapIndex_fst_getD, hlt, if_false]

/-- What one relaxation does to the lookups, `current` being at distance `m`. -/
theorem relaxNeighbor_lookup (selfAddress current m : Nat) (d : Dijkstra) (neighbor : Nat)
    (hcur : mapFind d.dist current = some m) (hm : m < UINT32_MAX) :
    (relaxNeighbor selfAddress current d neighbor).visited = d.visited ∧
      (keysSorted d.dist → keysSorted (relaxNeighbor selfAddress current d neighbor).dist) ∧
      ((neighbor ∈ d.visited ∧ relaxNeighbor selfAddress current d neighbor = d) ∨
        (neighbor ∉ d.visited ∧ m + 1 < (mapFind d.dist neighbor).getD 0 ∧
          (∀ x, mapFind (relaxNeighbor selfAddress current d neighbor).dist x
            = if x = neighbor then some (m + 1) else mapFind d.dist x) ∧
          (∀ x, mapFind (relaxNeighbor selfAddress current d neighbor).prev x
            = if x = neighbor then
                some (if current = selfAddress then neighbor
                  else (mapFind d.prev current).getD 0)
              else if x = current ∧ current ≠ selfAddress then
                some ((mapFind d.prev current).getD 0)
              else mapFind d.prev x)) ∨
        (neighbor ∉ d.visited ∧ ¬ m + 1 < (mapFind d.dist neighbor).getD 0 ∧
          (∀ x, mapFind (relaxNeighbor selfAddress current d neighbor).dist x
            = if x = neighbor then some ((mapFind d.dist neighbor).getD 0)
              else mapFind d.dist x) ∧
          (relaxNeighbor selfAddress current d neighbor).prev = d.prev)) := by
  by_cases hvis : neighbor ∈ d.visited
  · rw [relaxNeighbor_visited _ _ _ _ hvis]
    exact ⟨rfl, fun h => h, Or.inl ⟨hvis, rfl⟩⟩
  · by_cases hlt : m + 1 < (mapFind d.dist neighbor).getD 0
    · rw [relaxNeighbor_improve _ _ _ _ _ hcur hm hvis hlt]
      refine ⟨rfl, fun h => keysSorted_mapSet _ _ _ (mapIndex_sorted _ _ _ h),
        Or.inr (Or.inl ⟨hvis, hlt, fun x => ?_, fun x => ?_⟩)⟩
      · show mapFind (mapSet neighbor (m + 1) (mapIndex d.dist neighbor 0).2) x = _
        rw [mapFind_mapSet, mapFind_mapIndex_snd]
        by_cases hx : x = neighbor <;> simp [hx]
      · by_cases hs : current = selfAddress
        · show mapFind (if current = selfAddress then mapSet neighbor neighbor d.prev
            else mapSet neighbor ((mapFind d.prev current).getD 0)
              (mapIndex d.prev current 0).2) x = _
          rw [if_pos hs, mapFind_mapSet]
          by_cases hx : x = neighbor <;> simp [hx, hs]
        · show mapFind (if current = selfAddress then mapSet neighbor neighbor d.prev
            else mapSet neighbor ((mapFind d.prev current).getD 0)
              (mapIndex d.prev current 0).2) x = _
          rw [if_neg hs, mapFind_mapSet, mapFind_mapIndex_snd]
          by_cases hx : x = neighbor
          · simp [hx, hs]
          · by_cases hx2 : x = current <;> simp [hx, hx2, hs]
    · rw [relaxNeighbor_keep _ _ _ _ _ hcur hm hvis hlt]
      refine ⟨rfl, fun h => mapIndex_sorted _ _ _ h,
        Or.inr (Or.inr ⟨hvis, hlt, fun x => ?_, rfl⟩)⟩
      show mapFind (mapIndex d.dist neighbor 0).2 x = _
      rw [mapFind_mapIndex_snd]

/-! ## One relaxation keeps the invariant -/

theorem hops_first {selfAddress : Nat} {tt : List (Nat × tt_entry_t)} {ns : List Nat}
    {n k v : Nat} (h : Hops selfAddress tt ns n k v) :
    Link selfAddress tt ns selfAddress n := by
  induction h with
  | first hl => exact hl
  | next _ _ ih => exact ih

theorem core_relaxNeighbor (selfAddress : Nat) (tt : List (Nat × tt_entry_t)) (ns : List Nat)
    (current m : Nat) (d : Dijkstra) (neighbor : Nat)
    (hc : Core selfAddress tt ns m d)
    (hcur : mapFind d.dist current = some m) (hm : m < UINT32_MAX)
    (hlink : Link selfAddress tt ns current neighbor)
    (hpos : current ≠ selfAddress → 1 ≤ m) :
    Core selfAddress tt ns m (relaxNeighbor selfAddress current d neighbor) ∧
      (relaxNeighbor selfAddress current d neighbor).visited = d.visited ∧
      (∀ x ∈ d.visited,
        mapFind (relaxNeighbor selfAddress current d neighbor).dist x = mapFind d.dist x) ∧
      (∀ x c, mapFind d.dist x = some c →
        ∃ c', mapFind (relaxNeighbor selfAddress current d neighbor).dist x = some c' ∧
          c' ≤ c) ∧
      (∃ c', mapFind (relaxNeighbor selfAddress current d neighbor).dist neighbor = some c' ∧
        c' ≤ m + 1) := by
  obtain ⟨hv, hsort, hcases⟩ := relaxNeighbor_lookup selfAddress current m d neighbor hcur hm
  rcases hcases with ⟨hnv, heq⟩ | ⟨hnv, hlt, hd, hp⟩ | ⟨hnv, hlt, hd, hp⟩
  · rw [heq]
    obtain ⟨c, h1, h2⟩ := hc.visitedLe neighbor hnv
    exact ⟨hc, rfl, fun _ _ => rfl, fun x c hx => ⟨c, hx, Nat.le_refl _⟩,
      c, h1, Nat.le_succ_of_le h2⟩
  · -- the distance of `neighbor` improves to `m + 1`
    obtain ⟨c0, hc0, hc0lt⟩ : ∃ c0, mapFind d.dist neighbor = some c0 ∧ m + 1 < c0 := by
      cases hdv : mapFind d.dist neighbor with
      | none => rw [hdv] at hlt; simp at hlt
      | some c0 => rw [hdv] at hlt; exact ⟨c0, rfl, by simpa using hlt⟩
    have hc0max : c0 ≤ UINT32_MAX := hc.bounded _ _ hc0
    have hne_self : neighbor ≠ selfAddress := by
      rintro rfl
      rw [hc.selfZero] at hc0
      simp only [Option.some.injEq] at hc0
      omega
    obtain ⟨p, hp', hhops⟩ : ∃ p, (∀ x, mapFind
          (relaxNeighbor selfAddress current d neighbor).prev x
            = if x = neighbor then some p else mapFind d.prev x) ∧
        Hops selfAddress tt ns p (m + 1) neighbor := by
      by_cases hs : current = selfAddress
      · refine ⟨neighbor, fun x => ?_, ?_⟩
        · rw [hp]
          by_cases hx : x = neighbor
          · simp [hx, hs]
          · simp [hx, hs]
        · have hm0 : m = 0 := by
            rw [hs, hc.selfZero] at hcur
            simp only [Option.some.injEq] at hcur
            exact hcur.symm
          rw [hm0]
          exact Hops.first (hs ▸ hlink)
      · obtain ⟨n, hn⟩ := hc.hasPrev current m hcur (hpos hs) hm
        refine ⟨n, fun x => ?_, ?_⟩
        · rw [hp, hn]
          by_cases hx : x = neighbor
          · simp [hx, hs]
          · by_cases hx2 : x = current
            · simp [hx, hx2, hs, hn]
            · simp [hx, hx2]
        · obtain ⟨k, hk, _, _, hh⟩ := hc.sound current n hn
          rw [hcur] at hk
          simp only [Option.some.injEq] at hk
          subst hk
          exact Hops.next hh hlink
    have hdne : ∀ x, x ≠ neighbor →
        mapFind (relaxNeighbor selfAddress current d neighbor).dist x = mapFind d.dist x := by
      intro x hx
      rw [hd, if_neg hx]
    have hdn : mapFind (relaxNeighbor selfAddress current d neighbor).dist neighbor
        = some (m + 1) := by
      rw [hd, if_pos rfl]
    have hpne : ∀ x, x ≠ neighbor →
        mapFind (relaxNeighbor selfAddress current d neighbor).prev x = mapFind d.prev x := by
      intro x hx
      rw [hp', if_neg hx]
    have hpn : mapFind (relaxNeighbor selfAddress current d neighbor).prev neighbor = some p := by
      rw [hp', if_pos rfl]
    refine ⟨⟨hsort hc.sorted, ?_, ?_, ?_, ?_, ?_, ?_, ?_, ?_, ?_, ?_⟩, hv, ?_, ?_, ?_⟩
    · rw [hdne _ (Ne.symm hne_self)]
      exact hc.selfZero
    · intro x c hx
      by_cases hxn : x = neighbor
      · subst hxn
        rw [hdn] at hx
        simp only [Option.some.injEq] at hx
        omega
      · rw [hdne x hxn] at hx
        exact hc.bounded x c hx
    · intro x n hx
      by_cases hxn : x = neighbor
      · subst hxn
        rw [hpn] at hx
        simp only [Option.some.injEq] at hx
        subst hx
        exact ⟨m + 1, hdn, by omega, by omega, hhops⟩
      · rw [hpne x hxn] at hx
        rw [hdne x hxn]
        exact hc.sound x n hx
    · intro x k hx hk1 hk2
      by_cases hxn : x = neighbor
      · subst hxn
        exact ⟨p, hpn⟩
      · rw [hdne x hxn] at hx
        rw [hpne x hxn]
        exact hc.hasPrev x k hx hk1 hk2
    · intro x hx hxs
      by_cases hxn : x = neighbor
      · subst hxn
        rw [hdn] at hx
        simp only [Option.some.injEq] at hx
        omega
      · rw [hdne x hxn] at hx
        exact hc.inserted x hx hxs
    · intro x entry hx
      by_cases hxn : x = neighbor
      · subst hxn
        exact ⟨_, hdn⟩
      · rw [hdne x hxn]
        exact hc.keys x entry hx
    · intro x hx
      rw [hv] at hx
      have hxn : x ≠ neighbor := fun h => hnv (h ▸ hx)
      rw [hdne x hxn]
      exact hc.visitedLe x hx
    · intro x c hx hxv
      rw [hv] at hxv
      by_cases hxn : x = neighbor
      · subst hxn
        rw [hdn] at hx
        simp only [Option.some.injEq] at hx
        right
        omega
      · rw [hdne x hxn] at hx
        exact hc.unvisitedGe x c hx hxv
    · intro x c hx hcm
      by_cases hxn : x = neighbor
      · subst hxn
        rw [hdn] at hx
        simp only [Option.some.injEq] at hx
        omega
      · rw [hdne x hxn] at hx
        exact hc.finiteLe x c hx hcm
    · intro v hvn
      by_cases hxn : v = neighbor
      · subst hxn
        obtain ⟨c', h1, h2⟩ := hc.seeded v hvn
        rw [hc0] at h1
        simp only [Option.some.injEq] at h1
        omega
      · rw [hdne v hxn]
        exact hc.seeded v hvn
    · intro x hx
      exact hdne x (fun h => hnv (h ▸ hx))
    · intro x c hx
      by_cases hxn : x = neighbor
      · subst hxn
        rw [hc0] at hx
        simp only [Option.some.injEq] at hx
        exact ⟨m + 1, hdn, by omega⟩
      · rw [hdne x hxn]
        exact ⟨c, hx, Nat.le_refl _⟩
    · exact ⟨m + 1, hdn, Nat.le_refl _⟩
  · -- the distance of `neighbor` stays; an absent `neighbor` is inserted with 0
    have hkeep : ∀ x c, mapFind d.dist x = some c →
        mapFind (relaxNeighbor selfAddress current d neighbor).dist x = some c := by
      intro x c hx
      rw [hd]
      by_cases hxn : x = neighbor
      · subst hxn
        rw [if_pos rfl, hx]
        rfl
      · rw [if_neg hxn]
        exact hx
    have hback : ∀ x c, mapFind (relaxNeighbor selfAddress current d neighbor).dist x = some c →
        mapFind d.dist x = some c ∨ (x = neighbor ∧ c = 0 ∧ mapFind d.dist neighbor = none) := by
      intro x c hx
      rw [hd] at hx
      by_cases hxn : x = neighbor
      · subst hxn
        rw [if_pos rfl] at hx
        cases hdv : mapFind d.dist x with
        | none =>
          rw [hdv] at hx
          simp only [Option.getD_none, Option.some.injEq] at hx
          exact Or.inr ⟨rfl, hx.symm, rfl⟩
        | some c0 =>
          rw [hdv] at hx
          simp only [Option.getD_some] at hx
          exact Or.inl hx
      · rw [if_neg hxn] at hx
        exact Or.inl hx
    have hlast : ∃ c', mapFind (relaxNeighbor selfAddress current d neighbor).dist neighbor
        = some c' ∧ c' ≤ m + 1 := by
      refine ⟨(mapFind d.dist neighbor).getD 0, ?_, by omega⟩
      rw [hd, if_pos rfl]
    refine ⟨⟨hsort hc.sorted, hkeep _ _ hc.selfZero, ?_, ?_, ?_, ?_, ?_, ?_, ?_, ?_, ?_⟩,
      hv, ?_, fun x c hx => ⟨c, hkeep x c hx, Nat.le_refl _⟩, hlast⟩
    · intro x c hx
      rcases hback x c hx with h | ⟨_, h, _⟩
      · exact hc.bounded x c h
      · omega
    · intro x n hx
      rw [hp] at hx
      obtain ⟨k, h1, h2, h3, h4⟩ := hc.sound x n hx
      exact ⟨k, hkeep x k h1, h2, h3, h4⟩
    · intro x k hx hk1 hk2
      rw [hp]
      rcases hback x k hx with h | ⟨_, h, _⟩
      · exact hc.hasPrev x k h hk1 hk2
      · omega
    · intro x hx hxs
      rcases hback x 0 hx with h | ⟨hxn, _, hnone⟩
      · exact hc.inserted x h hxs
      · cases ht : mapFind tt x with
        | none => rfl
        | some entry =>
          obtain ⟨c, hcx⟩ := hc.keys x entry ht
          rw [hxn, hnone] at hcx
          exact Option.noConfusion hcx
    · intro x entry hx
      obtain ⟨c, hcx⟩ := hc.keys x entry hx
      exact ⟨c, hkeep x c hcx⟩
    · intro x hx
      rw [hv] at hx
      obtain ⟨c, h1, h2⟩ := hc.visitedLe x hx
      exact ⟨c, hkeep x c h1, h2⟩
    · intro x c hx hxv
      rw [hv] at hxv
      rcases hback x c hx with h | ⟨_, h, _⟩
      · exact hc.unvisitedGe x c h hxv
      · exact Or.inl h
    · intro x c hx hcm
      rcases hback x c hx with h | ⟨_, h, _⟩
      · exact hc.finiteLe x c h hcm
      · omega
    · intro v hvn
      obtain ⟨c', h1, h2⟩ := hc.seeded v hvn
      exact ⟨c', hkeep v c' h1, h2⟩
    · intro x hx
      obtain ⟨c, h1, _⟩ := hc.visitedLe x hx
      rw [hkeep x c h1, h1]

theorem core_foldl (selfAddress : Nat) (tt : List (Nat × tt_entry_t)) (ns : List Nat)
    (current m : Nat) (hm : m < UINT32_MAX) (hpos : current ≠ selfAddress → 1 ≤ m)
    (ls : List Nat) :
    ∀ d, Core selfAddress tt ns m d → current ∈ d.visited →
      mapFind d.dist current = some m →
      (∀ v ∈ ls, Link selfAddress tt ns current v) →
      Core selfAddress tt ns m (ls.foldl (relaxNeighbor selfAddress current) d) ∧
        (ls.foldl (relaxNeighbor selfAddress current) d).visited = d.visited ∧
        (∀ x ∈ d.visited,
          mapFind (ls.foldl (relaxNeighbor selfAddress current) d).dist x = mapFind d.dist x) ∧
        (∀ x c, mapFind d.dist x = some c →
          ∃ c', mapFind (ls.foldl (relaxNeighbor selfAddress current) d).dist x = some c' ∧
            c' ≤ c) ∧
        (∀ v ∈ ls,
          ∃ c', mapFind (ls.foldl (relaxNeighbor selfAddress current) d).dist v = some c' ∧
            c' ≤ m + 1) := by
  induction ls with
  | nil =>
    intro d hc _ _ _
    exact ⟨hc, rfl, fun _ _ => rfl, fun x c hx => ⟨c, hx, Nat.le_refl _⟩, by simp⟩
  | cons w rest ih =>
    intro d hc hvis hcur hl
    obtain ⟨h1, h2, h3, h4, h5⟩ := core_relaxNeighbor selfAddress tt ns current m d w hc hcur hm
      (hl w (List.mem_cons_self _ _)) hpos
    have hcur1 : mapFind (relaxNeighbor selfAddress current d w).dist current = some m := by
      rw [h3 current hvis]; exact hcur
    obtain ⟨k1, k2, k3, k4, k5⟩ := ih _ h1 (by rw [h2]; exact hvis) hcur1
      (fun v hv => hl v (List.mem_cons_of_mem _ hv))
    simp only [List.foldl_cons]
    refine ⟨k1, k2.trans h2, fun x hx => ?_, fun x c hx => ?_, fun v hv => ?_⟩
    · rw [k3 x (by rw [h2]; exact hx), h3 x hx]
    · obtain ⟨c1, hc1, hle1⟩ := h4 x c hx
      obtain ⟨c2, hc2, hle2⟩ := k4 x c1 hc1
      exact ⟨c2, hc2, Nat.le_trans hle2 hle1⟩
    · rcases List.mem_cons.1 hv with rfl | hv
      · obtain ⟨c1, hc1, hle1⟩ := h5
        obtain ⟨c2, hc2, hle2⟩ := k4 _ c1 hc1
        exact ⟨c2, hc2, Nat.le_trans hle2 hle1⟩
      · exact k5 v hv

/-- The pair `findMin` ends with: it is the accumulator it started from, or an
unvisited pair of `dist`; either way its distance is a lower bound of the
distances of all unvisited pairs and of the accumulator. -/
theorem findMin_min (visited : List Nat) (l : List (Nat × Nat)) :
    ∀ acc : Nat × Nat × Bool,
      (findMin visited l acc = acc ∨
        ((findMin visited l acc).2.2 = true ∧
          ((findMin visited l acc).1, (findMin visited l acc).2.1) ∈ l ∧
          (findMin visited l acc).1 ∉ visited)) ∧
      (findMin visited l acc).2.1 ≤ acc.2.1 ∧
      ∀ e ∈ l, e.1 ∉ visited → (findMin visited l acc).2.1 ≤ e.2 := by
  induction l with
  | nil => intro acc; exact ⟨Or.inl rfl, Nat.le_refl _, by simp⟩
  | cons e rest ih =>
    intro acc
    obtain ⟨current, minDist, found⟩ := acc
    simp only [findMin]
    split
    · rename_i hcond
      obtain ⟨hnv, hlt⟩ := hcond
      have hnv' : e.1 ∉ visited := by simpa using hnv
      obtain ⟨h1, h2, h3⟩ := ih (e.1, e.2, true)
      refine ⟨Or.inr ?_, by simp only at h2 ⊢; omega, fun f hf hfv => ?_⟩
      · rcases h1 with h1 | ⟨h1, h1', h1''⟩
        · rw [h1]
          exact ⟨rfl, List.mem_cons_self _ _, hnv'⟩
        · exact ⟨h1, List.mem_cons_of_mem _ h1', h1''⟩
      · rcases List.mem_cons.1 hf with rfl | hf
        · exact h2
        · exact h3 f hf hfv
    · rename_i hcond
      obtain ⟨h1, h2, h3⟩ := ih (current, minDist, found)
      refine ⟨?_, h2, fun f hf hfv => ?_⟩
      · rcases h1 with h1 | ⟨h1, h1', h1''⟩
        · exact Or.inl h1
        · exact Or.inr ⟨h1, List.mem_cons_of_mem _ h1', h1''⟩
      · rcases List.mem_cons.1 hf with rfl | hf
        · have hfv' : ¬ visited.contains f.1 = true := by simpa using hfv
          have : ¬ f.2 < minDist := fun hlt => hcond ⟨hfv', hlt⟩
          simp only at h2
          omega
        · exact h3 f hf hfv

/-! ## One pass of the main loop keeps the invariant -/

theorem core_mark (selfAddress : Nat) (tt : List (Nat × tt_entry_t)) (ns : List Nat)
    (level : Nat) (d : Dijkstra) (current m : Nat)
    (hc : Core selfAddress tt ns level d)
    (hcur : mapFind d.dist current = some m)
    (hmin : ∀ x c, mapFind d.dist x = some c → x ∉ d.visited → m ≤ c) :
    Core selfAddress tt ns (max level m)
      { d with visited := setInsert current d.visited } := by
  refine ⟨hc.sorted, hc.selfZero, hc.bounded, hc.sound, hc.hasPrev, hc.inserted, hc.keys,
    ?_, ?_, ?_, hc.seeded⟩
  · intro x hx
    rcases (mem_setInsert _ _ _).1 hx with rfl | hx
    · exact ⟨m, hcur, Nat.le_max_right _ _⟩
    · obtain ⟨c, h1, h2⟩ := hc.visitedLe x hx
      exact ⟨c, h1, Nat.le_trans h2 (Nat.le_max_left _ _)⟩
  · intro x c hx hxv
    have hxv' : x ∉ d.visited := fun h => hxv ((mem_setInsert _ _ _).2 (Or.inr h))
    rcases hc.unvisitedGe x c hx hxv' with h | h
    · exact Or.inl h
    · exact Or.inr (Nat.max_le.2 ⟨h, hmin x c hx hxv'⟩)
  · intro x c hx hcm
    have := hc.finiteLe x c hx hcm
    have := Nat.le_max_left level m
    omega

theorem bfs_visit (selfAddress : Nat) (tt : List (Nat × tt_entry_t)) (ns : List Nat)
    (level : Nat) (d : Dijkstra) (current m : Nat)
    (hb : Bfs selfAddress tt ns level d) (hnv : current ∉ d.visited)
    (hcur : mapFind d.dist current = some m) (hm : m < UINT32_MAX)
    (hmin : ∀ x c, mapFind d.dist x = some c → x ∉ d.visited → m ≤ c) :
    ∃ level', Bfs selfAddress tt ns level' (visit selfAddress tt d current) := by
  have hmark := core_mark selfAddress tt ns level d current m hb.core hcur hmin
  have hself0 := hb.core.selfZero
  unfold visit
  cases ht : mapFind tt current with
  | none =>
    refine ⟨max level m, hmark, ?_, ?_, ?_⟩
    · intro u hu v hl
      rcases (mem_setInsert _ _ _).1 hu with rfl | hu
      · rcases hl with ⟨hus, hvn⟩ | hl
        · obtain ⟨c', h1, h2⟩ := hb.core.seeded v hvn
          exact ⟨0, c', hus ▸ hself0, h1, by omega⟩
        · simp [linksOf, ht] at hl
      · exact hb.relaxed u hu v hl
    · intro hs
      have hs' : selfAddress ∉ d.visited := fun h => hs ((mem_setInsert _ _ _).2 (Or.inr h))
      have h0 := hb.selfFirst hs'
      have hm0 := hmin selfAddress 0 hself0 hs'
      simp only [h0]
      omega
    · have := hb.levelFinite
      exact Nat.max_lt.2 ⟨this, hm⟩
  | some entry =>
    have hpos : current ≠ selfAddress → 1 ≤ m := by
      intro hne
      by_contra h0
      have hm0 : m = 0 := by omega
      rw [hm0] at hcur
      have := hb.core.inserted current hcur hne
      rw [ht] at this
      exact Option.noConfusion this
    have hle : level ≤ m := by
      by_cases hs : current = selfAddress
      · rw [hb.selfFirst (hs ▸ hnv)]
        exact Nat.zero_le _
      · rcases hb.core.unvisitedGe current m hcur hnv with h | h
        · have := hpos hs
          omega
        · exact h
    have hselfv : selfAddress ∈ setInsert current d.visited := by
      by_cases hs : current = selfAddress
      · exact (mem_setInsert _ _ _).2 (Or.inl hs.symm)
      · by_contra hsv
        have hs' : selfAddress ∉ d.visited :=
          fun h => hsv ((mem_setInsert _ _ _).2 (Or.inr h))
        have := hmin selfAddress 0 hself0 hs'
        have := hpos hs
        omega
    rw [Nat.max_eq_right hle] at hmark
    have hcv : current ∈ setInsert current d.visited := (mem_setInsert _ _ _).2 (Or.inl rfl)
    have hls : ∀ v ∈ entry.ls, Link selfAddress tt ns current v := by
      intro v hv
      right
      simp only [linksOf, ht]
      exact hv
    obtain ⟨k1, k2, k3, k4, k5⟩ := core_foldl selfAddress tt ns current m hm hpos entry.ls
      { d with visited := setInsert current d.visited } hmark hcv hcur hls
    refine ⟨m, k1, ?_, ?_, hm⟩
    · intro u hu v hl
      rw [k2] at hu
      have hdu := k3 u hu
      rcases (mem_setInsert _ _ _).1 hu with rfl | hu'
      · rcases hl with ⟨_, hvn⟩ | hl
        · obtain ⟨c', h1, h2⟩ := k1.seeded v hvn
          exact ⟨m, c', by rw [hdu]; exact hcur, h1, by omega⟩
        · simp only [linksOf, ht] at hl
          obtain ⟨c', h1, h2⟩ := k5 v hl
          exact ⟨m, c', by rw [hdu]; exact hcur, h1, h2⟩
      · obtain ⟨c, c', h1, h2, h3⟩ := hb.relaxed u hu' v hl
        obtain ⟨c'', h4, h5⟩ := k4 v c' h2
        exact ⟨c, c'', by rw [hdu]; exact h1, h4, by omega⟩
    · intro hs
      rw [k2] at hs
      exact absurd hselfv hs

theorem bfs_dijkstraLoop (selfAddress : Nat) (tt : List (Nat × tt_entry_t)) (ns : List Nat) :
    ∀ (fuel : Nat) (d : Dijkstra) (level : Nat), Bfs selfAddress tt ns level d →
      ∃ level', Bfs selfAddress tt ns level' (dijkstraLoop selfAddress tt fuel d) := by
  intro fuel
  induction fuel with
  | zero => intro d level h; exact ⟨level, h⟩
  | succ fuel ih =>
    intro d level h
    simp only [dijkstraLoop]
    split
    · split
      · exact ⟨level, h⟩
      · rename_i hgo
        simp only [Bool.or_eq_true, Bool.not_eq_true', decide_eq_true_eq, not_or,
          Bool.not_eq_false] at hgo
        obtain ⟨h1, h2, h3⟩ := findMin_min d.visited d.dist (0, UINT32_MAX, false)
        rcases h1 with hbad | ⟨_, hmem, hnv⟩
        · rw [hbad] at hgo
          exact absurd hgo.1 (by simp)
        · have hcur := mapFind_of_mem d.dist h.core.sorted _ _ hmem
          have hlt : (findMin d.visited d.dist (0, UINT32_MAX, false)).2.1 < UINT32_MAX := by
            simp only at h2
            exact Nat.lt_of_le_of_ne h2 hgo.2
          obtain ⟨level1, hb1⟩ := bfs_visit selfAddress tt ns level d _ _ h hnv hcur hlt
            (fun x c hx hxv => h3 (x, c) (mem_of_mapFind _ _ _ hx) hxv)
          exact ih _ level1 hb1
    · exact ⟨level, h⟩

/-! ## The invariant holds when `updateRoutes(prev)` is called -/

theorem bfs_initial (st : FsrState) (hself : st.selfAddress ∉ st.neighbors) :
    Bfs st.selfAddress st.topologyTable st.neighbors 0
      (addDirectNeighbors st.neighbors
        ⟨initDistances st.selfAddress st.topologyTable (mapSet st.selfAddress 0 []), [], []⟩) := by
  obtain ⟨hv, hd, hp⟩ := addDirectNeighbors_lookup st.neighbors
    ⟨initDistances st.selfAddress st.topologyTable (mapSet st.selfAddress 0 []), [], []⟩
  have hd' : ∀ x, mapFind (addDirectNeighbors st.neighbors
      ⟨initDistances st.selfAddress st.topologyTable (mapSet st.selfAddress 0 []), [],
        []⟩).dist x
      = if x ∈ st.neighbors then some 1
        else if x ≠ st.selfAddress ∧ x ∈ st.topologyTable.map Prod.fst then some UINT32_MAX
        else if x = st.selfAddress then some 0 else none := by
    intro x
    rw [hd]
    simp only [mapFind_initDistances, mapFind_mapSet]
    simp only [mapFind]
  have hp' : ∀ x, mapFind (addDirectNeighbors st.neighbors
      ⟨initDistances st.selfAddress st.topologyTable (mapSet st.selfAddress 0 []), [],
        []⟩).prev x
      = if x ∈ st.neighbors then some x else none := by
    intro x
    rw [hp]
    simp only [mapFind]
  have hvis : ∀ x, x ∉ (addDirectNeighbors st.neighbors
      ⟨initDistances st.selfAddress st.topologyTable (mapSet st.selfAddress 0 []), [],
        []⟩).visited := by
    intro x
    rw [hv]
    simp
  have hmax : (1 : Nat) < UINT32_MAX := by simp [UINT32_MAX]
  refine ⟨⟨?_, ?_, ?_, ?_, ?_, ?_, ?_, ?_, ?_, ?_, ?_⟩, ?_, fun _ => rfl, by simp [UINT32_MAX]⟩
  · exact keysSorted_addDirectNeighbors _ _
      (keysSorted_initDistances _ _ _ (keysSorted_mapSet _ _ _ (by simp [keysSorted])))
  · rw [hd', if_neg hself, if_neg (fun h => h.1 rfl), if_pos rfl]
  · intro x c hx
    rw [hd'] at hx
    split at hx
    · simp only [Option.some.injEq] at hx; omega
    · split at hx
      · simp only [Option.some.injEq] at hx; omega
      · split at hx
        · simp only [Option.some.injEq] at hx; omega
        · exact Option.noConfusion hx
  · intro x n hx
    rw [hp'] at hx
    split at hx
    · rename_i hxn
      simp only [Option.some.injEq] at hx
      subst hx
      exact ⟨1, by rw [hd', if_pos hxn], Nat.le_refl _, hmax, Hops.first (Or.inl ⟨rfl, hxn⟩)⟩
    · exact Option.noConfusion hx
  · intro x k hx hk1 hk2
    rw [hd'] at hx
    rw [hp']
    split at hx
    · rename_i hxn
      exact ⟨x, by rw [if_pos hxn]⟩
    · split at hx
      · simp only [Option.some.injEq] at hx; omega
      · split at hx
        · simp only [Option.some.injEq] at hx; omega
        · exact Option.noConfusion hx
  · intro x hx hxs
    rw [hd'] at hx
    split at hx
    · simp only [Option.some.injEq] at hx; omega
    · split at hx
      · simp only [Option.some.injEq, UINT32_MAX] at hx; omega
      · exact Option.noConfusion hx
  · intro x entry hx
    have hk := mem_keys_of_mapFind _ _ _ hx
    rw [hd']
    by_cases h1 : x ∈ st.neighbors
    · exact ⟨1, by rw [if_pos h1]⟩
    · by_cases h2 : x = st.selfAddress
      · exact ⟨0, by rw [if_neg h1, if_neg (fun h => h.1 h2), if_pos h2]⟩
      · exact ⟨UINT32_MAX, by rw [if_neg h1, if_pos ⟨h2, hk⟩]⟩
  · intro x hx
    exact absurd hx (hvis x)
  · intro x c _ _
    exact Or.inr (Nat.zero_le _)
  · intro x c hx hcm
    rw [hd'] at hx
    split at hx
    · simp only [Option.some.injEq] at hx; omega
    · split at hx
      · simp only [Option.some.injEq] at hx; omega
      · split at hx
        · simp only [Option.some.injEq] at hx; omega
        · exact Option.noConfusion hx
  · intro v hvn
    exact ⟨1, by rw [hd', if_pos hvn], Nat.le_refl _⟩
  · intro u hu
    exact absurd hu (hvis u)

theorem bfs_shortestPaths (st : FsrState) (hself : st.selfAddress ∉ st.neighbors) :
    ∃ level, Bfs st.selfAddress st.topologyTable st.neighbors level (shortestPaths st) := by
  unfold shortestPaths
  exact bfs_dijkstraLoop _ _ _ _ _ 0 (bfs_initial st hself)

theorem walk_bound {selfAddress : Nat} {tt : List (Nat × tt_entry_t)} {ns : List Nat}
    {level : Nat} {d : Dijkstra} (hb : Bfs selfAddress tt ns level d) {j x : Nat}
    (hw : Walk selfAddress tt ns j x) :
    j ≤ level → ∃ c, mapFind d.dist x = some c ∧ c ≤ j := by
  induction hw with
  | start => intro _; exact ⟨0, hb.core.selfZero, Nat.le_refl _⟩
  | @next k u v _ hl ih =>
    intro hj
    obtain ⟨c, hc, hck⟩ := ih (by omega)
    have hu : u ∈ d.visited := by
      by_contra hnu
      rcases hb.core.unvisitedGe u c hc hnu with h0 | hge
      · by_cases hus : u = selfAddress
        · have := hb.selfFirst (hus ▸ hnu)
          omega
        · have hnone := hb.core.inserted u (h0 ▸ hc) hus
          rcases hl with ⟨h, _⟩ | h
          · exact hus h
          · simp [linksOf, hnone] at h
      · omega
    obtain ⟨c1, c', h1, h2, h3⟩ := hb.relaxed u hu v hl
    rw [hc] at h1
    simp only [Option.some.injEq] at h1
    exact ⟨c', h2, by omega⟩

theorem bfs_shortest {selfAddress : Nat} {tt : List (Nat × tt_entry_t)} {ns : List Nat}
    {level : Nat} {d : Dijkstra} (hb : Bfs selfAddress tt ns level d) (x n : Nat)
    (hp : mapFind d.prev x = some n) :
    ∃ k, mapFind d.dist x = some k ∧ Hops selfAddress tt ns n k x ∧
      ∀ j, Walk selfAddress tt ns j x → k ≤ j := by
  obtain ⟨k, hk, _, hk2, hh⟩ := hb.core.sound x n hp
  refine ⟨k, hk, hh, fun j hw => ?_⟩
  by_cases hj : j ≤ level
  · obtain ⟨c, hc, hcj⟩ := walk_bound hb hw hj
    rw [hk] at hc
    simp only [Option.some.injEq] at hc
    omega
  · have := hb.core.finiteLe x k hk hk2
    omega

theorem mapFind_prev_of_route (st : FsrState) (r : Ipv4Route)
    (hr : r ∈ routesOf (calculateShortestPath st)) (hm : r.sourceType = SourceType.MANET) :
    mapFind (shortestPaths st).prev r.destination = some r.nextHop := by
  rcases mem_calculateShortestPath st r hr with ⟨hmem, h | h⟩ | ⟨e, he, _, _, h1, h2, _⟩
  · simp [routesOf, h] at hmem
  · exact absurd hm h
  · rw [h1, h2]
    exact mapFind_of_mem _ (seeded_shortestPaths st).2.1 _ _ he

/-! ## Self never becomes its own neighbor -/

theorem mem_neighbors_of_addNeighbor (st : FsrState) (a x : Nat)
    (h : x ∈ (addNeighbor st a).neighbors) : x = a ∨ x ∈ st.neighbors := by
  by_cases hc : a ∈ st.neighbors
  · rw [addNeighbor_neighbors_of_mem st a hc] at h
    exact Or.inr h
  · rw [addNeighbor_absent st a hc] at h
    exact (mem_setInsert _ _ _).1 h

theorem processLSP_neighbors (st : FsrState) (packet : FsrPacket) (sourceAddr : Nat) :
    (processLSP st packet sourceAddr).neighbors = st.neighbors := by
  cases hs : isStale st packet with
  | true => rw [processLSP_stale st packet sourceAddr hs]
  | false =>
    rw [processLSP_fresh st packet sourceAddr hs]
    split
    · simp only [sendFsrPacketHelper, calculateShortestPath_neighbors]; rfl
    · simp only [calculateShortestPath_neighbors]; rfl

theorem step_self_not_neighbor (kinds : PacketKinds) (st : FsrState) (ev : Event)
    (h : st.selfAddress ∉ st.neighbors) :
    (step kinds st ev).selfAddress ∉ (step kinds st ev).neighbors := by
  rw [step_selfAddress]
  cases ev with
  | inbound p s =>
    simp only [step, processFsrPacket]
    split
    · exact h
    · rename_i hne
      split
      · intro hmem
        rcases mem_neighbors_of_addNeighbor st s _ hmem with h1 | h1
        · exact hne h1.symm
        · exact h h1
      · split
        · rw [processLSP_neighbors]; exact h
        · exact h
  | helloTimer =>
    simp only [step, sendHelloPacket]
    split
    · exact h
    · exact h
  | lspTimer =>
    simp only [step, sendTopologyUpdate]
    split
    · exact h
    · exact h
  | neighborExpiry n =>
    simp only [step]
    rw [removeNeighbor_neighbors]
    intro hmem
    exact h (List.mem_filter.1 hmem).1
  | ageTimer => exact h
  | elapse d => exact h

theorem run_self_not_neighbor (kinds : PacketKinds) (events : List Event) :
    ∀ st, st.selfAddress ∉ st.neighbors →
      (run kinds st events).selfAddress ∉ (run kinds st events).neighbors := by
  induction events with
  | nil => intro st h; exact h
  | cons ev rest ih =>
    intro st h
    simp only [run]
    exact ih _ (step_self_not_neighbor kinds st ev h)

/-! ## Claims on the shortest-path computation -/

/-- C24 (as amended): take any state a run reaches from a state in which self
is not in its own neighbor set (`processFsrPacket` never adds self). For every
route (destination `d`, next hop `n`) that `calculateShortestPath` produces
there, `n` is a live neighbor or is listed in the database entry of self, and
there is a walk `self -> n -> ... -> d` over seeded neighbor links and listed
adjacencies, each followed from a key to an address its entry lists, whose
number of links is the final `dist[d]` and is at most the number of links of
every such directed walk from self to `d`: `n` is the first hop of a shortest
directed walk. -/
theorem C24_next_hop_compression (kinds : PacketKinds) (st0 : FsrState) (events : List Event)
    (h0 : st0.selfAddress ∉ st0.neighbors) :
    ∀ r ∈ routesOf (calculateShortestPath (run kinds st0 events)),
      r.sourceType = SourceType.MANET →
      (r.nextHop ∈ (run kinds st0 events).neighbors ∨
        r.nextHop ∈ linksOf (run kinds st0 events).topologyTable
          (run kinds st0 events).selfAddress) ∧
      ∃ k, mapFind (shortestPaths (run kinds st0 events)).dist r.destination = some k ∧
        Hops (run kinds st0 events).selfAddress (run kinds st0 events).topologyTable
          (run kinds st0 events).neighbors r.nextHop k r.destination ∧
        ∀ j, Walk (run kinds st0 events).selfAddress (run kinds st0 events).topologyTable
          (run kinds st0 events).neighbors j r.destination → k ≤ j := by
  intro r hr hm
  obtain ⟨level, hb⟩ := bfs_shortestPaths _ (run_self_not_neighbor kinds events st0 h0)
  obtain ⟨k, hk, hh, hmin⟩ := bfs_shortest hb _ _ (mapFind_prev_of_route _ r hr hm)
  refine ⟨?_, k, hk, hh, hmin⟩
  rcases hops_first hh with ⟨_, h⟩ | h
  · exact Or.inl h
  · exact Or.inr h

/-- C24 on the line A - B - C at A: the route to C has next hop B, the walk
`A -> B -> C` has two links and no walk from A to C has fewer. -/
theorem C24_next_hop_compression_witness :
    (⟨3, ALLONES_ADDRESS, 2, 100, SourceType.MANET, 1⟩ : Ipv4Route)
        ∈ routesOf (calculateShortestPath lineAtA) ∧
      ((2 : Nat) ∈ lineAtA.neighbors ∨
        (2 : Nat) ∈ linksOf lineAtA.topologyTable lineAtA.selfAddress) ∧
      ∃ k, mapFind (shortestPaths lineAtA).dist 3 = some k ∧
        Hops lineAtA.selfAddress lineAtA.topologyTable lineAtA.neighbors 2 k 3 ∧
        ∀ j, Walk lineAtA.selfAddress lineAtA.topologyTable lineAtA.neighbors j 3 → k ≤ j :=
  ⟨by decide,
    C24_next_hop_compression sampleKinds lineAtA [] (by decide)
      ⟨3, ALLONES_ADDRESS, 2, 100, SourceType.MANET, 1⟩ (by decide) rfl⟩

/-- C24 as stated fails when the listed adjacencies are taken in both
directions: at A = 1 with live neighbors 2 and 3 and database
`{1:[2,3], 2:[1,5], 3:[1], 5:[2,6], 6:[5,9], 9:[3]}` the route to 9 has next
hop 2 and `dist[9]` is 4 (the walk `1 -> 2 -> 5 -> 6 -> 9`), while 9 lists 3, so
that `1 - 3 - 9` is a path of two adjacencies; 2 and 9 are not adjacent, so no
path of two adjacencies to 9 starts with 2. -/
theorem C24_counterexample :
    (⟨9, ALLONES_ADDRESS, 2, 100, SourceType.MANET, 1⟩ : Ipv4Route)
        ∈ routesOf (calculateShortestPath detourAtA) ∧
      (∀ r ∈ routesOf (calculateShortestPath detourAtA), r.destination = 9 → r.nextHop = 2) ∧
      mapFind (shortestPaths detourAtA).dist 9 = some 4 ∧
      Hops detourAtA.selfAddress detourAtA.topologyTable detourAtA.neighbors 2 4 9 ∧
      (3 : Nat) ∈ detourAtA.neighbors ∧
      (3 : Nat) ∈ linksOf detourAtA.topologyTable 9 ∧
      Path detourAtA.selfAddress detourAtA.topologyTable detourAtA.neighbors 2 9 ∧
      ¬ Adjacent detourAtA.selfAddress detourAtA.topologyTable detourAtA.neighbors 2 9 := by
  have h1 : Hops detourAtA.selfAddress detourAtA.topologyTable detourAtA.neighbors 2 1 2 :=
    Hops.first (by decide)
  have h2 : Hops detourAtA.selfAddress detourAtA.topologyTable detourAtA.neighbors 2 2 5 :=
    Hops.next h1 (by decide)
  have h3 : Hops detourAtA.selfAddress detourAtA.topologyTable detourAtA.neighbors 2 3 6 :=
    Hops.next h2 (by decide)
  have p1 : Path detourAtA.selfAddress detourAtA.topologyTable detourAtA.neighbors 1 3 :=
    Path.next Path.start (by decide)
  exact ⟨by decide, by decide, by decide, Hops.next h3 (by decide), by decide, by decide,
    Path.next p1 (by decide), by decide⟩

/-- C25 at node A = 1 with the live neighbors 2, 3, 4, 5 and the database
`{1:[], 5:[1,6], 6:[5]}`: the loop `while (visited.size() <
topologyTable.size() + 1)` makes four passes and visits 1, 2, 3, 4. When it
stops, the neighbor 5 is unvisited at distance 1, and the database key 6,
which is reached over `1 -> 5 -> 6`, is left at `UINT32_MAX` without `prev` and
without route. With one neighbor fewer the same database gives the route to 6
over 5. -/
theorem C25_traversal_stops_early :
    (shortestPaths crowdedAtA).visited = [1, 2, 3, 4] ∧
      (shortestPaths crowdedAtA).visited.length = crowdedAtA.topologyTable.length + 1 ∧
      (5 : Nat) ∉ (shortestPaths crowdedAtA).visited ∧
      mapFind (shortestPaths crowdedAtA).dist 5 = some 1 ∧
      (6 : Nat) ∈ crowdedAtA.topologyTable.map Prod.fst ∧
      Hops crowdedAtA.selfAddress crowdedAtA.topologyTable crowdedAtA.neighbors 5 2 6 ∧
      mapFind (shortestPaths crowdedAtA).dist 6 = some UINT32_MAX ∧
      mapFind (shortestPaths crowdedAtA).prev 6 = none ∧
      (∀ r ∈ routesOf (calculateShortestPath crowdedAtA), r.destination ≠ 6) ∧
      (⟨6, ALLONES_ADDRESS, 5, 100, SourceType.MANET, 1⟩ : Ipv4Route)
        ∈ routesOf (calculateShortestPath { crowdedAtA with neighbors := [2, 3, 5] }) := by
  refine ⟨by decide, by decide, by decide, by decide, by decide, ?_, by decide, by decide,
    by decide, by decide⟩
  exact Hops.next (Hops.first (by decide)) (by decide)

end Fsr
